import Mathlib

/-!
Pixel buffers, colour conversion and drawing primitives of `millken/x/pixel`

A shallow embedding of `pixel/pixelcolor/color.go`, `pixel/pixelcolor/color_table_gen.go`,
`pixel/image.go`, `pixel/draw.go`, `pixel/fx.go`, `pixel/util.go`,
`pixel/pixeleffect/fade.go` (the shift fade) and `buffer/buffer.go` (integer writes).

Conventions of the embedding.

* Unsigned machine integers (`uint8`, `uint16`, `uint32`) are natural numbers; a
  conversion that truncates in Go is written with an explicit `% 2 ^ w`.
* Go's `int` (coordinates, strides, offsets) is `Int`; `y >> 3` on a signed value is
  floor division by 8 and `y & 7` is the non-negative remainder modulo 8, so they
  are written `y / 8` and `y % 8`.  Sizes are assumed to stay below the `int` range.
* In `Line`, whose result depends on them, the wrap-around of `int` (taken as 64 bits
  wide, as on the platforms Go calls 64-bit) and the rounding of `float64` are explicit:
  `wrapInt` and `roundFloat`.
* A byte slice is a `List Nat`.  An operation that can panic at run time (index or
  slice bound out of range, `make` with a negative length) returns `Option`, with
  `none` standing for the panic.
-/

namespace pixelcolor

/-! ## Lookup tables (`generateLUT`) -/

/-- Entry `v` of the table `lut<bits>to8` that `generateLUT` prints:
`x | x<<8` with `x = floor(v*255/(max-1) + 0.5)` and `max = 1 << bits`.
The rounding is computed on integers, `floor((2*v*255 + (max-1)) / (2*(max-1)))`;
`max-1` is odd, so `v*255/(max-1) + 0.5` is never within `1/126` of an integer
and the `float64` evaluation of the source yields the same integer. -/
def lutTo8 (bits v : Nat) : Nat :=
  let max := 1 <<< bits
  let x := (2 * (v * 255) + (max - 1)) / (2 * (max - 1))
  x ||| (x <<< 8)

/-- Entry `v` of the table `lut8to<bits>` that `generateLUT` prints:
`floor(v*(max-1)/255 + 0.5)` with `max = 1 << bits`, computed on integers as
`floor((2*v*(max-1) + 255) / 510)` (255 is odd, so no rounding tie occurs). -/
def lut8To (bits v : Nat) : Nat :=
  let max := 1 <<< bits
  (2 * (v * (max - 1)) + 255) / (2 * 255)

def lut2to8 (v : Nat) : Nat := lutTo8 2 v
def lut3to8 (v : Nat) : Nat := lutTo8 3 v
def lut4to8 (v : Nat) : Nat := lutTo8 4 v
def lut5to8 (v : Nat) : Nat := lutTo8 5 v
def lut6to8 (v : Nat) : Nat := lutTo8 6 v
def lut8to2 (v : Nat) : Nat := lut8To 2 v
def lut8to3 (v : Nat) : Nat := lut8To 3 v
def lut8to4 (v : Nat) : Nat := lut8To 4 v
def lut8to5 (v : Nat) : Nat := lut8To 5 v
def lut8to6 (v : Nat) : Nat := lut8To 6 v

/-- The 8-bit value a `To*` converter feeds to `lut8to<bits>` when the channel
comes from `lut<bits>to8[v]`: the high byte `(lut[v] >> 8) & 0xff`. -/
def expand (bits v : Nat) : Nat := (lutTo8 bits v >>> 8) &&& 0xff

/-- Value of `lut8to<bits>[u]`. -/
def reduce (bits u : Nat) : Nat := lut8To bits u

/-! ## Colours -/

/-- Struct `RGB888` of `color.go`: three `uint8` channels. -/
structure RGB888 where
  R : Nat
  G : Nat
  B : Nat
  deriving DecidableEq, Repr

/-- Values of the interface `color.Color` that the package distinguishes.
The packed types of `color.go` carry their underlying unsigned integer;
`gray16` and `rgba` are `color.Gray16` and `color.RGBA` of the standard library;
`other r g b a` is a value of any further type, given by what its `RGBA()` method
returns (four `uint32`). -/
inductive Color where
  | bit (c : Bool)
  | rgb332 (c : Nat)
  | rgb565 (c : Nat)
  | rgb888 (c : RGB888)
  | rgba4444 (c : Nat)
  | rgba5551 (c : Nat)
  | argb8888 (c : Nat)
  | gray16 (y : Nat)
  | rgba (r g b a : Nat)
  | other (r g b a : Nat)
  deriving DecidableEq, Repr

/-- Constants `Off` and `On`. -/
def Off : Bool := false
def On : Bool := true

/-- The value `color.Black`, which is `color.Gray16{0}`. -/
def Black : Color := Color.gray16 0

/-- A colour value lies in the range of its Go type. -/
def Color.wf : Color → Prop
  | .bit _ => True
  | .rgb332 c => c < 2 ^ 8
  | .rgb565 c => c < 2 ^ 16
  | .rgb888 c => c.R < 2 ^ 8 ∧ c.G < 2 ^ 8 ∧ c.B < 2 ^ 8
  | .rgba4444 c => c < 2 ^ 16
  | .rgba5551 c => c < 2 ^ 16
  | .argb8888 c => c < 2 ^ 32
  | .gray16 y => y < 2 ^ 16
  | .rgba r g b a => r < 2 ^ 8 ∧ g < 2 ^ 8 ∧ b < 2 ^ 8 ∧ a < 2 ^ 8
  | .other r g b a => r < 2 ^ 32 ∧ g < 2 ^ 32 ∧ b < 2 ^ 32 ∧ a < 2 ^ 32

instance (c : Color) : Decidable c.wf := by
  cases c <;> unfold Color.wf <;> infer_instance

/-- Method `RGBA()` of each colour type. -/
def Color.RGBA : Color → Nat × Nat × Nat × Nat
  | .bit c => if c then (0xffff, 0xffff, 0xffff, 0xffff) else (0, 0, 0, 0xffff)
  | .rgb332 c =>
      (lut3to8 ((c &&& 0b11100000) >>> 5), lut3to8 ((c &&& 0b00011100) >>> 2),
        lut2to8 ((c &&& 0b00000011) >>> 0), 0xffff)
  | .rgb565 c =>
      (lut5to8 ((c &&& 0b1111100000000000) >>> 11), lut6to8 ((c &&& 0b0000011111100000) >>> 5),
        lut5to8 ((c &&& 0b0000000000011111) >>> 0), 0xffff)
  | .rgb888 c => (c.R ||| (c.R <<< 8), c.G ||| (c.G <<< 8), c.B ||| (c.B <<< 8), 0xffff)
  | .rgba4444 c =>
      (lut4to8 ((c &&& 0b1111000000000000) >>> 12), lut4to8 ((c &&& 0b0000111100000000) >>> 8),
        lut4to8 ((c &&& 0b0000000011110000) >>> 4), lut4to8 ((c &&& 0b0000000000001111) >>> 0))
  | .rgba5551 c =>
      (lut5to8 ((c &&& 0b1111100000000000) >>> 11), lut5to8 ((c &&& 0b0000011111000000) >>> 6),
        lut5to8 ((c &&& 0b0000000000111110) >>> 1),
        if c &&& 0b0000000000000001 = 1 then 0xffff else 0)
  | .argb8888 c =>
      ((c &&& 0x0f00) >>> 8, (c &&& 0x00f0) >>> 4, (c &&& 0x000f) >>> 0, (c &&& 0xf000) >>> 12)
  | .gray16 y => (y, y, y, 0xffff)
  | .rgba r g b a => (r ||| (r <<< 8), g ||| (g <<< 8), b ||| (b <<< 8), a ||| (a <<< 8))
  | .other r g b a => (r, g, b, a)

/-- A colour of some further type whose `RGBA()` method returns the same four
values as that of `c`. -/
def Color.generic (c : Color) : Color :=
  .other c.RGBA.1 c.RGBA.2.1 c.RGBA.2.2.1 c.RGBA.2.2.2

/-- Function `ToBit`: a `Bit` is returned as is, any other colour is thresholded on
the luma `(19595*r + 38470*g + 7471*b + 1<<15) >> 24`, computed in `uint32`. -/
def ToBit (c : Color) : Bool :=
  match c with
  | .bit c => c
  | c =>
    let (r, g, b, _) := c.RGBA
    let y := ((19595 * r + 38470 * g + 7471 * b + (1 <<< 15)) % 2 ^ 32) >>> 24
    decide (y ≥ 0x80)

/-- Function `ToRGB332`, returning the underlying `uint8`. -/
def ToRGB332 (c : Color) : Nat :=
  match c with
  | .rgb332 c => c
  | c =>
    let (r, g, b, _) := c.RGBA
    let r := lut8to3 ((r >>> 8) &&& 0xff)
    let g := lut8to3 ((g >>> 8) &&& 0xff)
    let b := lut8to2 ((b >>> 8) &&& 0xff)
    ((r <<< 5) ||| (g <<< 2) ||| b) % 2 ^ 8

/-- Function `ToRGB565`, returning the underlying `uint16`; it has no shortcut for a
colour that already is an `RGB565`. -/
def ToRGB565 (c : Color) : Nat :=
  let (r, g, b, _) := c.RGBA
  let r := lut8to5 ((r >>> 8) &&& 0xff)
  let g := lut8to6 ((g >>> 8) &&& 0xff)
  let b := lut8to5 ((b >>> 8) &&& 0xff)
  ((r <<< 11) ||| (g <<< 5) ||| b) % 2 ^ 16

/-- Function `ToRGB888`: `RGB888{byte(r), byte(g), byte(b)}`. -/
def ToRGB888 (c : Color) : RGB888 :=
  let (r, g, b, _) := c.RGBA
  ⟨r % 2 ^ 8, g % 2 ^ 8, b % 2 ^ 8⟩

/-- Function `ToRGBA4444`, returning the underlying `uint16`. -/
def ToRGBA4444 (c : Color) : Nat :=
  match c with
  | .rgba4444 c => c
  | c =>
    let (r, g, b, a) := c.RGBA
    let r := lut8to4 ((r >>> 8) &&& 0xff)
    let g := lut8to4 ((g >>> 8) &&& 0xff)
    let b := lut8to4 ((b >>> 8) &&& 0xff)
    let a := lut8to4 ((a >>> 8) &&& 0xff)
    ((r <<< 12) ||| (g <<< 8) ||| (b <<< 4) ||| a) % 2 ^ 16

/-- Function `ToRGBA5551`, returning the underlying `uint16`. -/
def ToRGBA5551 (c : Color) : Nat :=
  match c with
  | .rgba5551 c => c
  | c =>
    let (r, g, b, a) := c.RGBA
    let r := lut8to5 ((r >>> 8) &&& 0xff)
    let g := lut8to5 ((g >>> 8) &&& 0xff)
    let b := lut8to5 ((b >>> 8) &&& 0xff)
    let a := if a > 0 then 1 else a
    ((r <<< 11) ||| (g <<< 6) ||| (b <<< 1) ||| a) % 2 ^ 16

/-- Function `ToARGB8888`, returning the underlying `uint32`. -/
def ToARGB8888 (c : Color) : Nat :=
  match c with
  | .argb8888 c => c
  | c =>
    let (r, g, b, a) := c.RGBA
    let r := r >>> 8
    let g := g >>> 8
    let b := b >>> 8
    let a := a >>> 8
    (((a &&& 0xff) <<< 12) ||| ((r &&& 0xff) <<< 8) ||| ((g &&& 0xff) <<< 4) ||| (b &&& 0xff)) % 2 ^ 32

end pixelcolor

namespace pixel

/-! ## Byte slices -/

/-- Builtin `make([]byte, n)`: `n` zero bytes; a negative length panics. -/
def make (n : Int) : Option (List Nat) :=
  if 0 ≤ n then some (List.replicate n.toNat 0) else none

/-- Index expression `b[i]` read: panics when `i` is out of range. -/
def index (b : List Nat) (i : Int) : Option Nat :=
  if 0 ≤ i then b[i.toNat]? else none

/-- Assignment `b[i] = v`: panics when `i` is out of range. -/
def setIndex (b : List Nat) (i : Int) (v : Nat) : Option (List Nat) :=
  if 0 ≤ i ∧ i < b.length then some (b.set i.toNat v) else none

/-- Builtin `copy(dst[off:], src)` for `off ≤ len(dst)`, as its effect on `dst`:
the first `min(len(dst) - off, len(src))` bytes of `src` overwrite `dst` from `off` on. -/
def copyAt (dst : List Nat) (off : Nat) (src : List Nat) : List Nat :=
  dst.take off ++ src.take (dst.length - off) ++ dst.drop (off + src.length)

/-- Statement `copy(b[off:], src)` with an `int` offset: the slice expression panics
unless `0 ≤ off ≤ len(b)`. -/
def copyFrom (b : List Nat) (off : Int) (src : List Nat) : Option (List Nat) :=
  if 0 ≤ off ∧ off ≤ b.length then some (copyAt b off.toNat src) else none

/-- Call `binary.BigEndian.Uint16(b[off:])`: `uint16(s[1]) | uint16(s[0])<<8` on the
slice `s = b[off:]`; it panics unless two bytes are available from `off` on. -/
def Uint16 (b : List Nat) (off : Int) : Option Nat := do
  let b0 ← index b off
  let b1 ← index b (off + 1)
  pure (b1 ||| (b0 <<< 8))

/-- Call `binary.BigEndian.PutUint16(b[off:], v)`: `s[0] = byte(v >> 8); s[1] = byte(v)`
on the slice `s = b[off:]`; it panics unless two bytes are available from `off` on. -/
def PutUint16 (b : List Nat) (off : Int) (v : Nat) : Option (List Nat) :=
  if 0 ≤ off ∧ off + 2 ≤ b.length then
    some (copyAt b off.toNat [(v >>> 8) % 2 ^ 8, v % 2 ^ 8])
  else none

/-! ## util.go -/

/-- Loop `for ; i < l; i <<= 1 { copy(b[i:], b[:i]) }` shared by `memset` and
`memsetSlice`, with `l = len(b)`.  The first argument bounds the number of
iterations; `none` means the bound was reached with the loop still running. -/
def doublingLoop : Nat → List Nat → Nat → Option (List Nat)
  | 0, b, i => if i < b.length then none else some b
  | fuel + 1, b, i =>
    if i < b.length then doublingLoop fuel (copyAt b i (b.take i)) (i <<< 1) else some b

/-- Function `memset`.  The loop starts at `i = 1` and doubles `i`, so it runs
fewer than `len(b)` times. -/
def memset (b : List Nat) (v : Nat) : Option (List Nat) :=
  if b.length = 0 then some b else doublingLoop b.length (b.set 0 v) 1

/-- Function `memsetSlice`: `i := copy(b, v)` copies `min(len(b), len(v))` bytes.
When `i ≥ 1` the loop runs fewer than `len(b)` times; when `v` is empty and `b`
is not, `i` stays `0` and the Go loop never ends, which the bound turns into `none`. -/
def memsetSlice (b v : List Nat) : Option (List Nat) :=
  doublingLoop b.length (copyAt b 0 v) (min b.length v.length)

/-! ## image.go -/

/-- Struct `image.Point`. -/
structure Point where
  X : Int
  Y : Int
  deriving DecidableEq, Repr

/-- Struct `image.Rectangle`. -/
structure Rectangle where
  Min : Point
  Max : Point
  deriving DecidableEq, Repr

/-- Method `image.Point.In`. -/
def Point.In (p : Point) (r : Rectangle) : Prop :=
  r.Min.X ≤ p.X ∧ p.X < r.Max.X ∧ r.Min.Y ≤ p.Y ∧ p.Y < r.Max.Y

instance (p : Point) (r : Rectangle) : Decidable (p.In r) := by
  unfold Point.In; infer_instance

/-- Type `Format`, an `int`. -/
abbrev Format := Int

def UnknownFormat : Format := 0
def MHMSBFormat : Format := 1
def MVLSBFormat : Format := 2
def RGB332Format : Format := 3
def RGB565Format : Format := 4
def RGB888Format : Format := 5
def RGBA4444Format : Format := 6
def RGBA5551Format : Format := 7

structure Bitmap where
  Rect : Rectangle
  Pix : List Nat
  Stride : Int
  Format : Format
  deriving DecidableEq, Repr

structure RGB332 where
  Rect : Rectangle
  Pix : List Nat
  Stride : Int
  deriving DecidableEq, Repr

structure RGB565 where
  Rect : Rectangle
  Pix : List Nat
  Stride : Int
  deriving DecidableEq, Repr

structure RGB888 where
  Rect : Rectangle
  Pix : List Nat
  Stride : Int
  deriving DecidableEq, Repr

structure RGBA4444 where
  Rect : Rectangle
  Pix : List Nat
  Stride : Int
  deriving DecidableEq, Repr

structure RGBA5551 where
  Rect : Rectangle
  Pix : List Nat
  Stride : Int
  deriving DecidableEq, Repr

/-- Function `NewBitmap`: `pix = area >> 3`, one more when `pix << 3 != area`. -/
def NewBitmap (w h : Int) : Option Bitmap :=
  let area := w * h
  let pix := area / 8
  let pix := if pix * 8 ≠ area then pix + 1 else pix
  (make pix).map fun p => { Rect := ⟨⟨0, 0⟩, ⟨w, h⟩⟩, Pix := p, Stride := w, Format := MVLSBFormat }

/-- Method `Bitmap.PixOffset`: byte offset and bit mask `1 << bit` of a pixel. -/
def Bitmap.PixOffset (b : Bitmap) (x y : Int) : Int × Nat :=
  if b.Format = MVLSBFormat then
    ((y / 8) * b.Stride + x, 1 <<< (y % 8).toNat)
  else
    ((y * b.Stride + x) / 8, 1 <<< (7 - y % 8).toNat)

/-- Method `Bitmap.At`. -/
def Bitmap.At (b : Bitmap) (x y : Int) : Option pixelcolor.Color :=
  if x < 0 ∨ y < 0 ∨ x ≥ b.Rect.Max.X ∨ y ≥ b.Rect.Max.Y then
    some (.bit pixelcolor.Off)
  else
    let (offset, mask) := b.PixOffset x y
    if offset ≥ b.Pix.length then some (.bit pixelcolor.Off)
    else (index b.Pix offset).map fun p => .bit (decide (p &&& (mask % 2 ^ 8) ≠ 0))

/-- Method `Bitmap.SetBit`: `Pix[offset] |= byte(mask)` or `Pix[offset] &= ^byte(mask)`,
skipped when the offset is outside `Pix`. -/
def Bitmap.SetBit (b : Bitmap) (x y : Int) (c : Bool) : Option Bitmap :=
  let (offset, mask) := b.PixOffset x y
  if offset < 0 ∨ offset ≥ b.Pix.length then some b
  else do
    let p ← index b.Pix offset
    let q := if c then p ||| (mask % 2 ^ 8) else p &&& (0xff ^^^ (mask % 2 ^ 8))
    let pix ← setIndex b.Pix offset q
    pure { b with Pix := pix }

/-- Method `Bitmap.Set`. -/
def Bitmap.Set (b : Bitmap) (x y : Int) (c : pixelcolor.Color) : Option Bitmap :=
  b.SetBit x y (pixelcolor.ToBit c)

/-- Method `RGB332.At`. -/
def RGB332.At (b : RGB332) (x y : Int) : Option pixelcolor.Color :=
  if ¬ (Point.mk x y).In b.Rect then some (.rgb332 0)
  else (index b.Pix (y * b.Stride + x)).map .rgb332

/-- Method `RGB332.Set`. -/
def RGB332.Set (b : RGB332) (x y : Int) (c : pixelcolor.Color) : Option RGB332 :=
  if ¬ (Point.mk x y).In b.Rect then some b
  else (setIndex b.Pix (y * b.Stride + x) (pixelcolor.ToRGB332 c % 2 ^ 8)).map
    fun p => { b with Pix := p }

/-- Function `NewRGB332`. -/
def NewRGB332 (w h : Int) : Option RGB332 :=
  (make (w * h)).map fun p => { Rect := ⟨⟨0, 0⟩, ⟨w, h⟩⟩, Stride := w, Pix := p }

/-- Method `RGB565.OffsetOf`. -/
def RGB565.OffsetOf (b : RGB565) (x y : Int) : Int := y * b.Stride + x * 2

/-- Method `RGB565.At`. -/
def RGB565.At (b : RGB565) (x y : Int) : Option pixelcolor.Color :=
  if ¬ (Point.mk x y).In b.Rect then some (.rgb565 0)
  else (Uint16 b.Pix (b.OffsetOf x y)).map .rgb565

/-- Method `RGB565.Set`. -/
def RGB565.Set (b : RGB565) (x y : Int) (c : pixelcolor.Color) : Option RGB565 :=
  if ¬ (Point.mk x y).In b.Rect then some b
  else (PutUint16 b.Pix (b.OffsetOf x y) (pixelcolor.ToRGB565 c)).map
    fun p => { b with Pix := p }

/-- Function `NewRGB565`. -/
def NewRGB565 (w h : Int) : Option RGB565 :=
  (make (w * h * 2)).map fun p => { Rect := ⟨⟨0, 0⟩, ⟨w, h⟩⟩, Pix := p, Stride := w * 2 }

/-- Method `RGB888.OffsetOf`. -/
def RGB888.OffsetOf (b : RGB888) (x y : Int) : Int := y * b.Stride + x * 3

/-- Method `RGB888.At`: `v := b.Pix[off:]`, then `RGB888{v[0], v[1], v[2]}`. -/
def RGB888.At (b : RGB888) (x y : Int) : Option pixelcolor.Color :=
  if ¬ (Point.mk x y).In b.Rect then some pixelcolor.Black
  else do
    let off := b.OffsetOf x y
    let v0 ← index b.Pix off
    let v1 ← index b.Pix (off + 1)
    let v2 ← index b.Pix (off + 2)
    pure (.rgb888 ⟨v0, v1, v2⟩)

/-- Method `RGB888.Set`: `copy(b.Pix[off:], []byte{v.R, v.G, v.B})`. -/
def RGB888.Set (b : RGB888) (x y : Int) (c : pixelcolor.Color) : Option RGB888 :=
  if ¬ (Point.mk x y).In b.Rect then some b
  else
    let v := pixelcolor.ToRGB888 c
    (copyFrom b.Pix (b.OffsetOf x y) [v.R, v.G, v.B]).map fun p => { b with Pix := p }

/-- Function `NewRGB888`. -/
def NewRGB888 (w h : Int) : Option RGB888 :=
  (make (w * h * 3)).map fun p => { Rect := ⟨⟨0, 0⟩, ⟨w, h⟩⟩, Pix := p, Stride := w * 3 }

/-- Method `RGBA4444.OffsetOf`. -/
def RGBA4444.OffsetOf (b : RGBA4444) (x y : Int) : Int := y * b.Stride + x * 3

/-- Method `RGBA4444.At`. -/
def RGBA4444.At (b : RGBA4444) (x y : Int) : Option pixelcolor.Color :=
  if ¬ (Point.mk x y).In b.Rect then some pixelcolor.Black
  else (Uint16 b.Pix (b.OffsetOf x y)).map .rgba4444

/-- Method `RGBA4444.Set`. -/
def RGBA4444.Set (b : RGBA4444) (x y : Int) (c : pixelcolor.Color) : Option RGBA4444 :=
  if ¬ (Point.mk x y).In b.Rect then some b
  else (PutUint16 b.Pix (b.OffsetOf x y) (pixelcolor.ToRGBA4444 c)).map
    fun p => { b with Pix := p }

/-- Function `NewRGBA4444`. -/
def NewRGBA4444 (w h : Int) : Option RGBA4444 :=
  (make (w * h * 2)).map fun p => { Rect := ⟨⟨0, 0⟩, ⟨w, h⟩⟩, Pix := p, Stride := w * 2 }

/-- Method `RGBA5551.OffsetOf`. -/
def RGBA5551.OffsetOf (b : RGBA5551) (x y : Int) : Int := y * b.Stride + x * 3

/-- Method `RGBA5551.At`. -/
def RGBA5551.At (b : RGBA5551) (x y : Int) : Option pixelcolor.Color :=
  if ¬ (Point.mk x y).In b.Rect then some pixelcolor.Black
  else (Uint16 b.Pix (b.OffsetOf x y)).map .rgba5551

/-- Method `RGBA5551.Set`. -/
def RGBA5551.Set (b : RGBA5551) (x y : Int) (c : pixelcolor.Color) : Option RGBA5551 :=
  if ¬ (Point.mk x y).In b.Rect then some b
  else (PutUint16 b.Pix (b.OffsetOf x y) (pixelcolor.ToRGBA5551 c)).map
    fun p => { b with Pix := p }

/-- Function `NewRGBA5551`. -/
def NewRGBA5551 (w h : Int) : Option RGBA5551 :=
  (make (w * h * 2)).map fun p => { Rect := ⟨⟨0, 0⟩, ⟨w, h⟩⟩, Pix := p, Stride := w * 2 }

/-- Interface `Image`, closed over the concrete buffer types of the package. -/
inductive Image where
  | bitmap (b : Bitmap)
  | rgb332 (b : RGB332)
  | rgb565 (b : RGB565)
  | rgb888 (b : RGB888)
  | rgba4444 (b : RGBA4444)
  | rgba5551 (b : RGBA5551)
  deriving DecidableEq, Repr

/-- Method `Bounds` through the interface. -/
def Image.Bounds : Image → Rectangle
  | .bitmap b => b.Rect
  | .rgb332 b => b.Rect
  | .rgb565 b => b.Rect
  | .rgb888 b => b.Rect
  | .rgba4444 b => b.Rect
  | .rgba5551 b => b.Rect

/-- Field `Pix` of the underlying buffer. -/
def Image.Pix : Image → List Nat
  | .bitmap b => b.Pix
  | .rgb332 b => b.Pix
  | .rgb565 b => b.Pix
  | .rgb888 b => b.Pix
  | .rgba4444 b => b.Pix
  | .rgba5551 b => b.Pix

/-- Field `Stride` of the underlying buffer. -/
def Image.Stride : Image → Int
  | .bitmap b => b.Stride
  | .rgb332 b => b.Stride
  | .rgb565 b => b.Stride
  | .rgb888 b => b.Stride
  | .rgba4444 b => b.Stride
  | .rgba5551 b => b.Stride

/-- Method `At` through the interface. -/
def Image.At : Image → Int → Int → Option pixelcolor.Color
  | .bitmap b, x, y => b.At x y
  | .rgb332 b, x, y => b.At x y
  | .rgb565 b, x, y => b.At x y
  | .rgb888 b, x, y => b.At x y
  | .rgba4444 b, x, y => b.At x y
  | .rgba5551 b, x, y => b.At x y

/-- Method `Set` through the interface. -/
def Image.Set : Image → Int → Int → pixelcolor.Color → Option Image
  | .bitmap b, x, y, c => (b.Set x y c).map .bitmap
  | .rgb332 b, x, y, c => (b.Set x y c).map .rgb332
  | .rgb565 b, x, y, c => (b.Set x y c).map .rgb565
  | .rgb888 b, x, y, c => (b.Set x y c).map .rgb888
  | .rgba4444 b, x, y, c => (b.Set x y c).map .rgba4444
  | .rgba5551 b, x, y, c => (b.Set x y c).map .rgba5551

/-- Function `New`: the outer `Option` is a panic of `make`, the `Except` is the
returned `error`. -/
def New (width height : Int) (format : Format) : Option (Except String Image) :=
  if format = MHMSBFormat ∨ format = MVLSBFormat then
    (NewBitmap width height).map fun b => .ok (.bitmap { b with Format := format })
  else if format = RGB332Format then (NewRGB332 width height).map fun b => .ok (.rgb332 b)
  else if format = RGB565Format then (NewRGB565 width height).map fun b => .ok (.rgb565 b)
  else if format = RGB888Format then (NewRGB888 width height).map fun b => .ok (.rgb888 b)
  else if format = RGBA4444Format then (NewRGBA4444 width height).map fun b => .ok (.rgba4444 b)
  else if format = RGBA5551Format then (NewRGBA5551 width height).map fun b => .ok (.rgba5551 b)
  else some (.error "framebuffer: invalid format")

/-! ## draw.go -/

/-- The integers `lo, lo+1, ..., hi-1` visited by `for v := lo; v < hi; v++`. -/
def intRange (lo hi : Int) : List Int :=
  (List.range (hi - lo).toNat).map fun (k : Nat) => lo + (k : Int)

/-- Default branch of `Fill`: `Set(x, y, c)` for every `y` of `[Min.Y, Max.Y)` and,
inside, every `x` of `[Min.X, Max.X)`. -/
def fillGeneric (b : Image) (c : pixelcolor.Color) : Option Image :=
  let r := b.Bounds
  (intRange r.Min.Y r.Max.Y).foldlM
    (fun b y => (intRange r.Min.X r.Max.X).foldlM (fun b x => b.Set x y c) b) b

/-- Function `Fill`. -/
def Fill (b : Image) (c : pixelcolor.Color) : Option Image :=
  match b with
  | .bitmap b =>
    (if pixelcolor.ToBit c then memset b.Pix 0xff else memset b.Pix 0x00).map
      fun p => .bitmap { b with Pix := p }
  | .rgb565 b =>
    let v := pixelcolor.ToRGB565 c
    (memsetSlice b.Pix [(v >>> 8) % 2 ^ 8, v % 2 ^ 8]).map fun p => .rgb565 { b with Pix := p }
  | .rgb888 b =>
    let v := pixelcolor.ToRGB888 c
    (memsetSlice b.Pix [v.R, v.G, v.B]).map fun p => .rgb888 { b with Pix := p }
  | b => fillGeneric b c

/-- Call `memsetSlice(b[lo:hi], v)` as its effect on `b`: the slice expression panics
unless `0 ≤ lo ≤ hi ≤ len(b)` (the buffers of this package have `cap(Pix) = len(Pix)`),
and `memsetSlice` then works on the bytes `lo .. hi-1` only. -/
def memsetSliceRange (b : List Nat) (lo hi : Int) (v : List Nat) : Option (List Nat) :=
  if 0 ≤ lo ∧ lo ≤ hi ∧ hi ≤ b.length then
    (memsetSlice ((b.drop lo.toNat).take (hi.toNat - lo.toNat)) v).map
      fun s => b.take lo.toNat ++ s ++ b.drop hi.toNat
  else none

/-- Statement `b.Pix[index] = (b.Pix[index] & ^(0x01 << offset)) | v<<offset` of the
bitmap branches of `fillRectangle`, on bytes. -/
def putBit (pix : List Nat) (idx : Int) (offset : Nat) (v : Nat) : Option (List Nat) := do
  let p ← index pix idx
  setIndex pix idx ((p &&& (0xff ^^^ ((0x01 <<< offset) % 2 ^ 8))) ||| ((v <<< offset) % 2 ^ 8))

/-- Function `fillRectangle`.  In the default branch the variable `x` is shared by all
rows: the inner loop `for ; x < xe; x++` leaves it at `xe`, so the state of the outer
loop carries it along with the image. -/
def fillRectangle (b : Image) (x y width height : Int) (c : pixelcolor.Color) :
    Option Image :=
  match b with
  | .bitmap b =>
    if b.Format = MHMSBFormat then
      let v := if pixelcolor.ToBit c then 0x01 else 0x00
      ((intRange x (x + width)).foldlM
        (fun pix xx =>
          let offset := (7 - xx % 8).toNat
          (intRange y (y + height)).foldlM
            (fun pix yy => putBit pix (yy * b.Stride + xx) offset v) pix)
        b.Pix).map fun p => .bitmap { b with Pix := p }
    else if b.Format = MVLSBFormat then
      let v := if pixelcolor.ToBit c then 0x01 else 0x00
      ((intRange y (y + height)).foldlM
        (fun pix yy =>
          let idx := (yy / 8) * b.Stride + x
          let offset := (yy % 8).toNat
          (intRange 0 width).foldlM (fun pix w => putBit pix (idx + w) offset v) pix)
        b.Pix).map fun p => .bitmap { b with Pix := p }
    else some (.bitmap b)
  | .rgb565 b =>
    let r := b.Rect
    let xe := min (x + width) r.Max.X
    let ye := min (y + height) r.Max.Y
    let cv := pixelcolor.ToRGB565 c
    ((intRange y ye).foldlM
      (fun pix yy =>
        let o := yy * b.Stride + x * 2
        memsetSliceRange pix o (o + (xe - x) * 2) [(cv >>> 8) % 2 ^ 8, cv % 2 ^ 8])
      b.Pix).map fun p => .rgb565 { b with Pix := p }
  | .rgb888 b =>
    let r := b.Rect
    let xe := min (x + width) r.Max.X
    let ye := min (y + height) r.Max.Y
    let v := pixelcolor.ToRGB888 c
    ((intRange y ye).foldlM
      (fun pix yy =>
        let o := yy * b.Stride + x * 3
        memsetSliceRange pix o (o + (xe - x) * 3) [v.R, v.G, v.B])
      b.Pix).map fun p => .rgb888 { b with Pix := p }
  | b =>
    let r := b.Bounds
    let xe := min (x + width) r.Max.X
    let ye := min (y + height) r.Max.Y
    ((intRange y ye).foldlM
      (fun (st : Image × Int) yy => do
        let img ← (intRange st.2 xe).foldlM (fun (b : Image) xx => b.Set xx yy c) st.1
        pure (img, max st.2 xe))
      (b, x)).map Prod.fst

/-- Function `FillRectangle`. -/
def FillRectangle (b : Image) (r : Rectangle) (c : pixelcolor.Color) : Option Image :=
  fillRectangle b r.Min.X r.Min.Y (r.Max.X - r.Min.X) (r.Max.Y - r.Min.Y) c

/-- Methods `image.Rectangle.Dx` and `Dy`. -/
def Rectangle.Dx (r : Rectangle) : Int := r.Max.X - r.Min.X
def Rectangle.Dy (r : Rectangle) : Int := r.Max.Y - r.Min.Y

/-- Function `rectangle`. -/
def rectangle (b : Image) (x y width height : Int) (c : pixelcolor.Color) (fill : Bool) :
    Option Image :=
  let r := b.Bounds
  if width < 1 ∨ height < 1 ∨ x + width ≤ 0 ∨ y + height ≤ 0 ∨ y ≥ r.Max.Y ∨ x ≥ r.Max.X then
    some b
  else
    let xe := min (r.Max.X - 1) (x + width - 1)
    let ye := min (r.Max.Y - 1) (y + height - 1)
    let x := max x 0
    let y := max y 0
    if fill = true ∨ height = 1 ∨ width = 1 then
      fillRectangle b x y (xe - x + 1) (ye - y + 1) c
    else do
      let b ← fillRectangle b x y (xe - x + 1) 1 c
      let b ← fillRectangle b x y 1 (ye - y + 1) c
      let b ← fillRectangle b x ye (xe - x + 1) 1 c
      fillRectangle b xe y 1 (ye - y + 1) c

/-- Function `Rectangle` of draw.go. -/
def Rectangle.draw (b : Image) (r : Rectangle) (c : pixelcolor.Color) : Option Image :=
  rectangle b r.Min.X r.Min.Y r.Dx r.Dy c false

/-- Function `HLine`. -/
def HLine (b : Image) (p : Point) (width : Int) (c : pixelcolor.Color) : Option Image :=
  rectangle b p.X p.Y width 1 c false

/-- Function `VLine`. -/
def VLine (b : Image) (p : Point) (height : Int) (c : pixelcolor.Color) : Option Image :=
  rectangle b p.X p.Y 1 height c false

/-- Function `abs` of util.go. -/
def abs (v : Int) : Int := if v < 0 then -v else v

/-- Two's-complement wrap-around of Go's `int`, taken as 64 bits wide: the value congruent
to `v` modulo `2^64` in the range `[-2^63, 2^63)`. -/
def wrapInt (v : Int) : Int := (v + 2 ^ 63) % 2 ^ 64 - 2 ^ 63

/-- How many low bits the natural number `n` loses when it is cut to the 53 significant
bits of a `float64`; the first argument bounds the recursion (`n` itself is enough). -/
def excessBits : Nat → Nat → Nat
  | 0, _ => 0
  | fuel + 1, n => if n < 2 ^ 53 then 0 else excessBits fuel (n / 2) + 1

/-- Rounding of an integer to the nearest `float64`, ties to even, as done by the
conversion `float64(i)` and by every `float64` addition and subtraction (the values met
in `Line` are far from the exponent limits).  Magnitudes below `2^53` are kept. -/
def roundFloat (v : Int) : Int :=
  let n := v.natAbs
  let k := excessBits n n
  let q := n / 2 ^ k
  let r := n % 2 ^ k
  let q1 := if 2 * r > 2 ^ k ∨ (2 * r = 2 ^ k ∧ q % 2 = 1) then q + 1 else q
  if v < 0 then -((q1 * 2 ^ k : Nat) : Int) else ((q1 * 2 ^ k : Nat) : Int)

/-- First loop of `Line` (`dx > dy`): `for x != p1.X { Set(x, y); e -= float64(dy);
if e < 0 { y += sy; e += float64(dx) }; x += sx }` followed by the final `Set(x, y)`, as
the list of points passed to `Set`.  The argument `e` is twice the `float64` error term
of the source: that term starts as `float64(dx) / 2.0`, a division that is exact, so its
double is always an integer, and doubling commutes with the rounding of each operation.
`x += sx` and `y += sy` wrap like `int`.  The first argument bounds the number of
iterations; `none` means it was reached. -/
def lineLoopX (tx sx sy dx dy : Int) : Nat → Int → Int → Int → Option (List Point)
  | 0, x, y, _ => if x = tx then some [⟨x, y⟩] else none
  | fuel + 1, x, y, e =>
    if x = tx then some [⟨x, y⟩]
    else
      let e1 := roundFloat (e - 2 * roundFloat dy)
      let y1 := if e1 < 0 then wrapInt (y + sy) else y
      let e2 := if e1 < 0 then roundFloat (e1 + 2 * roundFloat dx) else e1
      (lineLoopX tx sx sy dx dy fuel (wrapInt (x + sx)) y1 e2).map fun l => ⟨x, y⟩ :: l

/-- Second loop of `Line` (`dx ≤ dy`), with the roles of the axes exchanged. -/
def lineLoopY (ty sx sy dx dy : Int) : Nat → Int → Int → Int → Option (List Point)
  | 0, x, y, _ => if y = ty then some [⟨x, y⟩] else none
  | fuel + 1, x, y, e =>
    if y = ty then some [⟨x, y⟩]
    else
      let e1 := roundFloat (e - 2 * roundFloat dx)
      let x1 := if e1 < 0 then wrapInt (x + sx) else x
      let e2 := if e1 < 0 then roundFloat (e1 + 2 * roundFloat dy) else e1
      (lineLoopY ty sx sy dx dy fuel x1 (wrapInt (y + sy)) e2).map fun l => ⟨x, y⟩ :: l

/-- The points `Line(b, p0, p1, c)` passes to `Set`, in call order, for points whose
coordinates are `int` values.  The subtraction `p1.X - p0.X` and the negation inside
`abs` wrap like `int`, so `dx` and `dy` are the values the code computes (negative for a
difference of `2^63`).  The loop on `x` moves one step toward `p1.X` per iteration, so the
true distance on that axis is its number of iterations and is given as the bound. -/
def linePoints (p0 p1 : Point) : Option (List Point) :=
  let dx := wrapInt (abs (wrapInt (p1.X - p0.X)))
  let dy := wrapInt (abs (wrapInt (p1.Y - p0.Y)))
  let sx : Int := if p0.X ≤ p1.X then 1 else -1
  let sy : Int := if p0.Y ≤ p1.Y then 1 else -1
  if dx > dy then
    lineLoopX p1.X sx sy dx dy (abs (p1.X - p0.X)).toNat p0.X p0.Y (roundFloat dx)
  else lineLoopY p1.Y sx sy dx dy (abs (p1.Y - p0.Y)).toNat p0.X p0.Y (roundFloat dy)

/-- Coordinates of magnitude at most `2^51`.  For two such points the differences
computed by `Line` stay below `2^53` in magnitude: no `int` operation wraps and every
`float64` value of the error term is exact. -/
def Point.small (p : Point) : Prop := p.X.natAbs ≤ 2 ^ 51 ∧ p.Y.natAbs ≤ 2 ^ 51

instance (p : Point) : Decidable p.small := by
  unfold Point.small
  infer_instance

/-- Not a function of the source, an auxiliary of the proofs: the loop of `lineLoopX` on
unbounded integers and with an error term that is never rounded.  For small points
`lineLoopX` computes the same list (`lineLoopX_eq_exact`). -/
def lineLoopXExact (tx sx sy dx dy : Int) : Nat → Int → Int → Int → Option (List Point)
  | 0, x, y, _ => if x = tx then some [⟨x, y⟩] else none
  | fuel + 1, x, y, e =>
    if x = tx then some [⟨x, y⟩]
    else
      let e1 := e - 2 * dy
      let y1 := if e1 < 0 then y + sy else y
      let e2 := if e1 < 0 then e1 + 2 * dx else e1
      (lineLoopXExact tx sx sy dx dy fuel (x + sx) y1 e2).map fun l => ⟨x, y⟩ :: l

/-- Not a function of the source, an auxiliary of the proofs: the loop of `lineLoopY` on
unbounded integers and with an error term that is never rounded. -/
def lineLoopYExact (ty sx sy dx dy : Int) : Nat → Int → Int → Int → Option (List Point)
  | 0, x, y, _ => if y = ty then some [⟨x, y⟩] else none
  | fuel + 1, x, y, e =>
    if y = ty then some [⟨x, y⟩]
    else
      let e1 := e - 2 * dx
      let x1 := if e1 < 0 then x + sx else x
      let e2 := if e1 < 0 then e1 + 2 * dy else e1
      (lineLoopYExact ty sx sy dx dy fuel x1 (y + sy) e2).map fun l => ⟨x, y⟩ :: l

/-- Not a function of the source, an auxiliary of the proofs: `linePoints` on unbounded
integers and with exact arithmetic.  For small points `linePoints` computes the same
list (`linePoints_eq_exact`). -/
def linePointsExact (p0 p1 : Point) : Option (List Point) :=
  let dx := abs (p1.X - p0.X)
  let dy := abs (p1.Y - p0.Y)
  let sx : Int := if p0.X ≤ p1.X then 1 else -1
  let sy : Int := if p0.Y ≤ p1.Y then 1 else -1
  if dx > dy then lineLoopXExact p1.X sx sy dx dy dx.toNat p0.X p0.Y dx
  else lineLoopYExact p1.Y sx sy dx dy dy.toNat p0.X p0.Y dy

/-- Calls `b.Set(q.X, q.Y, c)` for the points of a list, in order. -/
def setAll (b : Image) (pts : List Point) (c : pixelcolor.Color) : Option Image :=
  pts.foldlM (fun (b : Image) q => b.Set q.X q.Y c) b

/-- Function `Line`. -/
def Line (b : Image) (p0 p1 : Point) (c : pixelcolor.Color) : Option Image :=
  (linePoints p0 p1).bind fun pts => setAll b pts c

/-- Loop of `Circle` around the centre `(x, y)`, as the list of points passed to `Set`:
four calls per iteration, then `r = err`, the two conditional updates of `x1`, `y1`,
`err`, and `break` when `x1 >= 0`.  The first argument bounds the number of
iterations; `none` means it was reached. -/
def circleLoop (x y : Int) : Nat → Int → Int → Int → Option (List Point)
  | 0, _, _, _ => none
  | fuel + 1, x1, y1, err =>
    let pts : List Point :=
      [⟨x - x1, y + y1⟩, ⟨x - y1, y - x1⟩, ⟨x + x1, y - y1⟩, ⟨x + y1, y + x1⟩]
    let r := err
    let x2 := if r > x1 then x1 + 1 else x1
    let err2 := if r > x1 then err + (x2 * 2 + 1) else err
    let y2 := if r ≤ y1 then y1 + 1 else y1
    let err3 := if r ≤ y1 then err2 + (y2 * 2 + 1) else err2
    if x2 ≥ 0 then some pts
    else (circleLoop x y fuel x2 y2 err3).map fun l => pts ++ l

/-- The points `Circle(b, p, r, c)` passes to `Set`, in call order, when the loop is
allowed `fuel` iterations. -/
def circlePoints (fuel : Nat) (p : Point) (r : Int) : Option (List Point) :=
  if r < 0 then some []
  else circleLoop p.X p.Y fuel (-r) 0 (2 - 2 * r)

/-- Function `Circle`, with the loop allowed `fuel` iterations. -/
def Circle (fuel : Nat) (b : Image) (p : Point) (r : Int) (c : pixelcolor.Color) :
    Option Image :=
  (circlePoints fuel p r).bind fun pts => setAll b pts c

/-! ## fx.go -/

/-- Function `zeroRange` of util.go: `for i := n; i < l; i++ { b[i] = 0 }`. -/
def zeroRange (b : List Nat) (n l : Int) : Option (List Nat) :=
  (intRange n l).foldlM (fun b i => setIndex b i 0) b

/-- Slice expression `b[s:]`: panics unless `0 ≤ s ≤ len(b)`. -/
def sliceFrom (b : List Nat) (s : Int) : Option (List Nat) :=
  if 0 ≤ s ∧ s ≤ b.length then some (b.drop s.toNat) else none

/-- Body shared by the three cases of `ScrollUp`: `copy(pix, pix[stride:])`, then
`zeroRange(pix, l-stride, l)` with `l = len(pix)`. -/
def scrollUpPix (pix : List Nat) (stride : Int) : Option (List Nat) := do
  let src ← sliceFrom pix stride
  let pix := copyAt pix 0 src
  zeroRange pix (pix.length - stride) pix.length

/-- Body shared by the three cases of `ScrollDown`: `copy(pix[stride:], pix)`, then
`zeroRange(pix, 0, stride)`. -/
def scrollDownPix (pix : List Nat) (stride : Int) : Option (List Nat) := do
  let pix ← copyFrom pix stride pix
  zeroRange pix 0 stride

/-- Function `ScrollUp`: a type switch over `*Bitmap`, `*RGB565` and `*RGB888`; any
other buffer is left alone. -/
def ScrollUp (b : Image) : Option Image :=
  match b with
  | .bitmap b => (scrollUpPix b.Pix b.Stride).map fun p => .bitmap { b with Pix := p }
  | .rgb565 b => (scrollUpPix b.Pix b.Stride).map fun p => .rgb565 { b with Pix := p }
  | .rgb888 b => (scrollUpPix b.Pix b.Stride).map fun p => .rgb888 { b with Pix := p }
  | b => some b

/-- Function `ScrollDown`. -/
def ScrollDown (b : Image) : Option Image :=
  match b with
  | .bitmap b => (scrollDownPix b.Pix b.Stride).map fun p => .bitmap { b with Pix := p }
  | .rgb565 b => (scrollDownPix b.Pix b.Stride).map fun p => .rgb565 { b with Pix := p }
  | .rgb888 b => (scrollDownPix b.Pix b.Stride).map fun p => .rgb888 { b with Pix := p }
  | b => some b

end pixel

namespace pixeleffect

/-! ## pixeleffect/fade.go -/

/-- Constants `shiftRightRGBMaxSteps`, `shiftRightRGB565MaxSteps`, `shiftRightRGB888MaxSteps`. -/
def shiftRightRGBMaxSteps : Nat := 8
def shiftRightRGB565MaxSteps : Nat := 6
def shiftRightRGB888MaxSteps : Nat := 8

/-- Function `repeatWithin`, as the calls `f(0), ..., f(n-1)` its goroutine makes, in this
order, on the state they share; the ticker only spaces the calls in time. -/
def repeatWithin {α : Type} (n : Nat) (f : Nat → α → Option α) (a : α) : Option α :=
  (List.range n).foldlM (fun a i => f i a) a

/-- Body of the loop of `shiftRightRGB565` at byte offset `i`: the reads of `Pix[i+0]`,
`Pix[i+1]` and the two writes panic when out of range.  All values are bytes, so a left
shift is taken modulo 256. -/
def shiftRightRGB565Body (pix : List Nat) (i : Int) : Option (List Nat) := do
  let hi ← pixel.index pix (i + 0)
  let lo ← pixel.index pix (i + 1)
  let r := (hi &&& 0b11111000) >>> 4
  let g := (((hi &&& 0b00000111) <<< 2) % 2 ^ 8) ||| ((lo &&& 0b11100000) >>> 6)
  let b := (lo &&& 0b00011111) >>> 1
  let pix ← pixel.setIndex pix (i + 0) (((r <<< 3) % 2 ^ 8) ||| (g >>> 3))
  pixel.setIndex pix (i + 1) (((g <<< 5) % 2 ^ 8) ||| b)

/-- Function `shiftRightRGB565`: the loop `for i, l := 0, len(im.Pix); i < l; i += 2` runs
its body for `i = 2*k`, `k < ceil(l/2)`. -/
def shiftRightRGB565 (im : pixel.RGB565) : Option pixel.RGB565 :=
  let l := im.Pix.length
  ((List.range ((l + 1) / 2)).foldlM
    (fun pix (k : Nat) => shiftRightRGB565Body pix (2 * (k : Int))) im.Pix).map
    fun p => { im with Pix := p }

/-- Function `shiftRightRGB888`: `Pix[i+0] >>= 1; Pix[i+1] >>= 1; Pix[i+2] >>= 1` for
`i = 3*k`, `k < ceil(l/3)`. -/
def shiftRightRGB888 (im : pixel.RGB888) : Option pixel.RGB888 :=
  let l := im.Pix.length
  ((List.range ((l + 2) / 3)).foldlM
    (fun pix (k : Nat) => do
      let i : Int := 3 * (k : Int)
      let p0 ← pixel.index pix (i + 0)
      let pix ← pixel.setIndex pix (i + 0) (p0 >>> 1)
      let p1 ← pixel.index pix (i + 1)
      let pix ← pixel.setIndex pix (i + 1) (p1 >>> 1)
      let p2 ← pixel.index pix (i + 2)
      pixel.setIndex pix (i + 2) (p2 >>> 1))
    im.Pix).map fun p => { im with Pix := p }

/-- Function `shiftRightRGB`: every pixel is read with `At`, converted with `RGBA()` and
written back as `color.RGBA{uint8(r>>8)>>1, uint8(g>>8)>>1, uint8(b>>8)>>1, uint8(a>>8)>>0}`. -/
def shiftRightRGB (im : pixel.Image) : Option pixel.Image :=
  let bd := im.Bounds
  (pixel.intRange bd.Min.Y bd.Max.Y).foldlM
    (fun im y => (pixel.intRange bd.Min.X bd.Max.X).foldlM
      (fun (im : pixel.Image) x => do
        let c ← im.At x y
        let (r, g, b, a) := c.RGBA
        im.Set x y (.rgba (((r >>> 8) % 2 ^ 8) >>> 1) (((g >>> 8) % 2 ^ 8) >>> 1)
          (((b >>> 8) % 2 ^ 8) >>> 1) (((a >>> 8) % 2 ^ 8) >>> 0)))
      im)
    im

/-- Function `ShiftRight`. -/
def ShiftRight (im : pixel.Image) : Option pixel.Image :=
  match im with
  | .bitmap b => some (.bitmap b)
  | .rgb565 b => (shiftRightRGB565 b).map .rgb565
  | .rgb888 b => (shiftRightRGB888 b).map .rgb888
  | im => shiftRightRGB im

/-- Function `FadeOutShift`, as the image left when the returned channel is closed. -/
def FadeOutShift (im : pixel.Image) : Option pixel.Image :=
  match im with
  | .bitmap b => some (.bitmap b)
  | .rgb565 b =>
    (repeatWithin shiftRightRGB565MaxSteps (fun _ b => shiftRightRGB565 b) b).map .rgb565
  | .rgb888 b =>
    (repeatWithin shiftRightRGB888MaxSteps (fun _ b => shiftRightRGB888 b) b).map .rgb888
  | im => repeatWithin shiftRightRGBMaxSteps (fun _ im => shiftRightRGB im) im

end pixeleffect

namespace buffer

/-! ## buffer/buffer.go -/

/-- Struct `Buffer`, reduced to its byte slice `bs` (the pool plays no part in writing). -/
structure Buffer where
  bs : List Nat
  deriving DecidableEq, Repr

/-- Call `strconv.AppendUint(dst, i, 10)` of the standard library: `dst` followed by the
decimal digits of `i` as ASCII bytes. -/
def appendUint (dst : List Nat) (i : Nat) : List Nat :=
  dst ++ (Nat.toDigits 10 i).map Char.toNat

/-- Call `strconv.AppendInt(dst, i, 10)` of the standard library: a minus sign (byte 45)
before the digits of the magnitude when `i` is negative. -/
def appendInt (dst : List Nat) (i : Int) : List Nat :=
  if i < 0 then appendUint (dst ++ [45]) (-i).toNat else appendUint dst i.toNat

/-- Method `Buffer.AppendInt`. -/
def Buffer.AppendInt (b : Buffer) (i : Int) : Buffer := ⟨appendInt b.bs i⟩

/-- Method `Buffer.AppendUint`. -/
def Buffer.AppendUint (b : Buffer) (i : Nat) : Buffer := ⟨appendUint b.bs i⟩

/-- Method `Buffer.AppendBool`: `strconv.AppendBool` appends `true` or `false`. -/
def Buffer.AppendBool (b : Buffer) (v : Bool) : Buffer :=
  ⟨b.bs ++ (if v then "true" else "false").toList.map Char.toNat⟩

/-- Method `Buffer.Write`. -/
def Buffer.Write (b : Buffer) (bs : List Nat) : Buffer := ⟨b.bs ++ bs⟩

/-- Dynamic values on which `WriteInterface` switches, restricted to the integer kinds,
`bool` and `[]byte`; an integer carries its value, which lies in the range of its kind. -/
inductive Value where
  | int (v : Int)
  | int8 (v : Int)
  | int16 (v : Int)
  | int32 (v : Int)
  | int64 (v : Int)
  | uint (v : Nat)
  | uint8 (v : Nat)
  | uint16 (v : Nat)
  | uint32 (v : Nat)
  | uint64 (v : Nat)
  | bool (v : Bool)
  | bytes (v : List Nat)
  deriving DecidableEq, Repr

/-- Method `Buffer.WriteInterface` on these kinds; the conversions `int64(fValue)` and
`uint64(fValue)` keep the value.  The case `uint64` has two `AppendUint` statements. -/
def Buffer.WriteInterface (b : Buffer) : Value → Buffer
  | .int v => b.AppendInt v
  | .int8 v => b.AppendInt v
  | .int16 v => b.AppendInt v
  | .int32 v => b.AppendInt v
  | .int64 v => b.AppendInt v
  | .uint v => b.AppendUint v
  | .uint8 v => b.AppendUint v
  | .uint16 v => b.AppendUint v
  | .uint32 v => b.AppendUint v
  | .uint64 v => (b.AppendUint v).AppendUint v
  | .bool v => b.AppendBool v
  | .bytes v => b.Write v

end buffer

namespace pixelcolor

/-! ## Lookup tables are inverse at their own width -/

theorem reduce_expand_all :
    ∀ bits ∈ [2, 3, 4, 5, 6], ∀ v < 2 ^ bits, reduce bits (expand bits v) = v := by
  decide

/-! ## Bit fields -/

theorem mask_shift (v s n : Nat) : (v &&& ((2 ^ n - 1) <<< s)) >>> s = v / 2 ^ s % 2 ^ n := by
  rw [← Nat.shiftRight_eq_div_pow]
  apply Nat.eq_of_testBit_eq
  intro i
  simp only [Nat.testBit_shiftRight, Nat.testBit_and, Nat.testBit_shiftLeft,
    Nat.testBit_two_pow_sub_one, Nat.testBit_mod_two_pow]
  have : s + i - s = i := by omega
  have h2 : s + i ≥ s := by omega
  simp [this, h2, Bool.and_comm]

theorem or_eq_add (x b s : Nat) (hx : x % 2 ^ s = 0) (hb : b < 2 ^ s) : x ||| b = x + b := by
  obtain ⟨a, rfl⟩ : ∃ a, x = 2 ^ s * a := ⟨x / 2 ^ s, by
    have := Nat.div_add_mod x (2 ^ s); omega⟩
  exact (Nat.mul_add_lt_is_or hb a).symm

theorem pack332 (r g b : Nat) (hg : g < 8) (hb : b < 4) :
    r <<< 5 ||| g <<< 2 ||| b = r * 32 + g * 4 + b := by
  simp only [Nat.shiftLeft_eq]
  rw [or_eq_add (r * 2 ^ 5) (g * 2 ^ 2) 5 (by omega) (by omega),
    or_eq_add (r * 2 ^ 5 + g * 2 ^ 2) b 2 (by omega) (by omega)]

theorem pack565 (r g b : Nat) (hg : g < 64) (hb : b < 32) :
    r <<< 11 ||| g <<< 5 ||| b = r * 2048 + g * 32 + b := by
  simp only [Nat.shiftLeft_eq]
  rw [or_eq_add (r * 2 ^ 11) (g * 2 ^ 5) 11 (by omega) (by omega),
    or_eq_add (r * 2 ^ 11 + g * 2 ^ 5) b 5 (by omega) (by omega)]

theorem pack4444 (r g b a : Nat) (hg : g < 16) (hb : b < 16) (ha : a < 16) :
    r <<< 12 ||| g <<< 8 ||| b <<< 4 ||| a = r * 4096 + g * 256 + b * 16 + a := by
  simp only [Nat.shiftLeft_eq]
  rw [or_eq_add (r * 2 ^ 12) (g * 2 ^ 8) 12 (by omega) (by omega),
    or_eq_add (r * 2 ^ 12 + g * 2 ^ 8) (b * 2 ^ 4) 8 (by omega) (by omega),
    or_eq_add (r * 2 ^ 12 + g * 2 ^ 8 + b * 2 ^ 4) a 4 (by omega) (by omega)]

theorem pack5551 (r g b a : Nat) (hg : g < 32) (hb : b < 32) (ha : a < 2) :
    r <<< 11 ||| g <<< 6 ||| b <<< 1 ||| a = r * 2048 + g * 64 + b * 2 + a := by
  simp only [Nat.shiftLeft_eq]
  rw [or_eq_add (r * 2 ^ 11) (g * 2 ^ 6) 11 (by omega) (by omega),
    or_eq_add (r * 2 ^ 11 + g * 2 ^ 6) (b * 2 ^ 1) 6 (by omega) (by omega),
    or_eq_add (r * 2 ^ 11 + g * 2 ^ 6 + b * 2 ^ 1) a 1 (by omega) (by omega)]

theorem lut2_inv (k : Nat) (h : k < 4) : lut8to2 ((lut2to8 k >>> 8) &&& 0xff) = k :=
  reduce_expand_all 2 (by decide) k h
theorem lut3_inv (k : Nat) (h : k < 8) : lut8to3 ((lut3to8 k >>> 8) &&& 0xff) = k :=
  reduce_expand_all 3 (by decide) k h
theorem lut4_inv (k : Nat) (h : k < 16) : lut8to4 ((lut4to8 k >>> 8) &&& 0xff) = k :=
  reduce_expand_all 4 (by decide) k h
theorem lut5_inv (k : Nat) (h : k < 32) : lut8to5 ((lut5to8 k >>> 8) &&& 0xff) = k :=
  reduce_expand_all 5 (by decide) k h
theorem lut6_inv (k : Nat) (h : k < 64) : lut8to6 ((lut6to8 k >>> 8) &&& 0xff) = k :=
  reduce_expand_all 6 (by decide) k h


theorem generic_congr {c d : Color} (h : c.RGBA = d.RGBA) : c.generic = d.generic := by
  unfold Color.generic; rw [h]

theorem ToRGB332_generic (c : Color) (h : ∀ w, c ≠ .rgb332 w) :
    ToRGB332 c = ToRGB332 c.generic := by
  cases c <;> first | rfl | exact absurd rfl (h _)

theorem ToRGB565_generic (c : Color) : ToRGB565 c = ToRGB565 c.generic := rfl

theorem ToRGB888_generic (c : Color) : ToRGB888 c = ToRGB888 c.generic := rfl

theorem ToRGBA4444_generic (c : Color) (h : ∀ w, c ≠ .rgba4444 w) :
    ToRGBA4444 c = ToRGBA4444 c.generic := by
  cases c <;> first | rfl | exact absurd rfl (h _)

theorem ToRGBA5551_generic (c : Color) (h : ∀ w, c ≠ .rgba5551 w) :
    ToRGBA5551 c = ToRGBA5551 c.generic := by
  cases c <;> first | rfl | exact absurd rfl (h _)

theorem ToRGB332_other (r g b a : Nat) : ToRGB332 (.other r g b a) =
    ((lut8to3 ((r >>> 8) &&& 0xff) <<< 5) ||| (lut8to3 ((g >>> 8) &&& 0xff) <<< 2)
      ||| lut8to2 ((b >>> 8) &&& 0xff)) % 2 ^ 8 := rfl

theorem ToRGB565_other (r g b a : Nat) : ToRGB565 (.other r g b a) =
    ((lut8to5 ((r >>> 8) &&& 0xff) <<< 11) ||| (lut8to6 ((g >>> 8) &&& 0xff) <<< 5)
      ||| lut8to5 ((b >>> 8) &&& 0xff)) % 2 ^ 16 := rfl

theorem ToRGBA4444_other (r g b a : Nat) : ToRGBA4444 (.other r g b a) =
    ((lut8to4 ((r >>> 8) &&& 0xff) <<< 12) ||| (lut8to4 ((g >>> 8) &&& 0xff) <<< 8)
      ||| (lut8to4 ((b >>> 8) &&& 0xff) <<< 4) ||| lut8to4 ((a >>> 8) &&& 0xff)) % 2 ^ 16 := rfl

theorem ToRGBA5551_other (r g b a : Nat) : ToRGBA5551 (.other r g b a) =
    ((lut8to5 ((r >>> 8) &&& 0xff) <<< 11) ||| (lut8to5 ((g >>> 8) &&& 0xff) <<< 6)
      ||| (lut8to5 ((b >>> 8) &&& 0xff) <<< 1) ||| (if a > 0 then 1 else a)) % 2 ^ 16 := rfl

theorem ToRGB332_decode (v : Nat) (hv : v < 2 ^ 8) : ToRGB332 (Color.rgb332 v).generic = v := by
  simp only [Color.generic, Color.RGBA, ToRGB332_other]
  rw [show (v &&& 0b11100000) >>> 5 = v / 2 ^ 5 % 2 ^ 3 from mask_shift v 5 3,
    show (v &&& 0b00011100) >>> 2 = v / 2 ^ 2 % 2 ^ 3 from mask_shift v 2 3,
    show (v &&& 0b00000011) >>> 0 = v / 2 ^ 0 % 2 ^ 2 from mask_shift v 0 2]
  have hr : v / 2 ^ 5 % 2 ^ 3 < 8 := Nat.mod_lt _ (by decide)
  have hg : v / 2 ^ 2 % 2 ^ 3 < 8 := Nat.mod_lt _ (by decide)
  have hb : v / 2 ^ 0 % 2 ^ 2 < 4 := Nat.mod_lt _ (by decide)
  rw [lut3_inv _ hr, lut3_inv _ hg, lut2_inv _ hb, pack332 _ _ _ hg hb]
  omega

theorem ToRGB565_decode (v : Nat) (hv : v < 2 ^ 16) : ToRGB565 (Color.rgb565 v).generic = v := by
  simp only [Color.generic, Color.RGBA, ToRGB565_other]
  rw [show (v &&& 0b1111100000000000) >>> 11 = v / 2 ^ 11 % 2 ^ 5 from mask_shift v 11 5,
    show (v &&& 0b0000011111100000) >>> 5 = v / 2 ^ 5 % 2 ^ 6 from mask_shift v 5 6,
    show (v &&& 0b0000000000011111) >>> 0 = v / 2 ^ 0 % 2 ^ 5 from mask_shift v 0 5]
  have hr : v / 2 ^ 11 % 2 ^ 5 < 32 := Nat.mod_lt _ (by decide)
  have hg : v / 2 ^ 5 % 2 ^ 6 < 64 := Nat.mod_lt _ (by decide)
  have hb : v / 2 ^ 0 % 2 ^ 5 < 32 := Nat.mod_lt _ (by decide)
  rw [lut5_inv _ hr, lut6_inv _ hg, lut5_inv _ hb, pack565 _ _ _ hg hb]
  omega

theorem low_byte_dup (x : Nat) (hx : x < 2 ^ 8) : (x ||| x <<< 8) % 2 ^ 8 = x := by
  rw [Nat.or_comm, Nat.shiftLeft_eq, or_eq_add (x * 2 ^ 8) x 8 (by omega) hx]
  omega

theorem ToRGB888_decode (v : RGB888) (hv : v.R < 2 ^ 8 ∧ v.G < 2 ^ 8 ∧ v.B < 2 ^ 8) :
    ToRGB888 (Color.rgb888 v).generic = v := by
  obtain ⟨R, G, B⟩ := v
  simp only [Color.generic, Color.RGBA, ToRGB888]
  rw [low_byte_dup _ hv.1, low_byte_dup _ hv.2.1, low_byte_dup _ hv.2.2]

theorem ToRGBA4444_decode (v : Nat) (hv : v < 2 ^ 16) :
    ToRGBA4444 (Color.rgba4444 v).generic = v := by
  simp only [Color.generic, Color.RGBA, ToRGBA4444_other]
  rw [show (v &&& 0b1111000000000000) >>> 12 = v / 2 ^ 12 % 2 ^ 4 from mask_shift v 12 4,
    show (v &&& 0b0000111100000000) >>> 8 = v / 2 ^ 8 % 2 ^ 4 from mask_shift v 8 4,
    show (v &&& 0b0000000011110000) >>> 4 = v / 2 ^ 4 % 2 ^ 4 from mask_shift v 4 4,
    show (v &&& 0b0000000000001111) >>> 0 = v / 2 ^ 0 % 2 ^ 4 from mask_shift v 0 4]
  have hr : v / 2 ^ 12 % 2 ^ 4 < 16 := Nat.mod_lt _ (by decide)
  have hg : v / 2 ^ 8 % 2 ^ 4 < 16 := Nat.mod_lt _ (by decide)
  have hb : v / 2 ^ 4 % 2 ^ 4 < 16 := Nat.mod_lt _ (by decide)
  have ha : v / 2 ^ 0 % 2 ^ 4 < 16 := Nat.mod_lt _ (by decide)
  rw [lut4_inv _ hr, lut4_inv _ hg, lut4_inv _ hb, lut4_inv _ ha, pack4444 _ _ _ _ hg hb ha]
  omega

theorem ToRGBA5551_decode (v : Nat) (hv : v < 2 ^ 16) :
    ToRGBA5551 (Color.rgba5551 v).generic = v := by
  simp only [Color.generic, Color.RGBA, ToRGBA5551_other]
  rw [show (v &&& 0b1111100000000000) >>> 11 = v / 2 ^ 11 % 2 ^ 5 from mask_shift v 11 5,
    show (v &&& 0b0000011111000000) >>> 6 = v / 2 ^ 6 % 2 ^ 5 from mask_shift v 6 5,
    show (v &&& 0b0000000000111110) >>> 1 = v / 2 ^ 1 % 2 ^ 5 from mask_shift v 1 5]
  have hr : v / 2 ^ 11 % 2 ^ 5 < 32 := Nat.mod_lt _ (by decide)
  have hg : v / 2 ^ 6 % 2 ^ 5 < 32 := Nat.mod_lt _ (by decide)
  have hb : v / 2 ^ 1 % 2 ^ 5 < 32 := Nat.mod_lt _ (by decide)
  rw [lut5_inv _ hr, lut5_inv _ hg, lut5_inv _ hb]
  have ha : (if (if v &&& 1 = 1 then 65535 else 0) > 0 then 1
      else if v &&& 1 = 1 then 65535 else 0) = v % 2 := by
    rw [Nat.and_one_is_mod]
    rcases Nat.mod_two_eq_zero_or_one v with h | h <;> simp [h]
  rw [ha, pack5551 _ _ _ _ hg hb (Nat.mod_lt _ (by decide))]
  omega

/-- C1: for every packed value `v` of RGB332, RGB565, RGB888, RGBA4444 and RGBA5551
and every colour `c` whose `RGBA()` returns the channels of `v`, the converter of
the format maps `c` back to `v`. -/
theorem encode_decode_roundtrip (c : Color) (hc : c.wf) :
    (∀ v, v < 2 ^ 8 → c.RGBA = (Color.rgb332 v).RGBA → ToRGB332 c = v) ∧
    (∀ v, v < 2 ^ 16 → c.RGBA = (Color.rgb565 v).RGBA → ToRGB565 c = v) ∧
    (∀ v : RGB888, v.R < 2 ^ 8 ∧ v.G < 2 ^ 8 ∧ v.B < 2 ^ 8 →
      c.RGBA = (Color.rgb888 v).RGBA → ToRGB888 c = v) ∧
    (∀ v, v < 2 ^ 16 → c.RGBA = (Color.rgba4444 v).RGBA → ToRGBA4444 c = v) ∧
    (∀ v, v < 2 ^ 16 → c.RGBA = (Color.rgba5551 v).RGBA → ToRGBA5551 c = v) := by
  refine ⟨?_, ?_, ?_, ?_, ?_⟩
  · intro v hv h
    by_cases hw : ∃ w, c = .rgb332 w
    · obtain ⟨w, rfl⟩ := hw
      have h1 := ToRGB332_decode w hc
      rw [generic_congr h, ToRGB332_decode v hv] at h1
      exact h1.symm
    · rw [ToRGB332_generic c (fun w hw2 => hw ⟨w, hw2⟩), generic_congr h, ToRGB332_decode v hv]
  · intro v hv h
    rw [ToRGB565_generic, generic_congr h, ToRGB565_decode v hv]
  · intro v hv h
    rw [ToRGB888_generic, generic_congr h, ToRGB888_decode v hv]
  · intro v hv h
    by_cases hw : ∃ w, c = .rgba4444 w
    · obtain ⟨w, rfl⟩ := hw
      have h1 := ToRGBA4444_decode w hc
      rw [generic_congr h, ToRGBA4444_decode v hv] at h1
      exact h1.symm
    · rw [ToRGBA4444_generic c (fun w hw2 => hw ⟨w, hw2⟩), generic_congr h,
        ToRGBA4444_decode v hv]
  · intro v hv h
    by_cases hw : ∃ w, c = .rgba5551 w
    · obtain ⟨w, rfl⟩ := hw
      have h1 := ToRGBA5551_decode w hc
      rw [generic_congr h, ToRGBA5551_decode v hv] at h1
      exact h1.symm
    · rw [ToRGBA5551_generic c (fun w hw2 => hw ⟨w, hw2⟩), generic_congr h,
        ToRGBA5551_decode v hv]

theorem encode_decode_roundtrip_witness :
    ToRGB565 (Color.other 0xffff 0 0 0xffff) = 0xF800 :=
  (encode_decode_roundtrip (Color.other 0xffff 0 0 0xffff) (by decide)).2.1 0xF800
    (by decide) (by decide)

/-! ## Tables and luma threshold -/

theorem round_half_up_floor (a m : Nat) (hm : 0 < m) :
    ⌊((a : ℚ) / (m : ℚ) + 1 / 2)⌋₊ = (2 * a + m) / (2 * m) := by
  have h : ((a : ℚ) / (m : ℚ) + 1 / 2) = ((2 * a + m : ℕ) : ℚ) / ((2 * m : ℕ) : ℚ) := by
    have hm2 : (m : ℚ) ≠ 0 := by exact_mod_cast hm.ne'
    push_cast
    field_simp
    ring
  rw [h, Nat.floor_div_eq_div]

theorem expand_value :
    ∀ bits ∈ [2, 3, 4, 5, 6], ∀ v < 2 ^ bits,
      expand bits v = (2 * (v * 255) + (2 ^ bits - 1)) / (2 * (2 ^ bits - 1)) ∧
      lutTo8 bits v = expand bits v ||| (expand bits v <<< 8) := by
  decide

/-- C2: for every bit width `bits` in {2,3,4,5,6} and every `v < 2^bits`, reducing the
expanded value gives `v` back, `reduce bits (expand bits v) = v`, for the tables
`generateLUT` builds: `expand bits v` is `floor(v*255/(2^bits-1) + 1/2)`, the table
entry `lutTo8 bits v` is that value or-ed with itself shifted left by 8, and
`reduce bits u` is `floor(u*(2^bits-1)/255 + 1/2)`. -/
theorem lut_reduce_expand (bits v : Nat) (hbits : bits ∈ [2, 3, 4, 5, 6]) (hv : v < 2 ^ bits) :
    reduce bits (expand bits v) = v ∧
    expand bits v = ⌊((v * 255 : ℕ) : ℚ) / ((2 ^ bits - 1 : ℕ) : ℚ) + 1 / 2⌋₊ ∧
    lutTo8 bits v = expand bits v ||| (expand bits v <<< 8) ∧
    ∀ u, reduce bits u = ⌊((u * (2 ^ bits - 1) : ℕ) : ℚ) / ((255 : ℕ) : ℚ) + 1 / 2⌋₊ := by
  have hpos : 0 < 2 ^ bits - 1 := by
    have : 2 ^ 1 < 2 ^ bits := Nat.pow_lt_pow_right (by decide) (by
      simp only [List.mem_cons, List.mem_singleton, List.not_mem_nil, or_false] at hbits
      omega)
    omega
  refine ⟨reduce_expand_all bits hbits v hv, ?_, (expand_value bits hbits v hv).2, ?_⟩
  · rw [round_half_up_floor _ _ hpos]
    exact (expand_value bits hbits v hv).1
  · intro u
    rw [round_half_up_floor _ _ (by decide)]
    simp [reduce, lut8To, Nat.shiftLeft_eq]

theorem lut_reduce_expand_witness :
    reduce 5 (expand 5 17) = 17 := (lut_reduce_expand 5 17 (by decide) (by decide)).1

/-- C8, as stated with the rounding constant 16384, fails: for the colour with
16-bit channels (32767, 32767, 32772) `ToBit` answers `On`, while
`(19595*R + 38470*G + 7471*B + 16384) >> 24` is 127, below `0x80`. -/
theorem ToBit_threshold_refuted :
    ToBit (Color.other 32767 32767 32772 65535) = true ∧
    ¬ ((19595 * 32767 + 38470 * 32767 + 7471 * 32772 + 16384) >>> 24 ≥ 0x80) := by
  decide

/-- C8, amended: for every colour that is not a `Bit` and whose `RGBA()` channels
are at most `0xffff`, `ToBit` is `On` exactly when
`(19595*R + 38470*G + 7471*B + 32768) >> 24 >= 0x80`; the rounding constant of the
code is `1<<15 = 32768`. -/
theorem ToBit_threshold (c : Color) (hc : ∀ b, c ≠ Color.bit b)
    (hr : c.RGBA.1 ≤ 0xffff) (hg : c.RGBA.2.1 ≤ 0xffff) (hb : c.RGBA.2.2.1 ≤ 0xffff) :
    ToBit c = true ↔
      (19595 * c.RGBA.1 + 38470 * c.RGBA.2.1 + 7471 * c.RGBA.2.2.1 + 32768) >>> 24 ≥ 0x80 := by
  have key : ToBit c = decide (((19595 * c.RGBA.1 + 38470 * c.RGBA.2.1 + 7471 * c.RGBA.2.2.1
      + (1 <<< 15)) % 2 ^ 32) >>> 24 ≥ 0x80) := by
    cases c <;> first | rfl | exact absurd rfl (hc _)
  rw [key, decide_eq_true_eq, Nat.mod_eq_of_lt]
  · rfl
  · simp only [Nat.shiftLeft_eq]; omega

theorem ToBit_threshold_witness :
    ToBit (Color.other 32767 32767 32772 65535) = true ↔
      (19595 * 32767 + 38470 * 32767 + 7471 * 32772 + 32768) >>> 24 ≥ 0x80 :=
  ToBit_threshold (Color.other 32767 32767 32772 65535) (by intro b h; cases h)
    (by decide) (by decide) (by decide)

/-! ## Model conversions on the test colours, alpha bit of RGBA5551 -/

/-- C25, evaluated at test colours: for gray25 `(3f,3f,3f,3f)` and turquoise `(00,CE,D1,00)`
the converters return other values than the most significant bits of the channels that
the `Test*Model` tables list (each pair gives the value of the converter, then the value
built from the shifted channels).  The tables `lut8to<n>` round to the nearest level:
`lut8to5[0x3f] = 8` where `0x3f >> 3 = 7`, and `lut8to5[0xD1] = 25` where `0xD1 >> 3 = 26`. -/
theorem Model_tables_gray25_turquoise :
    (ToRGB565 (.rgba 0x3f 0x3f 0x3f 0x3f) = 0b0100001000001000 ∧
      ((0x3f >>> 3) <<< 11 ||| (0x3f >>> 2) <<< 5 ||| 0x3f >>> 3) = 0b0011100111100111) ∧
    (ToRGB565 (.rgba 0x00 0xCE 0xD1 0x00) = 0b0000011001111001 ∧
      ((0x00 >>> 3) <<< 11 ||| (0xCE >>> 2) <<< 5 ||| 0xD1 >>> 3) = 0b0000011001111010) ∧
    (ToRGB332 (.rgba 0x00 0xCE 0xD1 0x00) = 0b00011010 ∧
      ((0x00 >>> 5) <<< 5 ||| (0xCE >>> 5) <<< 2 ||| 0xD1 >>> 6) = 0b00011011) ∧
    (ToRGB332 (.rgba 0x3f 0x3f 0x3f 0x3f) = 0b01001001 ∧
      ((0x3f >>> 5) <<< 5 ||| (0x3f >>> 5) <<< 2 ||| 0x3f >>> 6) = 0b00100100) ∧
    (ToRGBA4444 (.rgba 0x3f 0x3f 0x3f 0x3f) = 0b0100010001000100 ∧
      ((0x3f >>> 4) <<< 12 ||| (0x3f >>> 4) <<< 8 ||| (0x3f >>> 4) <<< 4 ||| 0x3f >>> 4)
        = 0b0011001100110011) ∧
    (ToRGBA5551 (.rgba 0x3f 0x3f 0x3f 0x3f) = 0b0100001000010001 ∧
      ((0x3f >>> 3) <<< 11 ||| (0x3f >>> 3) <<< 6 ||| (0x3f >>> 3) <<< 1 ||| 1)
        = 0b0011100111001111) ∧
    lut8to5 0x3f = 8 ∧ lut8to6 0x3f = 16 ∧ lut8to5 0xD1 = 25 ∧ lut8to2 0xD1 = 2 :=
  ⟨⟨rfl, rfl⟩, ⟨rfl, rfl⟩, ⟨rfl, rfl⟩, ⟨rfl, rfl⟩, ⟨rfl, rfl⟩, ⟨rfl, rfl⟩, rfl, rfl, rfl, rfl⟩

theorem and_one_eq_testBit (x : Nat) : x &&& 1 = if x.testBit 0 then 1 else 0 := by
  rw [Nat.and_one_is_mod, Nat.testBit_zero]
  rcases Nat.mod_two_eq_zero_or_one x with h | h <;> simp [h]

/-- C26: for a colour `c` that is not an `RGBA5551`, bit 0 of `ToRGBA5551(c)` is 1 exactly
when the alpha returned by `c.RGBA()` is non-zero (and 0 exactly when it is zero), and
the alpha returned by `RGBA5551(v).RGBA()` is `0xffff` when bit 0 of `v` is 1 and 0
otherwise. -/
theorem ToRGBA5551_alpha_bit (c : Color) (hc : ∀ v, c ≠ .rgba5551 v) :
    (ToRGBA5551 c &&& 1 = 1 ↔ c.RGBA.2.2.2 ≠ 0) ∧
    (ToRGBA5551 c &&& 1 = 0 ↔ c.RGBA.2.2.2 = 0) ∧
    ∀ v, (Color.rgba5551 v).RGBA.2.2.2 = if v &&& 1 = 1 then 0xffff else 0 := by
  have hbit : ToRGBA5551 c &&& 1 = if c.RGBA.2.2.2 > 0 then 1 else 0 := by
    rw [ToRGBA5551_generic c hc, Color.generic, ToRGBA5551_other, and_one_eq_testBit]
    obtain ⟨a, ha⟩ : ∃ a, a = c.RGBA.2.2.2 := ⟨_, rfl⟩
    rw [← ha]
    simp only [Nat.testBit_mod_two_pow, Nat.testBit_or, Nat.testBit_shiftLeft]
    by_cases h : a > 0
    · simp [h]
    · have : a = 0 := by omega
      subst this
      simp
  refine ⟨?_, ?_, fun v => rfl⟩
  · rw [hbit]
    split_ifs with h
    · simp; omega
    · simp; omega
  · rw [hbit]
    split_ifs with h
    · simp; omega
    · simp; omega

theorem ToRGBA5551_alpha_bit_witness :
    (ToRGBA5551 (.rgba 0x3f 0x3f 0x3f 0x3f) &&& 1 = 1 ↔
      (Color.rgba 0x3f 0x3f 0x3f 0x3f).RGBA.2.2.2 ≠ 0) ∧
    (Color.rgba 0x3f 0x3f 0x3f 0x3f).RGBA.2.2.2 = 0x3f3f ∧
    (Color.rgba5551 0b0011100111001111).RGBA.2.2.2 = 0xffff :=
  ⟨(ToRGBA5551_alpha_bit (.rgba 0x3f 0x3f 0x3f 0x3f) (fun _ h => Color.noConfusion h)).1, rfl,
    (ToRGBA5551_alpha_bit (.rgba 0x3f 0x3f 0x3f 0x3f) (fun _ h => Color.noConfusion h)).2.2 _⟩

/-! ## Colour conversions: ARGB8888, RGB888 and the round trip through the tables -/

/-- C33, evaluated at the failing input: `ARGB8888.RGBA` reads four 4-bit fields of the low
16 bits, so `ARGB8888(0xff112233).RGBA()` is (2,3,3,2), and `ToARGB8888` of a colour with
these channels is 0, not `0xff112233`; `ToARGB8888` packs its 8-bit channels at shifts 12, 8
and 4, so `color.RGBA{0x11, 0x22, 0x33, 0xff}` becomes `0xff333`, not `0xff112233` with
alpha, red, green and blue in four separate bytes. -/
theorem ARGB8888_not_faithful :
    (Color.argb8888 0xff112233).RGBA = (2, 3, 3, 2) ∧
    ToARGB8888 (Color.argb8888 0xff112233).generic = 0 ∧
    ToARGB8888 (Color.argb8888 0xff112233).generic ≠ 0xff112233 ∧
    (Color.argb8888 0xffffffff).RGBA = (15, 15, 15, 15) ∧
    ToARGB8888 (.rgba 0x11 0x22 0x33 0xff) = 0xff333 ∧
    ToARGB8888 (.rgba 0x11 0x22 0x33 0xff) ≠ 0xff112233 :=
  ⟨rfl, rfl, by decide, rfl, rfl, by decide⟩

/-- C38, evaluated at the failing input: for the colour `Gray16(0x1234)`, whose `RGBA()`
channels are `0x1234`, `ToRGB888` returns the low byte `0x34` of each channel, not the most
significant byte `0x12` that `ToRGB565` looks up via `(r>>8)&0xff`. -/
theorem ToRGB888_low_byte :
    (Color.gray16 0x1234).RGBA = (0x1234, 0x1234, 0x1234, 0xffff) ∧
    ToRGB888 (.gray16 0x1234) = ⟨0x34, 0x34, 0x34⟩ ∧
    ToRGB888 (.gray16 0x1234) ≠ ⟨0x1234 >>> 8, 0x1234 >>> 8, 0x1234 >>> 8⟩ ∧
    ToRGB888 (.other 0x1234 0x5678 0x9abc 0xffff) = ⟨0x34, 0x78, 0xbc⟩ ∧
    ToRGB565 (.gray16 0x1234) =
      (lut8to5 0x12 <<< 11 ||| lut8to6 0x12 <<< 5 ||| lut8to5 0x12) :=
  ⟨rfl, rfl, by decide, rfl, rfl⟩

set_option maxRecDepth 100000 in
theorem reduce_expand_error_all :
    ∀ bits ∈ [2, 3, 4, 5, 6], ∀ v < 256,
      Int.natAbs ((expand bits (reduce bits v) : Int) - (v : Int))
        ≤ 255 / (2 * (2 ^ bits - 1)) := by
  decide

/-- C39: for `bits` in 2..6 and every 8-bit `v`, reducing `v` with `lut8to<bits>` and
expanding the result with the 8-bit value stored in `lut<bits>to8` differs from `v` by at most
`255 / (2*(2^bits - 1))` (integer division), which is 42, 18, 8, 4 and 2 for 2, 3, 4, 5 and 6
bits. -/
theorem reduce_expand_error (bits v : Nat) (hbits : bits ∈ [2, 3, 4, 5, 6]) (hv : v < 256) :
    Int.natAbs ((expand bits (reduce bits v) : Int) - (v : Int)) ≤ 255 / (2 * (2 ^ bits - 1)) ∧
    [2, 3, 4, 5, 6].map (fun n => 255 / (2 * (2 ^ n - 1))) = [42, 18, 8, 4, 2] :=
  ⟨reduce_expand_error_all bits hbits v hv, by decide⟩

theorem reduce_expand_error_witness :
    Int.natAbs ((expand 2 (reduce 2 42) : Int) - (42 : Int)) ≤ 255 / (2 * (2 ^ 2 - 1)) ∧
    Int.natAbs ((expand 2 (reduce 2 42) : Int) - (42 : Int)) = 42 :=
  ⟨(reduce_expand_error 2 42 (by decide) (by decide)).1, by decide⟩

end pixelcolor

namespace pixel

/-! ## Constructors -/

theorem ceil_div_eight (n : Int) : ⌈((n : Int) : ℚ) / 8⌉ = (n + 7) / 8 := by
  rw [Int.ceil_eq_iff]
  have h1 : ((n + 7) / 8 : Int) * 8 ≤ n + 7 := Int.ediv_mul_le _ (by decide)
  have h2 : n + 7 < ((n + 7) / 8 : Int) * 8 + 8 := by
    have := Int.lt_ediv_add_one_mul_self (n + 7) (show (0:Int) < 8 by decide)
    linarith
  have h3 : n ≤ ((n + 7) / 8 : Int) * 8 := by omega
  have h4 : ((n + 7) / 8 : Int) * 8 - 8 < n := by omega
  constructor
  · have : (((((n + 7) / 8 : Int) * 8 - 8 : Int)) : ℚ) < (n : ℚ) := by exact_mod_cast h4
    push_cast at this
    linarith
  · have : ((n : Int) : ℚ) ≤ (((((n + 7) / 8 : Int) * 8 : Int)) : ℚ) := by exact_mod_cast h3
    push_cast at this
    linarith

theorem NewBitmap_eq (w h : Int) (hw : 0 ≤ w) (hh : 0 ≤ h) :
    NewBitmap w h = some ⟨⟨⟨0, 0⟩, ⟨w, h⟩⟩, List.replicate ((w * h + 7) / 8).toNat 0, w, MVLSBFormat⟩ := by
  have hwh : 0 ≤ w * h := mul_nonneg hw hh
  unfold NewBitmap make
  simp only
  split_ifs with h1 h2 h2
  · have : w * h / 8 + 1 = (w * h + 7) / 8 := by omega
    simp [this]
  · omega
  · have : w * h / 8 = (w * h + 7) / 8 := by omega
    simp [this]
  · omega


theorem make_eq (n : Int) (hn : 0 ≤ n) : make n = some (List.replicate n.toNat 0) := by
  simp [make, hn]

/-- C7: for `w, h ≥ 0`, `New` and the constructor it calls return a zeroed buffer with
`Rect = (0,0)-(w,h)` whose `Pix` length and `Stride` are `ceil(w*h/8)` and `w` for both
bitmap formats, `w*h` and `w` for RGB332, `2*w*h` and `2*w` for RGB565, RGBA4444 and
RGBA5551, `3*w*h` and `3*w` for RGB888. -/
theorem New_shape (w h : Int) (hw : 0 ≤ w) (hh : 0 ≤ h) :
    (∀ f, f = MHMSBFormat ∨ f = MVLSBFormat →
      ∃ n : Nat, (n : Int) = ⌈((w * h : Int) : ℚ) / 8⌉ ∧
        NewBitmap w h = some
          { Rect := ⟨⟨0, 0⟩, ⟨w, h⟩⟩, Pix := List.replicate n 0, Stride := w,
            Format := MVLSBFormat } ∧
        New w h f = some (.ok (.bitmap
          { Rect := ⟨⟨0, 0⟩, ⟨w, h⟩⟩, Pix := List.replicate n 0, Stride := w, Format := f }))) ∧
    (∃ n : Nat, (n : Int) = w * h ∧
        NewRGB332 w h = some
          { Rect := ⟨⟨0, 0⟩, ⟨w, h⟩⟩, Pix := List.replicate n 0, Stride := w } ∧
        New w h RGB332Format = some (.ok (.rgb332
          { Rect := ⟨⟨0, 0⟩, ⟨w, h⟩⟩, Pix := List.replicate n 0, Stride := w }))) ∧
    (∃ n : Nat, (n : Int) = 2 * w * h ∧
        NewRGB565 w h = some
          { Rect := ⟨⟨0, 0⟩, ⟨w, h⟩⟩, Pix := List.replicate n 0, Stride := 2 * w } ∧
        New w h RGB565Format = some (.ok (.rgb565
          { Rect := ⟨⟨0, 0⟩, ⟨w, h⟩⟩, Pix := List.replicate n 0, Stride := 2 * w }))) ∧
    (∃ n : Nat, (n : Int) = 3 * w * h ∧
        NewRGB888 w h = some
          { Rect := ⟨⟨0, 0⟩, ⟨w, h⟩⟩, Pix := List.replicate n 0, Stride := 3 * w } ∧
        New w h RGB888Format = some (.ok (.rgb888
          { Rect := ⟨⟨0, 0⟩, ⟨w, h⟩⟩, Pix := List.replicate n 0, Stride := 3 * w }))) ∧
    (∃ n : Nat, (n : Int) = 2 * w * h ∧
        NewRGBA4444 w h = some
          { Rect := ⟨⟨0, 0⟩, ⟨w, h⟩⟩, Pix := List.replicate n 0, Stride := 2 * w } ∧
        New w h RGBA4444Format = some (.ok (.rgba4444
          { Rect := ⟨⟨0, 0⟩, ⟨w, h⟩⟩, Pix := List.replicate n 0, Stride := 2 * w }))) ∧
    (∃ n : Nat, (n : Int) = 2 * w * h ∧
        NewRGBA5551 w h = some
          { Rect := ⟨⟨0, 0⟩, ⟨w, h⟩⟩, Pix := List.replicate n 0, Stride := 2 * w } ∧
        New w h RGBA5551Format = some (.ok (.rgba5551
          { Rect := ⟨⟨0, 0⟩, ⟨w, h⟩⟩, Pix := List.replicate n 0, Stride := 2 * w }))) := by
  have hwh : 0 ≤ w * h := mul_nonneg hw hh
  have h2 : 0 ≤ w * h * 2 := by omega
  have h3 : 0 ≤ w * h * 3 := by omega
  have e2 : w * 2 = 2 * w := Int.mul_comm _ _
  have e3 : w * 3 = 3 * w := Int.mul_comm _ _
  refine ⟨?_, ?_, ?_, ?_, ?_, ?_⟩
  · intro f hf
    refine ⟨((w * h + 7) / 8).toNat, ?_, NewBitmap_eq w h hw hh, ?_⟩
    · rw [ceil_div_eight, Int.toNat_of_nonneg (by omega)]
    · rcases hf with rfl | rfl <;> simp [New, NewBitmap_eq w h hw hh, MHMSBFormat, MVLSBFormat]
  · refine ⟨(w * h).toNat, Int.toNat_of_nonneg hwh, ?_, ?_⟩ <;>
      simp [New, NewRGB332, make_eq _ hwh, MHMSBFormat, MVLSBFormat, RGB332Format]
  · refine ⟨(w * h * 2).toNat, by rw [Int.toNat_of_nonneg h2]; ring, ?_, ?_⟩ <;>
      simp [New, NewRGB565, make_eq _ h2, e2, MHMSBFormat, MVLSBFormat, RGB332Format,
        RGB565Format]
  · refine ⟨(w * h * 3).toNat, by rw [Int.toNat_of_nonneg h3]; ring, ?_, ?_⟩ <;>
      simp [New, NewRGB888, make_eq _ h3, e3, MHMSBFormat, MVLSBFormat, RGB332Format,
        RGB565Format, RGB888Format]
  · refine ⟨(w * h * 2).toNat, by rw [Int.toNat_of_nonneg h2]; ring, ?_, ?_⟩ <;>
      simp [New, NewRGBA4444, make_eq _ h2, e2, MHMSBFormat, MVLSBFormat, RGB332Format,
        RGB565Format, RGB888Format, RGBA4444Format]
  · refine ⟨(w * h * 2).toNat, by rw [Int.toNat_of_nonneg h2]; ring, ?_, ?_⟩ <;>
      simp [New, NewRGBA5551, make_eq _ h2, e2, MHMSBFormat, MVLSBFormat, RGB332Format,
        RGB565Format, RGB888Format, RGBA4444Format, RGBA5551Format]

theorem New_shape_witness :
    ∃ n : Nat, (n : Int) = 2 * 128 * 32 ∧
        NewRGB565 128 32 = some
          { Rect := ⟨⟨0, 0⟩, ⟨128, 32⟩⟩, Pix := List.replicate n 0, Stride := 2 * 128 } ∧
        New 128 32 RGB565Format = some (.ok (.rgb565
          { Rect := ⟨⟨0, 0⟩, ⟨128, 32⟩⟩, Pix := List.replicate n 0, Stride := 2 * 128 })) :=
  (New_shape 128 32 (by decide) (by decide)).2.2.1

/-! ## Bitmap addressing, RGBA offsets -/

theorem New_bitmap_eq (w h : Int) (hw : 0 ≤ w) (hh : 0 ≤ h) (f : Format)
    (hf : f = MHMSBFormat ∨ f = MVLSBFormat) :
    New w h f = some (.ok (.bitmap
      ⟨⟨⟨0, 0⟩, ⟨w, h⟩⟩, List.replicate ((w * h + 7) / 8).toNat 0, w, f⟩)) := by
  rcases hf with rfl | rfl <;> simp [New, NewBitmap_eq w h hw hh, MHMSBFormat, MVLSBFormat]

/-- Row-major pixel index stays inside a `w × h` grid. -/
theorem index_bounds (w h x y : Int) (hx0 : 0 ≤ x) (hx : x < w) (hy0 : 0 ≤ y) (hy : y < h) :
    0 ≤ y * w ∧ y * w + w ≤ w * h := by
  have hw : 0 ≤ w := by omega
  constructor
  · exact mul_nonneg hy0 hw
  · have : (y + 1) * w ≤ h * w := mul_le_mul_of_nonneg_right (by omega) hw
    linarith

/-- C5, as stated, fails: `New(3,3,MVLSBFormat)` has 2 bytes of `Pix`, and the in-bounds
pixel (2,0) has byte offset 2, which is not below `len(Pix)`. -/
theorem PixOffset_outside_Pix :
    ∃ b, New 3 3 MVLSBFormat = some (.ok (.bitmap b)) ∧ (Point.mk 2 0).In b.Rect ∧
      ¬ ((b.PixOffset 2 0).1 < b.Pix.length) :=
  ⟨_, rfl, by decide, by decide⟩

/-- C5, amended: for a bitmap returned by `New(w,h,format)` with `w, h ≥ 0`, the byte
offset of every in-bounds pixel satisfies `0 ≤ offset < len(Pix)` when the format is
MHMSB, and for MVLSB when `h` is a multiple of 8 or `w * (8 - h mod 8) < 8`; for every
other non-empty MVLSB bitmap the in-bounds pixel `(w-1, h-1)` has its offset at or
beyond `len(Pix)`. -/
theorem PixOffset_in_Pix (w h : Int) (hw : 0 ≤ w) (hh : 0 ≤ h) (f : Format)
    (hf : f = MHMSBFormat ∨ f = MVLSBFormat) (b : Bitmap)
    (hb : New w h f = some (.ok (.bitmap b))) :
    (f = MHMSBFormat ∨ h % 8 = 0 ∨ w * (8 - h % 8) < 8 →
      ∀ x y, (Point.mk x y).In b.Rect →
        0 ≤ (b.PixOffset x y).1 ∧ (b.PixOffset x y).1 < b.Pix.length) ∧
    (f = MVLSBFormat → 0 < w → 0 < h → h % 8 ≠ 0 → 8 ≤ w * (8 - h % 8) →
      (Point.mk (w - 1) (h - 1)).In b.Rect ∧
        ¬ ((b.PixOffset (w - 1) (h - 1)).1 < b.Pix.length)) := by
  rw [New_bitmap_eq w h hw hh f hf] at hb
  simp only [Option.some.injEq, Except.ok.injEq, Image.bitmap.injEq] at hb
  subst hb
  have hwh : 0 ≤ w * h := mul_nonneg hw hh
  have hlen : ((List.replicate ((w * h + 7) / 8).toNat 0).length : Int) = (w * h + 7) / 8 := by
    rw [List.length_replicate, Int.toNat_of_nonneg (by omega)]
  have hdecomp : w * h = 8 * (h / 8 * w) + w * (h % 8) := by
    have := Int.ediv_add_emod h 8
    calc w * h = w * (8 * (h / 8) + h % 8) := by rw [this]
      _ = _ := by ring
  constructor
  · intro hcond x y hin
    simp only [Point.In] at hin
    obtain ⟨hx0, hx, hy0, hy⟩ := hin
    have hib := index_bounds w h x y hx0 hx hy0 hy
    simp only [Bitmap.PixOffset]
    rw [hlen]
    by_cases hfmt : f = MVLSBFormat
    · simp only [hfmt, if_true]
      have hq : y / 8 * w ≤ h / 8 * w := mul_le_mul_of_nonneg_right (by omega) hw
      have hq0 : 0 ≤ y / 8 * w := mul_nonneg (by omega) hw
      have hcond2 : h % 8 = 0 ∨ w * (8 - h % 8) < 8 := by
        rcases hcond with h1 | h1
        · rw [hfmt] at h1; exact absurd h1 (by decide)
        · exact h1
      rcases hcond2 with h0 | h1
      · have hq2 : (y / 8 + 1) * w ≤ h / 8 * w := mul_le_mul_of_nonneg_right (by omega) hw
        have : w * (h % 8) = 0 := by rw [h0]; ring
        have e : (y / 8 + 1) * w = y / 8 * w + w := by ring
        omega
      · have e : w * (8 - h % 8) = 8 * w - w * (h % 8) := by ring
        omega
    · simp only [hfmt, if_false]
      omega
  · intro hfmt hw1 hh1 hr hbig
    refine ⟨by simp only [Point.In]; omega, ?_⟩
    simp only [Bitmap.PixOffset, hfmt, if_true]
    rw [hlen]
    have e : w * (8 - h % 8) = 8 * w - w * (h % 8) := by ring
    have e2 : (h - 1) / 8 = h / 8 := by omega
    rw [e2]
    omega

theorem PixOffset_in_Pix_witness :
    0 ≤ ((⟨⟨⟨0, 0⟩, ⟨8, 8⟩⟩, List.replicate 8 0, 8, MVLSBFormat⟩ : Bitmap).PixOffset 7 7).1 ∧
      ((⟨⟨⟨0, 0⟩, ⟨8, 8⟩⟩, List.replicate 8 0, 8, MVLSBFormat⟩ : Bitmap).PixOffset 7 7).1 <
        (⟨⟨⟨0, 0⟩, ⟨8, 8⟩⟩, List.replicate 8 0, 8, MVLSBFormat⟩ : Bitmap).Pix.length :=
  (PixOffset_in_Pix 8 8 (by decide) (by decide) MVLSBFormat (Or.inr rfl) _ rfl).1
    (Or.inr (Or.inl (by decide))) 7 7 (by decide)

/-- C4, evaluated at the failing input: on the 8×16 MVLSB bitmap of `New`, the pixel
(8,0) is outside the bounds, yet `Set(8,0,On)` changes `Pix[8]` from 0 to 1, which turns
the in-bounds pixel (0,8) on. -/
theorem Bitmap_Set_outside_changes_Pix :
    ∃ b b', New 8 16 MVLSBFormat = some (.ok (.bitmap b)) ∧
      ¬ (Point.mk 8 0).In b.Rect ∧
      b.Set 8 0 (.bit pixelcolor.On) = some b' ∧
      b.Pix = [0, 0, 0, 0, 0, 0, 0, 0, 0, 0, 0, 0, 0, 0, 0, 0] ∧
      b'.Pix = [0, 0, 0, 0, 0, 0, 0, 0, 1, 0, 0, 0, 0, 0, 0, 0] ∧
      b.At 0 8 = some (.bit pixelcolor.Off) ∧ b'.At 0 8 = some (.bit pixelcolor.On) :=
  ⟨_, _, rfl, by decide, rfl, rfl, rfl, rfl, rfl⟩

/-- C6, evaluated at the failing input: for `NewRGBA4444(2,1)` and `NewRGBA5551(2,1)` the
in-bounds pixel (1,0) has `OffsetOf = 3` (not `2*1 = 2`), only one byte of the four is
left from there, and `Set(1,0,c)` panics in `PutUint16`; on `NewRGBA4444(2,2)` the same
`Set` writes bytes 3 and 4, which changes what `At(0,1)` returns. -/
theorem RGBA_OffsetOf_stride_three :
    (∃ b, NewRGBA4444 2 1 = some b ∧ (Point.mk 1 0).In b.Rect ∧ b.OffsetOf 1 0 = 3 ∧
      b.Pix.length = 4 ∧ b.Set 1 0 (.gray16 0xffff) = none) ∧
    (∃ b, NewRGBA5551 2 1 = some b ∧ (Point.mk 1 0).In b.Rect ∧ b.OffsetOf 1 0 = 3 ∧
      b.Pix.length = 4 ∧ b.Set 1 0 (.gray16 0xffff) = none) ∧
    (∃ b b', NewRGBA4444 2 2 = some b ∧ b.Set 1 0 (.gray16 0xffff) = some b' ∧
      b'.Pix = [0, 0, 0, 0xff, 0xff, 0, 0, 0] ∧
      b.At 0 1 = some (.rgba4444 0) ∧ b'.At 0 1 = some (.rgba4444 0xff00)) :=
  ⟨⟨_, rfl, by decide, rfl, rfl, rfl⟩, ⟨_, rfl, by decide, rfl, rfl, rfl⟩,
    ⟨_, _, rfl, rfl, rfl, rfl, rfl⟩⟩

/-! ## Pixel access of the byte-per-channel buffers -/

theorem length_copyAt (dst src : List Nat) (off : Nat) (h : off ≤ dst.length) :
    (copyAt dst off src).length = dst.length := by
  simp only [copyAt, List.length_append, List.length_take, List.length_drop]
  omega

theorem getElem?_copyAt (dst src : List Nat) (off k : Nat) (h : off ≤ dst.length) :
    (copyAt dst off src)[k]? =
      if off ≤ k ∧ k < off + src.length ∧ k < dst.length then src[k - off]? else dst[k]? := by
  unfold copyAt
  by_cases h1 : k < off
  · have : ¬ (off ≤ k ∧ k < off + src.length ∧ k < dst.length) := by omega
    rw [if_neg this, List.append_assoc, List.getElem?_append_left (by simp; omega),
      List.getElem?_take_of_lt h1]
  · by_cases h2 : k < off + src.length ∧ k < dst.length
    · rw [if_pos ⟨by omega, h2⟩, List.getElem?_append_left (by simp; omega),
        List.getElem?_append_right (by simp; omega)]
      simp only [List.length_take]
      rw [List.getElem?_take_of_lt (by omega)]
      congr 1
      omega
    · have : ¬ (off ≤ k ∧ k < off + src.length ∧ k < dst.length) := by tauto
      rw [if_neg this]
      by_cases h3 : k < dst.length
      · rw [List.getElem?_append_right (by simp; omega)]
        simp only [List.length_append, List.length_take, List.getElem?_drop]
        congr 1
        omega
      · have hlen := length_copyAt dst src off h
        unfold copyAt at hlen
        rw [List.getElem?_eq_none (by omega), List.getElem?_eq_none (by omega)]


theorem index_natCast (b : List Nat) (n : Nat) : index b (n : Int) = b[n]? := by
  simp [index]

/-- Row-major index of an in-bounds pixel as a natural number below `w * h`. -/
theorem pixel_index (w h x y : Int) (hx0 : 0 ≤ x) (hx : x < w) (hy0 : 0 ≤ y) (hy : y < h) :
    ∃ n : Nat, (n : Int) = y * w + x ∧ (n : Int) + 1 ≤ w * h := by
  have hw : 0 ≤ w := by omega
  have h1 : 0 ≤ y * w := mul_nonneg hy0 hw
  have h2 : (y + 1) * w ≤ h * w := mul_le_mul_of_nonneg_right (by omega) hw
  have e1 : (y + 1) * w = y * w + w := by ring
  have e2 : h * w = w * h := by ring
  refine ⟨(y * w + x).toNat, ?_, ?_⟩
  · rw [Int.toNat_of_nonneg (by omega)]
  · rw [Int.toNat_of_nonneg (by omega)]; omega

/-- Distinct pixels of a row-major grid of width `w` have distinct indices. -/
theorem pixel_index_ne (w x y x' y' : Int) (hx0 : 0 ≤ x) (hx : x < w) (hx0' : 0 ≤ x')
    (hx' : x' < w) (hne : x' ≠ x ∨ y' ≠ y) : y' * w + x' ≠ y * w + x := by
  have hw : 0 ≤ w := by omega
  intro heq
  rcases lt_trichotomy y' y with hlt | hyy | hgt
  · have h2 : (y' + 1) * w ≤ y * w := mul_le_mul_of_nonneg_right (by omega) hw
    have e1 : (y' + 1) * w = y' * w + w := by ring
    omega
  · subst hyy
    omega
  · have h2 : (y + 1) * w ≤ y' * w := mul_le_mul_of_nonneg_right (by omega) hw
    have e1 : (y + 1) * w = y * w + w := by ring
    omega

theorem uint16_bytes (v : Nat) (hv : v < 2 ^ 16) :
    (v % 2 ^ 8) ||| (((v >>> 8) % 2 ^ 8) <<< 8) = v := by
  rw [Nat.or_comm, Nat.shiftLeft_eq, Nat.shiftRight_eq_div_pow,
    pixelcolor.or_eq_add _ _ 8 (by omega) (Nat.mod_lt _ (by decide))]
  omega

theorem RGB332_Set_At (b : RGB332) (w h : Int) (hR : b.Rect = ⟨⟨0, 0⟩, ⟨w, h⟩⟩)
    (hS : b.Stride = w) (hL : (b.Pix.length : Int) = w * h) (x y : Int)
    (hin : (Point.mk x y).In b.Rect) (c : pixelcolor.Color) :
    ∃ b', b.Set x y c = some b' ∧ b'.Rect = b.Rect ∧ b'.Stride = b.Stride ∧
      b'.Pix.length = b.Pix.length ∧
      b'.At x y = some (.rgb332 (pixelcolor.ToRGB332 c % 2 ^ 8)) ∧
      ∀ x' y', (Point.mk x' y').In b.Rect → (x' ≠ x ∨ y' ≠ y) → b'.At x' y' = b.At x' y' := by
  have hin2 := hin
  simp only [hR, Point.In] at hin2
  obtain ⟨hx0, hx, hy0, hy⟩ := hin2
  obtain ⟨n, hn, hnlt⟩ := pixel_index w h x y hx0 hx hy0 hy
  have hnL : n < b.Pix.length := by omega
  refine ⟨{ b with Pix := b.Pix.set n (pixelcolor.ToRGB332 c % 2 ^ 8) }, ?_, rfl, rfl, ?_, ?_, ?_⟩
  · simp only [RGB332.Set, hin, not_true_eq_false, if_false, hS, ← hn, setIndex]
    rw [if_pos ⟨by omega, by omega⟩]
    simp
  · simp
  · simp only [RGB332.At, hin, not_true_eq_false, if_false, hS, ← hn, index_natCast]
    rw [List.getElem?_set_self hnL]
    rfl
  · intro x' y' hin' hne
    have hin2' := hin'
    simp only [hR, Point.In] at hin2'
    obtain ⟨hx0', hx', hy0', hy'⟩ := hin2'
    obtain ⟨n', hn', -⟩ := pixel_index w h x' y' hx0' hx' hy0' hy'
    have hidx := pixel_index_ne w x y x' y' hx0 hx hx0' hx' hne
    have hnn : n ≠ n' := by omega
    simp only [RGB332.At, hin', not_true_eq_false, if_false, hS, ← hn', index_natCast]
    rw [List.getElem?_set_ne hnn]

theorem RGB565_Set_At (b : RGB565) (w h : Int) (hR : b.Rect = ⟨⟨0, 0⟩, ⟨w, h⟩⟩)
    (hS : b.Stride = w * 2) (hL : (b.Pix.length : Int) = w * h * 2) (x y : Int)
    (hin : (Point.mk x y).In b.Rect) (c : pixelcolor.Color) :
    ∃ b', b.Set x y c = some b' ∧ b'.Rect = b.Rect ∧ b'.Stride = b.Stride ∧
      b'.Pix.length = b.Pix.length ∧
      b'.At x y = some (.rgb565 (pixelcolor.ToRGB565 c)) ∧
      ∀ x' y', (Point.mk x' y').In b.Rect → (x' ≠ x ∨ y' ≠ y) → b'.At x' y' = b.At x' y' := by
  have hin2 := hin
  simp only [hR, Point.In] at hin2
  obtain ⟨hx0, hx, hy0, hy⟩ := hin2
  obtain ⟨n, hn, hnlt⟩ := pixel_index w h x y hx0 hx hy0 hy
  have hoff : b.OffsetOf x y = ((2 * n : Nat) : Int) := by
    simp only [RGB565.OffsetOf, hS]; push_cast; rw [hn]; ring
  have hnL : 2 * n + 2 ≤ b.Pix.length := by omega
  have hv : pixelcolor.ToRGB565 c < 2 ^ 16 := Nat.mod_lt _ (by decide)
  obtain ⟨v, hvdef⟩ : ∃ v, v = pixelcolor.ToRGB565 c := ⟨_, rfl⟩
  rw [← hvdef] at hv ⊢
  refine ⟨{ b with Pix := copyAt b.Pix (2 * n) [(v >>> 8) % 2 ^ 8, v % 2 ^ 8] }, ?_, rfl, rfl,
    ?_, ?_, ?_⟩
  · simp only [RGB565.Set, hin, not_true_eq_false, if_false, hoff, PutUint16, ← hvdef]
    rw [if_pos ⟨by omega, by omega⟩]
    rfl
  · exact length_copyAt _ _ _ (by omega)
  · simp only [RGB565.At, hin, not_true_eq_false, if_false]
    have hoff2 : RGB565.OffsetOf
        { b with Pix := copyAt b.Pix (2 * n) [(v >>> 8) % 2 ^ 8, v % 2 ^ 8] } x y
        = ((2 * n : Nat) : Int) := hoff
    rw [hoff2]
    simp only [Uint16, index_natCast, show (((2 * n : Nat) : Int) + 1) = ((2 * n + 1 : Nat) : Int)
      by push_cast; ring]
    rw [getElem?_copyAt _ _ _ _ (by omega), getElem?_copyAt _ _ _ _ (by omega),
      if_pos ⟨by omega, by simp, by omega⟩, if_pos ⟨by omega, by simp, by omega⟩]
    simp only [Nat.sub_self, show 2 * n + 1 - 2 * n = 1 by omega]
    simpa using uint16_bytes _ hv
  · intro x' y' hin' hne
    have hin2' := hin'
    simp only [hR, Point.In] at hin2'
    obtain ⟨hx0', hx', hy0', hy'⟩ := hin2'
    obtain ⟨n', hn', hnlt'⟩ := pixel_index w h x' y' hx0' hx' hy0' hy'
    have hidx := pixel_index_ne w x y x' y' hx0 hx hx0' hx' hne
    have hnn : n ≠ n' := by omega
    have hoff' : b.OffsetOf x' y' = ((2 * n' : Nat) : Int) := by
      simp only [RGB565.OffsetOf, hS]; push_cast; rw [hn']; ring
    have hoff2 : RGB565.OffsetOf
        { b with Pix := copyAt b.Pix (2 * n) [(v >>> 8) % 2 ^ 8, v % 2 ^ 8] } x' y'
        = ((2 * n' : Nat) : Int) := hoff'
    simp only [RGB565.At, hin', not_true_eq_false, if_false]
    rw [hoff2, hoff']
    simp only [Uint16, index_natCast, show (((2 * n' : Nat) : Int) + 1) = ((2 * n' + 1 : Nat) : Int)
      by push_cast; ring]
    rw [getElem?_copyAt _ _ _ _ (by omega), getElem?_copyAt _ _ _ _ (by omega),
      if_neg (by simp; omega), if_neg (by simp; omega)]

theorem RGB888_Set_At (b : RGB888) (w h : Int) (hR : b.Rect = ⟨⟨0, 0⟩, ⟨w, h⟩⟩)
    (hS : b.Stride = w * 3) (hL : (b.Pix.length : Int) = w * h * 3) (x y : Int)
    (hin : (Point.mk x y).In b.Rect) (c : pixelcolor.Color) :
    ∃ b', b.Set x y c = some b' ∧ b'.Rect = b.Rect ∧ b'.Stride = b.Stride ∧
      b'.Pix.length = b.Pix.length ∧
      b'.At x y = some (.rgb888 (pixelcolor.ToRGB888 c)) ∧
      ∀ x' y', (Point.mk x' y').In b.Rect → (x' ≠ x ∨ y' ≠ y) → b'.At x' y' = b.At x' y' := by
  have hin2 := hin
  simp only [hR, Point.In] at hin2
  obtain ⟨hx0, hx, hy0, hy⟩ := hin2
  obtain ⟨n, hn, hnlt⟩ := pixel_index w h x y hx0 hx hy0 hy
  have hoff : b.OffsetOf x y = ((3 * n : Nat) : Int) := by
    simp only [RGB888.OffsetOf, hS]; push_cast; rw [hn]; ring
  have hnL : 3 * n + 3 ≤ b.Pix.length := by omega
  obtain ⟨v, hvdef⟩ : ∃ v, v = pixelcolor.ToRGB888 c := ⟨_, rfl⟩
  rw [← hvdef]
  refine ⟨{ b with Pix := copyAt b.Pix (3 * n) [v.R, v.G, v.B] }, ?_, rfl, rfl, ?_, ?_, ?_⟩
  · simp only [RGB888.Set, hin, not_true_eq_false, if_false, hoff, copyFrom, ← hvdef]
    rw [if_pos ⟨by omega, by omega⟩]
    rfl
  · exact length_copyAt _ _ _ (by omega)
  · simp only [RGB888.At, hin, not_true_eq_false, if_false]
    have hoff2 : RGB888.OffsetOf { b with Pix := copyAt b.Pix (3 * n) [v.R, v.G, v.B] } x y
        = ((3 * n : Nat) : Int) := hoff
    rw [hoff2]
    simp only [index_natCast,
      show (((3 * n : Nat) : Int) + 1) = ((3 * n + 1 : Nat) : Int) by push_cast; ring,
      show (((3 * n : Nat) : Int) + 2) = ((3 * n + 2 : Nat) : Int) by push_cast; ring]
    rw [getElem?_copyAt _ _ _ _ (by omega), getElem?_copyAt _ _ _ _ (by omega),
      getElem?_copyAt _ _ _ _ (by omega),
      if_pos ⟨by omega, by simp, by omega⟩, if_pos ⟨by omega, by simp, by omega⟩,
      if_pos ⟨by omega, by simp, by omega⟩]
    simp only [Nat.sub_self, show 3 * n + 1 - 3 * n = 1 by omega,
      show 3 * n + 2 - 3 * n = 2 by omega]
    rfl
  · intro x' y' hin' hne
    have hin2' := hin'
    simp only [hR, Point.In] at hin2'
    obtain ⟨hx0', hx', hy0', hy'⟩ := hin2'
    obtain ⟨n', hn', hnlt'⟩ := pixel_index w h x' y' hx0' hx' hy0' hy'
    have hidx := pixel_index_ne w x y x' y' hx0 hx hx0' hx' hne
    have hnn : n ≠ n' := by omega
    have hoff' : b.OffsetOf x' y' = ((3 * n' : Nat) : Int) := by
      simp only [RGB888.OffsetOf, hS]; push_cast; rw [hn']; ring
    have hoff2 : RGB888.OffsetOf { b with Pix := copyAt b.Pix (3 * n) [v.R, v.G, v.B] } x' y'
        = ((3 * n' : Nat) : Int) := hoff'
    simp only [RGB888.At, hin', not_true_eq_false, if_false]
    rw [hoff2, hoff']
    simp only [index_natCast,
      show (((3 * n' : Nat) : Int) + 1) = ((3 * n' + 1 : Nat) : Int) by push_cast; ring,
      show (((3 * n' : Nat) : Int) + 2) = ((3 * n' + 2 : Nat) : Int) by push_cast; ring]
    rw [getElem?_copyAt _ _ _ _ (by omega), getElem?_copyAt _ _ _ _ (by omega),
      getElem?_copyAt _ _ _ _ (by omega),
      if_neg (by simp; omega), if_neg (by simp; omega), if_neg (by simp; omega)]

theorem ToRGB332_lt (c : pixelcolor.Color) (hc : c.wf) : pixelcolor.ToRGB332 c < 2 ^ 8 := by
  cases c <;> first | exact hc | exact Nat.mod_lt _ (by decide)

/-- C3: for a buffer created by `NewRGB332`, `NewRGB565` or `NewRGB888` with `w, h ≥ 0`
(holding any bytes `pix` of the created length), every in-bounds `(x,y)` and every colour
`c`: `Set(x,y,c)` completes, afterwards `At(x,y)` is the format's conversion of `c`, and
`At` is unchanged at every other in-bounds pixel. -/
theorem Set_then_At (w h x y : Int) (c : pixelcolor.Color) (hc : c.wf) (hw : 0 ≤ w)
    (hh : 0 ≤ h) (hx : 0 ≤ x ∧ x < w) (hy : 0 ≤ y ∧ y < h) (pix : List Nat) :
    (∀ b0, NewRGB332 w h = some b0 → pix.length = b0.Pix.length →
      ∃ b', RGB332.Set { b0 with Pix := pix } x y c = some b' ∧
        b'.Rect = b0.Rect ∧ b'.Stride = b0.Stride ∧ b'.Pix.length = b0.Pix.length ∧
        b'.At x y = some (.rgb332 (pixelcolor.ToRGB332 c)) ∧
        ∀ x' y', (Point.mk x' y').In b0.Rect → (x' ≠ x ∨ y' ≠ y) →
          b'.At x' y' = RGB332.At { b0 with Pix := pix } x' y') ∧
    (∀ b0, NewRGB565 w h = some b0 → pix.length = b0.Pix.length →
      ∃ b', RGB565.Set { b0 with Pix := pix } x y c = some b' ∧
        b'.Rect = b0.Rect ∧ b'.Stride = b0.Stride ∧ b'.Pix.length = b0.Pix.length ∧
        b'.At x y = some (.rgb565 (pixelcolor.ToRGB565 c)) ∧
        ∀ x' y', (Point.mk x' y').In b0.Rect → (x' ≠ x ∨ y' ≠ y) →
          b'.At x' y' = RGB565.At { b0 with Pix := pix } x' y') ∧
    (∀ b0, NewRGB888 w h = some b0 → pix.length = b0.Pix.length →
      ∃ b', RGB888.Set { b0 with Pix := pix } x y c = some b' ∧
        b'.Rect = b0.Rect ∧ b'.Stride = b0.Stride ∧ b'.Pix.length = b0.Pix.length ∧
        b'.At x y = some (.rgb888 (pixelcolor.ToRGB888 c)) ∧
        ∀ x' y', (Point.mk x' y').In b0.Rect → (x' ≠ x ∨ y' ≠ y) →
          b'.At x' y' = RGB888.At { b0 with Pix := pix } x' y') := by
  have hwh : 0 ≤ w * h := mul_nonneg hw hh
  refine ⟨?_, ?_, ?_⟩
  · intro b0 hb0 hlen
    simp only [NewRGB332, make, hwh, if_true, Option.map_some', Option.some.injEq] at hb0
    subst hb0
    simp only [List.length_replicate] at hlen
    have hin : (Point.mk x y).In (⟨⟨0, 0⟩, ⟨w, h⟩⟩ : Rectangle) := by
      simp only [Point.In]; omega
    have := RGB332_Set_At ⟨⟨⟨0, 0⟩, ⟨w, h⟩⟩, pix, w⟩ w h rfl rfl (by simp only; omega) x y hin c
    rw [Nat.mod_eq_of_lt (ToRGB332_lt c hc)] at this
    simpa [hlen] using this
  · intro b0 hb0 hlen
    simp only [NewRGB565, make, show 0 ≤ w * h * 2 by omega, if_true, Option.map_some',
      Option.some.injEq] at hb0
    subst hb0
    simp only [List.length_replicate] at hlen
    have hin : (Point.mk x y).In (⟨⟨0, 0⟩, ⟨w, h⟩⟩ : Rectangle) := by
      simp only [Point.In]; omega
    have := RGB565_Set_At ⟨⟨⟨0, 0⟩, ⟨w, h⟩⟩, pix, w * 2⟩ w h rfl rfl (by simp only; omega) x y hin c
    simpa [hlen] using this
  · intro b0 hb0 hlen
    simp only [NewRGB888, make, show 0 ≤ w * h * 3 by omega, if_true, Option.map_some',
      Option.some.injEq] at hb0
    subst hb0
    simp only [List.length_replicate] at hlen
    have hin : (Point.mk x y).In (⟨⟨0, 0⟩, ⟨w, h⟩⟩ : Rectangle) := by
      simp only [Point.In]; omega
    have := RGB888_Set_At ⟨⟨⟨0, 0⟩, ⟨w, h⟩⟩, pix, w * 3⟩ w h rfl rfl (by simp only; omega) x y hin c
    simpa [hlen] using this

theorem Set_then_At_witness :
    ∃ b', RGB565.Set ⟨⟨⟨0, 0⟩, ⟨2, 1⟩⟩, [0, 0, 0, 0], 2 * 2⟩ 0 0 (.rgba 0xff 0 0 0xff) = some b' ∧
      b'.At 0 0 = some (.rgb565 (pixelcolor.ToRGB565 (.rgba 0xff 0 0 0xff))) :=
  have h := (Set_then_At 2 1 0 0 (.rgba 0xff 0 0 0xff) (by decide) (by decide) (by decide)
    (by decide) (by decide) [0, 0, 0, 0]).2.1 ⟨⟨⟨0, 0⟩, ⟨2, 1⟩⟩, [0, 0, 0, 0], 2 * 2⟩ rfl rfl
  h.imp fun _ hb => ⟨hb.1, hb.2.2.2.2.1⟩

/-! ## memset, memsetSlice and loops over pixels -/

theorem doublingLoop_periodic (v : List Nat) :
    ∀ (fuel : Nat) (b : List Nat) (i : Nat),
      (i < b.length → 0 < i ∧ v.length ∣ i) →
      (∀ j, j < i → j < b.length → b[j]? = v[j % v.length]?) →
      (i < b.length → b.length ≤ i * 2 ^ fuel) →
      ∃ b', doublingLoop fuel b i = some b' ∧ b'.length = b.length ∧
        ∀ j, j < b.length → b'[j]? = v[j % v.length]? := by
  intro fuel
  induction fuel with
  | zero =>
    intro b i h1 h2 h3
    have hi : ¬ i < b.length := by
      intro hlt
      have := h3 hlt
      omega
    refine ⟨b, by simp [doublingLoop, hi], rfl, fun j hj => h2 j (by omega) hj⟩
  | succ fuel ih =>
    intro b i h1 h2 h3
    by_cases hi : i < b.length
    · obtain ⟨hpos, hdvd⟩ := h1 hi
      have hlen : (copyAt b i (b.take i)).length = b.length := length_copyAt _ _ _ (by omega)
      have htake : (b.take i).length = i := by rw [List.length_take]; omega
      have hshift : i <<< 1 = 2 * i := by rw [Nat.shiftLeft_eq]; omega
      obtain ⟨b', hb', hl', hp'⟩ := ih (copyAt b i (b.take i)) (i <<< 1)
        (by
          intro _
          rw [hshift]
          exact ⟨by omega, Dvd.dvd.mul_left hdvd 2⟩)
        (by
          intro j hj hjl
          rw [hshift] at hj
          rw [hlen] at hjl
          rw [getElem?_copyAt _ _ _ _ (by omega), htake]
          by_cases hji : j < i
          · rw [if_neg (by omega)]
            exact h2 j hji hjl
          · rw [if_pos ⟨by omega, by omega, hjl⟩, List.getElem?_take_of_lt (by omega),
              h2 (j - i) (by omega) (by omega)]
            obtain ⟨k, hk⟩ := hdvd
            have : j % v.length = (j - i) % v.length := by
              have hj2 : j = (j - i) + v.length * k := by omega
              conv_lhs => rw [hj2]
              exact Nat.add_mul_mod_self_left _ _ _
            rw [this])
        (by
          intro _
          rw [hlen, hshift]
          have := h3 hi
          rw [pow_succ] at this
          calc b.length ≤ i * (2 ^ fuel * 2) := this
            _ = 2 * i * 2 ^ fuel := by ring)
      refine ⟨b', ?_, by rw [hl', hlen], ?_⟩
      · simp only [doublingLoop, hi, if_true]
        exact hb'
      · intro j hj
        exact hp' j (by rw [hlen]; exact hj)
    · refine ⟨b, by simp [doublingLoop, hi], rfl, fun j hj => h2 j (by omega) hj⟩

theorem memsetSlice_periodic (b v : List Nat) (hv : v ≠ []) :
    ∃ b', memsetSlice b v = some b' ∧ b'.length = b.length ∧
      ∀ j, j < b.length → b'[j]? = v[j % v.length]? := by
  have hvl : 0 < v.length := List.length_pos.mpr hv
  have hlen : (copyAt b 0 v).length = b.length := length_copyAt _ _ _ (by omega)
  obtain ⟨b', hb', hl', hp'⟩ := doublingLoop_periodic v b.length (copyAt b 0 v)
    (min b.length v.length)
    (by
      rw [hlen]
      intro h
      have : min b.length v.length = v.length := by omega
      rw [this]
      exact ⟨hvl, dvd_refl _⟩)
    (by
      intro j hj hjl
      rw [hlen] at hjl
      rw [getElem?_copyAt _ _ _ _ (by omega), if_pos ⟨by omega, by omega, hjl⟩,
        Nat.mod_eq_of_lt (by omega)]
      rfl)
    (by
      rw [hlen]
      intro h
      have h1 : 1 ≤ min b.length v.length := by omega
      have h2 : b.length < 2 ^ b.length := Nat.lt_two_pow _
      calc b.length ≤ 1 * 2 ^ b.length := by omega
        _ ≤ min b.length v.length * 2 ^ b.length := Nat.mul_le_mul_right _ h1)
  refine ⟨b', ?_, by rw [hl', hlen], fun j hj => hp' j (by rw [hlen]; exact hj)⟩
  exact hb'

theorem memset_const (b : List Nat) (x : Nat) :
    ∃ b', memset b x = some b' ∧ b'.length = b.length ∧
      ∀ j, j < b.length → b'[j]? = some x := by
  by_cases h0 : b.length = 0
  · refine ⟨b, by simp [memset, h0], rfl, fun j hj => by omega⟩
  · have hlen : (b.set 0 x).length = b.length := List.length_set _ _ _
    obtain ⟨b', hb', hl', hp'⟩ := doublingLoop_periodic [x] b.length (b.set 0 x) 1
      (fun _ => ⟨by omega, by simp⟩)
      (by
        intro j hj hjl
        have : j = 0 := by omega
        subst this
        rw [hlen] at hjl
        rw [List.getElem?_set_self hjl]
        rfl)
      (by
        intro _
        rw [hlen]
        have h2 : b.length < 2 ^ b.length := Nat.lt_two_pow _
        omega)
    refine ⟨b', by simp only [memset, h0, if_false]; exact hb', by rw [hl', hlen], ?_⟩
    intro j hj
    rw [hp' j (by rw [hlen]; exact hj)]
    simp [Nat.mod_one]

/-- Folding a partial step over a list: every step succeeds and keeps `inv`, a step never
destroys `good`, and a step at an element satisfying `hit` establishes it. -/
theorem foldlM_establish {β α : Type} (step : β → α → Option β) (inv good : β → Prop)
    (hit : α → Prop) :
    ∀ (L : List α),
      (∀ b p, p ∈ L → inv b →
        ∃ b', step b p = some b' ∧ inv b' ∧ (good b → good b') ∧ (hit p → good b')) →
      ∀ b, inv b →
        ∃ b', L.foldlM step b = some b' ∧ inv b' ∧
          (((∃ p, p ∈ L ∧ hit p) ∨ good b) → good b') := by
  intro L
  induction L with
  | nil =>
    intro _ b hb
    refine ⟨b, rfl, hb, ?_⟩
    rintro (⟨p, hp, -⟩ | hg)
    · cases hp
    · exact hg
  | cons p L ih =>
    intro hstep b hb
    obtain ⟨b1, hs, hinv1, hg1, hh1⟩ := hstep b p (List.mem_cons_self _ _) hb
    obtain ⟨b', hf, hinv', hg'⟩ := ih (fun b p' hp' => hstep b p' (List.mem_cons_of_mem _ hp')) b1 hinv1
    refine ⟨b', ?_, hinv', ?_⟩
    · rw [List.foldlM_cons, hs]
      exact hf
    · rintro (⟨p', hp', hhit⟩ | hg)
      · rcases List.mem_cons.mp hp' with rfl | hmem
        · exact hg' (Or.inr (hh1 hhit))
        · exact hg' (Or.inl ⟨p', hmem, hhit⟩)
      · exact hg' (Or.inr (hg1 hg))

theorem mem_intRange (lo hi p : Int) : p ∈ intRange lo hi ↔ lo ≤ p ∧ p < hi := by
  simp only [intRange, List.mem_map, List.mem_range]
  constructor
  · rintro ⟨k, hk, rfl⟩
    omega
  · intro h
    exact ⟨(p - lo).toNat, by omega, by omega⟩

/-! ## Generic per-pixel fill -/

theorem fillGeneric_establish (img : Image) (c : pixelcolor.Color) (inv good : Image → Prop)
    (qx qy : Int) (hinv : inv img)
    (hstep : ∀ b x y, inv b → (Point.mk x y).In img.Bounds →
      ∃ b', b.Set x y c = some b' ∧ inv b' ∧ (good b → good b') ∧
        (x = qx ∧ y = qy → good b'))
    (hq : (Point.mk qx qy).In img.Bounds) :
    ∃ b', fillGeneric img c = some b' ∧ inv b' ∧ good b' := by
  obtain ⟨hqx0, hqx, hqy0, hqy⟩ := hq
  have houter := foldlM_establish
    (fun b y => (intRange img.Bounds.Min.X img.Bounds.Max.X).foldlM (fun b x => b.Set x y c) b)
    inv good (fun y => y = qy) (intRange img.Bounds.Min.Y img.Bounds.Max.Y)
    (by
      intro b y hy hb
      rw [mem_intRange] at hy
      have hinner := foldlM_establish (fun b x => b.Set x y c) inv good
        (fun x => x = qx ∧ y = qy) (intRange img.Bounds.Min.X img.Bounds.Max.X)
        (by
          intro b x hx hb
          rw [mem_intRange] at hx
          exact hstep b x y hb ⟨hx.1, hx.2, hy.1, hy.2⟩)
        b hb
      obtain ⟨b', hf, hinv', hg'⟩ := hinner
      refine ⟨b', hf, hinv', fun hg => hg' (Or.inr hg), fun hyq => hg' (Or.inl ⟨qx, ?_, rfl, hyq⟩)⟩
      rw [mem_intRange]
      exact ⟨hqx0, hqx⟩)
    img hinv
  obtain ⟨b', hf, hinv', hg'⟩ := houter
  refine ⟨b', hf, hinv', hg' (Or.inl ⟨qy, ?_, rfl⟩)⟩
  rw [mem_intRange]
  exact ⟨hqy0, hqy⟩

theorem RGB332_fillGeneric_At (b : RGB332) (w h : Int) (hR : b.Rect = ⟨⟨0, 0⟩, ⟨w, h⟩⟩)
    (hS : b.Stride = w) (hL : (b.Pix.length : Int) = w * h) (x y : Int)
    (hin : (Point.mk x y).In b.Rect) (c : pixelcolor.Color) :
    ∃ img, fillGeneric (.rgb332 b) c = some img ∧
      img.At x y = some (.rgb332 (pixelcolor.ToRGB332 c % 2 ^ 8)) := by
  obtain ⟨img, hf, -, hg⟩ := fillGeneric_establish (.rgb332 b) c
    (fun i => ∃ b1, i = .rgb332 b1 ∧ b1.Rect = b.Rect ∧ b1.Stride = w ∧
      (b1.Pix.length : Int) = w * h)
    (fun i => i.At x y = some (.rgb332 (pixelcolor.ToRGB332 c % 2 ^ 8))) x y
    ⟨b, rfl, rfl, hS, hL⟩
    (by
      rintro i px py ⟨b1, rfl, hR1, hS1, hL1⟩ hp
      have hp1 : (Point.mk px py).In b1.Rect := by rw [hR1]; exact hp
      obtain ⟨b2, hs, hR2, hS2, hL2, hat, hoth⟩ :=
        RGB332_Set_At b1 w h (hR1.trans hR) hS1 hL1 px py hp1 c
      refine ⟨.rgb332 b2, by simp [Image.Set, hs], ⟨b2, rfl, hR2.trans hR1, hS2.trans hS1,
        by rw [hL2]; exact hL1⟩, ?_, ?_⟩
      · intro hg
        by_cases hxy : x ≠ px ∨ y ≠ py
        · simp only [Image.At] at hg ⊢
          rw [hoth x y (by rw [hR1]; exact hin) hxy]
          exact hg
        · have h1 : x = px := by tauto
          have h2 : y = py := by tauto
          subst h1 h2
          exact hat
      · rintro ⟨rfl, rfl⟩
        exact hat)
    hin
  exact ⟨img, hf, hg⟩

theorem RGB565_fillGeneric_At (b : RGB565) (w h : Int) (hR : b.Rect = ⟨⟨0, 0⟩, ⟨w, h⟩⟩)
    (hS : b.Stride = w * 2) (hL : (b.Pix.length : Int) = w * h * 2) (x y : Int)
    (hin : (Point.mk x y).In b.Rect) (c : pixelcolor.Color) :
    ∃ img, fillGeneric (.rgb565 b) c = some img ∧
      img.At x y = some (.rgb565 (pixelcolor.ToRGB565 c)) := by
  obtain ⟨img, hf, -, hg⟩ := fillGeneric_establish (.rgb565 b) c
    (fun i => ∃ b1, i = .rgb565 b1 ∧ b1.Rect = b.Rect ∧ b1.Stride = w * 2 ∧
      (b1.Pix.length : Int) = w * h * 2)
    (fun i => i.At x y = some (.rgb565 (pixelcolor.ToRGB565 c))) x y
    ⟨b, rfl, rfl, hS, hL⟩
    (by
      rintro i px py ⟨b1, rfl, hR1, hS1, hL1⟩ hp
      have hp1 : (Point.mk px py).In b1.Rect := by rw [hR1]; exact hp
      obtain ⟨b2, hs, hR2, hS2, hL2, hat, hoth⟩ :=
        RGB565_Set_At b1 w h (hR1.trans hR) hS1 hL1 px py hp1 c
      refine ⟨.rgb565 b2, by simp [Image.Set, hs], ⟨b2, rfl, hR2.trans hR1, hS2.trans hS1,
        by rw [hL2]; exact hL1⟩, ?_, ?_⟩
      · intro hg
        by_cases hxy : x ≠ px ∨ y ≠ py
        · simp only [Image.At] at hg ⊢
          rw [hoth x y (by rw [hR1]; exact hin) hxy]
          exact hg
        · have h1 : x = px := by tauto
          have h2 : y = py := by tauto
          subst h1 h2
          exact hat
      · rintro ⟨rfl, rfl⟩
        exact hat)
    hin
  exact ⟨img, hf, hg⟩

theorem RGB888_fillGeneric_At (b : RGB888) (w h : Int) (hR : b.Rect = ⟨⟨0, 0⟩, ⟨w, h⟩⟩)
    (hS : b.Stride = w * 3) (hL : (b.Pix.length : Int) = w * h * 3) (x y : Int)
    (hin : (Point.mk x y).In b.Rect) (c : pixelcolor.Color) :
    ∃ img, fillGeneric (.rgb888 b) c = some img ∧
      img.At x y = some (.rgb888 (pixelcolor.ToRGB888 c)) := by
  obtain ⟨img, hf, -, hg⟩ := fillGeneric_establish (.rgb888 b) c
    (fun i => ∃ b1, i = .rgb888 b1 ∧ b1.Rect = b.Rect ∧ b1.Stride = w * 3 ∧
      (b1.Pix.length : Int) = w * h * 3)
    (fun i => i.At x y = some (.rgb888 (pixelcolor.ToRGB888 c))) x y
    ⟨b, rfl, rfl, hS, hL⟩
    (by
      rintro i px py ⟨b1, rfl, hR1, hS1, hL1⟩ hp
      have hp1 : (Point.mk px py).In b1.Rect := by rw [hR1]; exact hp
      obtain ⟨b2, hs, hR2, hS2, hL2, hat, hoth⟩ :=
        RGB888_Set_At b1 w h (hR1.trans hR) hS1 hL1 px py hp1 c
      refine ⟨.rgb888 b2, by simp [Image.Set, hs], ⟨b2, rfl, hR2.trans hR1, hS2.trans hS1,
        by rw [hL2]; exact hL1⟩, ?_, ?_⟩
      · intro hg
        by_cases hxy : x ≠ px ∨ y ≠ py
        · simp only [Image.At] at hg ⊢
          rw [hoth x y (by rw [hR1]; exact hin) hxy]
          exact hg
        · have h1 : x = px := by tauto
          have h2 : y = py := by tauto
          subst h1 h2
          exact hat
      · rintro ⟨rfl, rfl⟩
        exact hat)
    hin
  exact ⟨img, hf, hg⟩

/-! ## Bits of a bitmap byte -/

theorem and_two_pow_ne_zero (p k : Nat) : decide (p &&& 2 ^ k ≠ 0) = p.testBit k := by
  by_cases h : p.testBit k = true
  · rw [h, decide_eq_true_eq]
    intro h0
    have : (p &&& 2 ^ k).testBit k = true := by
      rw [Nat.testBit_and, h, Nat.testBit_two_pow_self]; rfl
    rw [h0, Nat.zero_testBit] at this
    exact absurd this (by decide)
  · have hf : p.testBit k = false := by simpa using h
    rw [hf, decide_eq_false_iff_not, not_not]
    apply Nat.eq_of_testBit_eq
    intro i
    rw [Nat.testBit_and, Nat.zero_testBit, Nat.testBit_two_pow]
    by_cases hik : k = i
    · subst hik; simp [hf]
    · simp [hik]

theorem byte_mask (k : Nat) (hk : k < 8) : (1 <<< k) % 2 ^ 8 = 2 ^ k := by
  rw [Nat.one_shiftLeft]
  exact Nat.mod_eq_of_lt (Nat.pow_lt_pow_right (by decide) hk)

theorem test_mask (p k : Nat) (hk : k < 8) :
    decide (p &&& ((1 <<< k) % 2 ^ 8) ≠ 0) = p.testBit k := by
  rw [byte_mask k hk, and_two_pow_ne_zero]

theorem setbit_test (p k : Nat) (cb : Bool) (hk : k < 8) :
    (if cb then p ||| ((1 <<< k) % 2 ^ 8) else p &&& (0xff ^^^ ((1 <<< k) % 2 ^ 8))).testBit k
      = cb := by
  rw [byte_mask k hk]
  cases cb
  · simp only [Bool.false_eq_true, if_false, Nat.testBit_and, Nat.testBit_xor,
      Nat.testBit_two_pow_self]
    rw [show (0xff : Nat) = 2 ^ 8 - 1 by decide, Nat.testBit_two_pow_sub_one]
    simp [hk]
  · simp only [if_true, Nat.testBit_or, Nat.testBit_two_pow_self, Bool.or_true]

theorem setbit_keep (p k j : Nat) (cb : Bool) (hk : k < 8) (h : p.testBit j = cb) :
    (if cb then p ||| ((1 <<< k) % 2 ^ 8) else p &&& (0xff ^^^ ((1 <<< k) % 2 ^ 8))).testBit j
      = cb := by
  rw [byte_mask k hk]
  cases cb
  · simp only [Bool.false_eq_true, if_false, Nat.testBit_and, h, Bool.false_and]
  · simp only [if_true, Nat.testBit_or, h, Bool.true_or]

theorem PixOffset_mask (b : Bitmap) (x y : Int) :
    ∃ k, k < 8 ∧ (b.PixOffset x y).2 = 1 <<< k := by
  unfold Bitmap.PixOffset
  split_ifs
  · exact ⟨(y % 8).toNat, by omega, rfl⟩
  · exact ⟨(7 - y % 8).toNat, by omega, rfl⟩

theorem Bitmap_PixOffset_congr (b b' : Bitmap) (hS : b'.Stride = b.Stride)
    (hF : b'.Format = b.Format) (x y : Int) : b'.PixOffset x y = b.PixOffset x y := by
  simp only [Bitmap.PixOffset, hS, hF]

theorem Bitmap_At_eq (b : Bitmap) (x y : Int)
    (hin : ¬ (x < 0 ∨ y < 0 ∨ x ≥ b.Rect.Max.X ∨ y ≥ b.Rect.Max.Y)) :
    b.At x y = if (b.PixOffset x y).1 ≥ b.Pix.length then some (.bit pixelcolor.Off)
      else (index b.Pix (b.PixOffset x y).1).map
        fun p => .bit (decide (p &&& ((b.PixOffset x y).2 % 2 ^ 8) ≠ 0)) := by
  simp only [Bitmap.At, hin, if_false]

theorem Bitmap_At_outside (b : Bitmap) (x y : Int)
    (hout : x < 0 ∨ y < 0 ∨ x ≥ b.Rect.Max.X ∨ y ≥ b.Rect.Max.Y) :
    b.At x y = some (.bit pixelcolor.Off) := by
  simp only [Bitmap.At, hout, if_true]

theorem Bitmap_SetBit_eq (b : Bitmap) (x y : Int) (cb : Bool) :
    b.SetBit x y cb =
      if (b.PixOffset x y).1 < 0 ∨ (b.PixOffset x y).1 ≥ b.Pix.length then some b
      else (index b.Pix (b.PixOffset x y).1).bind fun p =>
        (setIndex b.Pix (b.PixOffset x y).1
          (if cb then p ||| ((b.PixOffset x y).2 % 2 ^ 8)
            else p &&& (0xff ^^^ ((b.PixOffset x y).2 % 2 ^ 8)))).bind
          fun pix => some { b with Pix := pix } := rfl

theorem Bitmap_Set_spec (b : Bitmap) (x y : Int) (c : pixelcolor.Color) :
    ∃ b', b.Set x y c = some b' ∧ b'.Rect = b.Rect ∧ b'.Stride = b.Stride ∧
      b'.Format = b.Format ∧ b'.Pix.length = b.Pix.length ∧
      (∀ qx qy, b.At qx qy = some (.bit (pixelcolor.ToBit c)) →
        b'.At qx qy = some (.bit (pixelcolor.ToBit c))) ∧
      (0 ≤ x → 0 ≤ y → x < b.Rect.Max.X → y < b.Rect.Max.Y → 0 ≤ (b.PixOffset x y).1 →
        (b.PixOffset x y).1 < b.Pix.length → b'.At x y = some (.bit (pixelcolor.ToBit c))) := by
  obtain ⟨k, hk, hmask⟩ := PixOffset_mask b x y
  obtain ⟨cb, hcb⟩ : ∃ cb, cb = pixelcolor.ToBit c := ⟨_, rfl⟩
  rw [← hcb]
  have hSet : b.Set x y c = b.SetBit x y cb := by rw [hcb]; rfl
  rw [hSet, Bitmap_SetBit_eq]
  by_cases hrange : (b.PixOffset x y).1 < 0 ∨ (b.PixOffset x y).1 ≥ b.Pix.length
  · rw [if_pos hrange]
    refine ⟨b, rfl, rfl, rfl, rfl, rfl, fun _ _ h => h, ?_⟩
    intro _ _ _ _ h1 h2
    omega
  · rw [if_neg hrange]
    have h0 : 0 ≤ (b.PixOffset x y).1 := by omega
    have hlt : (b.PixOffset x y).1 < b.Pix.length := by omega
    obtain ⟨n, hn⟩ : ∃ n : Nat, (n : Int) = (b.PixOffset x y).1 :=
      ⟨(b.PixOffset x y).1.toNat, Int.toNat_of_nonneg h0⟩
    have hnL : n < b.Pix.length := by omega
    obtain ⟨p, hp⟩ : ∃ p, b.Pix[n]? = some p := ⟨b.Pix[n], List.getElem?_eq_getElem hnL⟩
    obtain ⟨q, hq⟩ : ∃ q, q = (if cb then p ||| ((1 <<< k) % 2 ^ 8)
        else p &&& (0xff ^^^ ((1 <<< k) % 2 ^ 8))) := ⟨_, rfl⟩
    have hidx : index b.Pix (b.PixOffset x y).1 = some p := by
      rw [← hn, index_natCast, hp]
    have hsi : ∀ v, setIndex b.Pix (b.PixOffset x y).1 v = some (b.Pix.set n v) := by
      intro v
      rw [← hn]
      simp only [setIndex]
      rw [if_pos ⟨by omega, by omega⟩]
      rfl
    rw [hidx, Option.some_bind, hsi, Option.some_bind, hmask, ← hq]
    have hoffc : ∀ qx qy, Bitmap.PixOffset { b with Pix := b.Pix.set n q } qx qy
        = b.PixOffset qx qy := fun qx qy => Bitmap_PixOffset_congr _ _ rfl rfl qx qy
    refine ⟨_, rfl, rfl, rfl, rfl, List.length_set _ _ _, ?_, ?_⟩
    · intro qx qy hgood
      by_cases hb1 : qx < 0 ∨ qy < 0 ∨ qx ≥ b.Rect.Max.X ∨ qy ≥ b.Rect.Max.Y
      · rw [Bitmap_At_outside b qx qy hb1] at hgood
        rw [Bitmap_At_outside { b with Pix := b.Pix.set n q } qx qy hb1]
        exact hgood
      · rw [Bitmap_At_eq b qx qy hb1] at hgood
        rw [Bitmap_At_eq { b with Pix := b.Pix.set n q } qx qy hb1, hoffc]
        simp only [List.length_set]
        by_cases hb2 : (b.PixOffset qx qy).1 ≥ b.Pix.length
        · rw [if_pos hb2] at hgood ⊢
          exact hgood
        · rw [if_neg hb2] at hgood ⊢
          obtain ⟨kq, hkq, hmq⟩ := PixOffset_mask b qx qy
          rw [hmq] at hgood ⊢
          by_cases hneg : (b.PixOffset qx qy).1 < 0
          · have : index b.Pix (b.PixOffset qx qy).1 = none := by
              simp only [index]; rw [if_neg (by omega)]
            rw [this] at hgood
            cases hgood
          · obtain ⟨nq, hnq⟩ : ∃ nq : Nat, (nq : Int) = (b.PixOffset qx qy).1 :=
              ⟨(b.PixOffset qx qy).1.toNat, Int.toNat_of_nonneg (by omega)⟩
            rw [← hnq, index_natCast] at hgood ⊢
            by_cases hnn : n = nq
            · subst hnn
              rw [hp] at hgood
              rw [List.getElem?_set_self hnL]
              simp only [Option.map_some', Option.some.injEq, pixelcolor.Color.bit.injEq,
                test_mask _ _ hkq] at hgood ⊢
              rw [hq]
              exact setbit_keep p k kq cb hk hgood
            · rw [List.getElem?_set_ne hnn]
              exact hgood
    · intro hx0 hy0 hx1 hy1 _ _
      rw [Bitmap_At_eq { b with Pix := b.Pix.set n q } x y (by simp only; omega), hoffc]
      simp only [List.length_set]
      rw [if_neg (by omega), ← hn, index_natCast, List.getElem?_set_self hnL, hmask]
      simp only [Option.map_some', Option.some.injEq, pixelcolor.Color.bit.injEq,
        test_mask _ _ hk]
      rw [hq]
      exact setbit_test p k cb hk

theorem Bitmap_PixOffset_nonneg (b : Bitmap) (w : Int) (hS : b.Stride = w) (x y : Int)
    (hx0 : 0 ≤ x) (hx : x < w) (hy0 : 0 ≤ y) : 0 ≤ (b.PixOffset x y).1 := by
  have hw : 0 ≤ w := by omega
  unfold Bitmap.PixOffset
  rw [hS]
  split_ifs
  · have : 0 ≤ y / 8 * w := mul_nonneg (by omega) hw
    simp only
    omega
  · have : 0 ≤ y * w := mul_nonneg hy0 hw
    simp only
    omega

theorem Bitmap_Fill_At (b : Bitmap) (w h : Int) (hR : b.Rect = ⟨⟨0, 0⟩, ⟨w, h⟩⟩)
    (hS : b.Stride = w) (x y : Int) (hin : (Point.mk x y).In b.Rect) (c : pixelcolor.Color) :
    ∃ img, Fill (.bitmap b) c = some img ∧
      img.At x y = if (b.PixOffset x y).1 ≥ b.Pix.length then some (.bit pixelcolor.Off)
        else some (.bit (pixelcolor.ToBit c)) := by
  have hin2 := hin
  simp only [hR, Point.In] at hin2
  obtain ⟨hx0, hx, hy0, hy⟩ := hin2
  have hoff0 := Bitmap_PixOffset_nonneg b w hS x y hx0 hx hy0
  obtain ⟨k, hk, hmask⟩ := PixOffset_mask b x y
  obtain ⟨cb, hcb⟩ : ∃ cb, cb = pixelcolor.ToBit c := ⟨_, rfl⟩
  obtain ⟨p, hp, hpl, hconst⟩ := memset_const b.Pix (if cb then 0xff else 0x00)
  have hfill : Fill (.bitmap b) c = some (.bitmap { b with Pix := p }) := by
    simp only [Fill, ← hcb]
    cases cb
    · simp only [Bool.false_eq_true, if_false] at hp ⊢
      rw [hp]; rfl
    · simp only [if_true] at hp ⊢
      rw [hp]; rfl
  refine ⟨_, hfill, ?_⟩
  have hnotout : ¬ (x < 0 ∨ y < 0 ∨ x ≥ b.Rect.Max.X ∨ y ≥ b.Rect.Max.Y) := by
    rw [hR]; simp only; omega
  simp only [Image.At]
  rw [Bitmap_At_eq { b with Pix := p } x y hnotout,
    Bitmap_PixOffset_congr b { b with Pix := p } rfl rfl]
  simp only [hpl]
  by_cases hge : (b.PixOffset x y).1 ≥ b.Pix.length
  · rw [if_pos hge, if_pos hge]
  · rw [if_neg hge, if_neg hge]
    obtain ⟨n, hn⟩ : ∃ n : Nat, (n : Int) = (b.PixOffset x y).1 :=
      ⟨(b.PixOffset x y).1.toNat, Int.toNat_of_nonneg hoff0⟩
    rw [← hn, index_natCast, hconst n (by omega), hmask, ← hcb]
    simp only [Option.map_some', Option.some.injEq, pixelcolor.Color.bit.injEq,
      test_mask _ _ hk]
    cases cb
    · simp
    · simp only [if_true]
      rw [show (0xff : Nat) = 2 ^ 8 - 1 by decide, Nat.testBit_two_pow_sub_one]
      simp [hk]

theorem Bitmap_fillGeneric_At (b : Bitmap) (w h : Int) (hR : b.Rect = ⟨⟨0, 0⟩, ⟨w, h⟩⟩)
    (hS : b.Stride = w) (x y : Int) (hin : (Point.mk x y).In b.Rect) (c : pixelcolor.Color) :
    ∃ img, fillGeneric (.bitmap b) c = some img ∧
      img.At x y = if (b.PixOffset x y).1 ≥ b.Pix.length then some (.bit pixelcolor.Off)
        else some (.bit (pixelcolor.ToBit c)) := by
  have hin2 := hin
  simp only [hR, Point.In] at hin2
  obtain ⟨hx0, hx, hy0, hy⟩ := hin2
  have hoff0 := Bitmap_PixOffset_nonneg b w hS x y hx0 hx hy0
  have hnotout : ¬ (x < 0 ∨ y < 0 ∨ x ≥ b.Rect.Max.X ∨ y ≥ b.Rect.Max.Y) := by
    rw [hR]; simp only; omega
  obtain ⟨img, hf, ⟨b1, rfl, hR1, hS1, hF1, hL1⟩, hg⟩ := fillGeneric_establish (.bitmap b) c
    (fun i => ∃ b1, i = .bitmap b1 ∧ b1.Rect = b.Rect ∧ b1.Stride = b.Stride ∧
      b1.Format = b.Format ∧ b1.Pix.length = b.Pix.length)
    (fun i => (b.PixOffset x y).1 < b.Pix.length →
      i.At x y = some (.bit (pixelcolor.ToBit c))) x y
    ⟨b, rfl, rfl, rfl, rfl, rfl⟩
    (by
      rintro i px py ⟨b1, rfl, hR1, hS1, hF1, hL1⟩ hp
      obtain ⟨b2, hs, hR2, hS2, hF2, hL2, hkeep, hest⟩ := Bitmap_Set_spec b1 px py c
      refine ⟨.bitmap b2, by simp [Image.Set, hs], ⟨b2, rfl, hR2.trans hR1, hS2.trans hS1,
        hF2.trans hF1, hL2.trans hL1⟩, ?_, ?_⟩
      · intro hg hlt
        exact hkeep x y (hg hlt)
      · rintro ⟨rfl, rfl⟩ hlt
        have hpo : b1.PixOffset px py = b.PixOffset px py :=
          Bitmap_PixOffset_congr b b1 hS1 hF1 px py
        refine hest hx0 hy0 ?_ ?_ ?_ ?_
        · rw [hR1, hR]; exact hx
        · rw [hR1, hR]; exact hy
        · rw [hpo]; exact hoff0
        · rw [hpo, hL1]; exact hlt)
    hin
  refine ⟨_, hf, ?_⟩
  by_cases hge : (b.PixOffset x y).1 ≥ b.Pix.length
  · rw [if_pos hge]
    simp only [Image.At]
    rw [Bitmap_At_eq b1 x y (by rw [hR1]; exact hnotout),
      Bitmap_PixOffset_congr b b1 hS1 hF1, hL1, if_pos hge]
  · rw [if_neg hge]
    exact hg (by omega)

/-! ## Fill -/

theorem RGB565_Fill_At (b : RGB565) (w h : Int) (hR : b.Rect = ⟨⟨0, 0⟩, ⟨w, h⟩⟩)
    (hS : b.Stride = w * 2) (hL : (b.Pix.length : Int) = w * h * 2) (x y : Int)
    (hin : (Point.mk x y).In b.Rect) (c : pixelcolor.Color) :
    ∃ img, Fill (.rgb565 b) c = some img ∧
      img.At x y = some (.rgb565 (pixelcolor.ToRGB565 c)) := by
  have hin2 := hin
  simp only [hR, Point.In] at hin2
  obtain ⟨hx0, hx, hy0, hy⟩ := hin2
  obtain ⟨n, hn, hnlt⟩ := pixel_index w h x y hx0 hx hy0 hy
  have hnL : 2 * n + 2 ≤ b.Pix.length := by omega
  have hv : pixelcolor.ToRGB565 c < 2 ^ 16 := Nat.mod_lt _ (by decide)
  obtain ⟨v, hvdef⟩ : ∃ v, v = pixelcolor.ToRGB565 c := ⟨_, rfl⟩
  rw [← hvdef] at hv ⊢
  obtain ⟨p, hp, hpl, hper⟩ := memsetSlice_periodic b.Pix [(v >>> 8) % 2 ^ 8, v % 2 ^ 8]
    (by simp)
  refine ⟨.rgb565 { b with Pix := p }, ?_, ?_⟩
  · simp only [Fill, ← hvdef, hp, Option.map_some']
  · have hoff : RGB565.OffsetOf { b with Pix := p } x y = ((2 * n : Nat) : Int) := by
      simp only [RGB565.OffsetOf, hS]; push_cast; rw [hn]; ring
    have hin3 : (Point.mk x y).In (RGB565.Rect { b with Pix := p }) := hin
    simp only [Image.At, RGB565.At, hin3, not_true_eq_false, if_false]
    rw [hoff]
    simp only [Uint16, index_natCast, show (((2 * n : Nat) : Int) + 1) = ((2 * n + 1 : Nat) : Int)
      by push_cast; ring]
    rw [hper _ (by omega), hper _ (by omega)]
    have e0 : (2 * n) % 2 = 0 := by omega
    have e1 : (2 * n + 1) % 2 = 1 := by omega
    simp only [List.length_cons, List.length_nil, e0, e1]
    simpa using uint16_bytes _ hv

theorem RGB888_Fill_At (b : RGB888) (w h : Int) (hR : b.Rect = ⟨⟨0, 0⟩, ⟨w, h⟩⟩)
    (hS : b.Stride = w * 3) (hL : (b.Pix.length : Int) = w * h * 3) (x y : Int)
    (hin : (Point.mk x y).In b.Rect) (c : pixelcolor.Color) :
    ∃ img, Fill (.rgb888 b) c = some img ∧
      img.At x y = some (.rgb888 (pixelcolor.ToRGB888 c)) := by
  have hin2 := hin
  simp only [hR, Point.In] at hin2
  obtain ⟨hx0, hx, hy0, hy⟩ := hin2
  obtain ⟨n, hn, hnlt⟩ := pixel_index w h x y hx0 hx hy0 hy
  have hnL : 3 * n + 3 ≤ b.Pix.length := by omega
  obtain ⟨v, hvdef⟩ : ∃ v, v = pixelcolor.ToRGB888 c := ⟨_, rfl⟩
  rw [← hvdef]
  obtain ⟨p, hp, hpl, hper⟩ := memsetSlice_periodic b.Pix [v.R, v.G, v.B] (by simp)
  refine ⟨.rgb888 { b with Pix := p }, ?_, ?_⟩
  · simp only [Fill, ← hvdef, hp, Option.map_some']
  · have hoff : RGB888.OffsetOf { b with Pix := p } x y = ((3 * n : Nat) : Int) := by
      simp only [RGB888.OffsetOf, hS]; push_cast; rw [hn]; ring
    have hin3 : (Point.mk x y).In (RGB888.Rect { b with Pix := p }) := hin
    simp only [Image.At, RGB888.At, hin3, not_true_eq_false, if_false]
    rw [hoff]
    simp only [index_natCast,
      show (((3 * n : Nat) : Int) + 1) = ((3 * n + 1 : Nat) : Int) by push_cast; ring,
      show (((3 * n : Nat) : Int) + 2) = ((3 * n + 2 : Nat) : Int) by push_cast; ring]
    rw [hper _ (by omega), hper _ (by omega), hper _ (by omega)]
    have e0 : (3 * n) % 3 = 0 := by omega
    have e1 : (3 * n + 1) % 3 = 1 := by omega
    have e2 : (3 * n + 2) % 3 = 2 := by omega
    simp only [List.length_cons, List.length_nil, e0, e1, e2]
    rfl

/-- C9: for a buffer created by `NewRGB332`, `NewRGB565` or `NewRGB888` with `w, h ≥ 0`
(holding any bytes `pix` of the created length) and every colour `c`, `Fill(b, c)`
completes and afterwards every in-bounds pixel reads back as the format's conversion
of `c`. -/
theorem Fill_then_At (w h x y : Int) (c : pixelcolor.Color) (hc : c.wf) (hw : 0 ≤ w)
    (hh : 0 ≤ h) (hx : 0 ≤ x ∧ x < w) (hy : 0 ≤ y ∧ y < h) (pix : List Nat) :
    (∀ b0, NewRGB332 w h = some b0 → pix.length = b0.Pix.length →
      ∃ img, Fill (.rgb332 { b0 with Pix := pix }) c = some img ∧
        img.At x y = some (.rgb332 (pixelcolor.ToRGB332 c))) ∧
    (∀ b0, NewRGB565 w h = some b0 → pix.length = b0.Pix.length →
      ∃ img, Fill (.rgb565 { b0 with Pix := pix }) c = some img ∧
        img.At x y = some (.rgb565 (pixelcolor.ToRGB565 c))) ∧
    (∀ b0, NewRGB888 w h = some b0 → pix.length = b0.Pix.length →
      ∃ img, Fill (.rgb888 { b0 with Pix := pix }) c = some img ∧
        img.At x y = some (.rgb888 (pixelcolor.ToRGB888 c))) := by
  have hwh : 0 ≤ w * h := mul_nonneg hw hh
  have hin : (Point.mk x y).In (⟨⟨0, 0⟩, ⟨w, h⟩⟩ : Rectangle) := by
    simp only [Point.In]; omega
  refine ⟨?_, ?_, ?_⟩
  · intro b0 hb0 hlen
    simp only [NewRGB332, make, hwh, if_true, Option.map_some', Option.some.injEq] at hb0
    subst hb0
    simp only [List.length_replicate] at hlen
    have := RGB332_fillGeneric_At ⟨⟨⟨0, 0⟩, ⟨w, h⟩⟩, pix, w⟩ w h rfl rfl (by simp only; omega)
      x y hin c
    rw [Nat.mod_eq_of_lt (ToRGB332_lt c hc)] at this
    exact this
  · intro b0 hb0 hlen
    simp only [NewRGB565, make, show 0 ≤ w * h * 2 by omega, if_true, Option.map_some',
      Option.some.injEq] at hb0
    subst hb0
    simp only [List.length_replicate] at hlen
    exact RGB565_Fill_At ⟨⟨⟨0, 0⟩, ⟨w, h⟩⟩, pix, w * 2⟩ w h rfl rfl (by simp only; omega)
      x y hin c
  · intro b0 hb0 hlen
    simp only [NewRGB888, make, show 0 ≤ w * h * 3 by omega, if_true, Option.map_some',
      Option.some.injEq] at hb0
    subst hb0
    simp only [List.length_replicate] at hlen
    exact RGB888_Fill_At ⟨⟨⟨0, 0⟩, ⟨w, h⟩⟩, pix, w * 3⟩ w h rfl rfl (by simp only; omega)
      x y hin c

theorem Fill_then_At_witness :
    ∃ img, Fill (.rgb888 ⟨⟨⟨0, 0⟩, ⟨2, 2⟩⟩, List.replicate 12 0, 2 * 3⟩) (.rgba 0xff 1 2 0xff)
        = some img ∧
      img.At 1 1 = some (.rgb888 (pixelcolor.ToRGB888 (.rgba 0xff 1 2 0xff))) :=
  (Fill_then_At 2 2 1 1 (.rgba 0xff 1 2 0xff) (by decide) (by decide) (by decide) (by decide)
    (by decide) (List.replicate 12 0)).2.2 ⟨⟨⟨0, 0⟩, ⟨2, 2⟩⟩, List.replicate 12 0, 2 * 3⟩ rfl rfl

/-- C10: for a buffer created by `NewBitmap`, `New(w,h,MHMSBFormat)`, `NewRGB565` or
`NewRGB888` with `w, h ≥ 0`, whatever bytes `pix` of the created length it holds, and
every colour `c`: the fast path of `Fill` and the generic fallback (`Set(x,y,c)` for
every pixel of `Bounds()`) both complete, and every in-bounds pixel has the same `At`
value after either. -/
theorem Fill_fast_eq_generic (w h x y : Int) (c : pixelcolor.Color) (hw : 0 ≤ w)
    (hh : 0 ≤ h) (hx : 0 ≤ x ∧ x < w) (hy : 0 ≤ y ∧ y < h) (pix : List Nat) :
    (∀ b0, NewBitmap w h = some b0 → pix.length = b0.Pix.length →
      ∃ fast slow v, Fill (.bitmap { b0 with Pix := pix }) c = some fast ∧
        fillGeneric (.bitmap { b0 with Pix := pix }) c = some slow ∧
        fast.At x y = some v ∧ slow.At x y = some v) ∧
    (∀ b0, New w h MHMSBFormat = some (.ok (.bitmap b0)) → pix.length = b0.Pix.length →
      ∃ fast slow v, Fill (.bitmap { b0 with Pix := pix }) c = some fast ∧
        fillGeneric (.bitmap { b0 with Pix := pix }) c = some slow ∧
        fast.At x y = some v ∧ slow.At x y = some v) ∧
    (∀ b0, NewRGB565 w h = some b0 → pix.length = b0.Pix.length →
      ∃ fast slow v, Fill (.rgb565 { b0 with Pix := pix }) c = some fast ∧
        fillGeneric (.rgb565 { b0 with Pix := pix }) c = some slow ∧
        fast.At x y = some v ∧ slow.At x y = some v) ∧
    (∀ b0, NewRGB888 w h = some b0 → pix.length = b0.Pix.length →
      ∃ fast slow v, Fill (.rgb888 { b0 with Pix := pix }) c = some fast ∧
        fillGeneric (.rgb888 { b0 with Pix := pix }) c = some slow ∧
        fast.At x y = some v ∧ slow.At x y = some v) := by
  have hwh : 0 ≤ w * h := mul_nonneg hw hh
  have hin : (Point.mk x y).In (⟨⟨0, 0⟩, ⟨w, h⟩⟩ : Rectangle) := by
    simp only [Point.In]; omega
  have hbitmap : ∀ b : Bitmap, b.Rect = ⟨⟨0, 0⟩, ⟨w, h⟩⟩ → b.Stride = w →
      ∃ fast slow v, Fill (.bitmap b) c = some fast ∧ fillGeneric (.bitmap b) c = some slow ∧
        fast.At x y = some v ∧ slow.At x y = some v := by
    intro b hR hS
    obtain ⟨fast, hf, hfa⟩ := Bitmap_Fill_At b w h hR hS x y (by rw [hR]; exact hin) c
    obtain ⟨slow, hs, hsa⟩ := Bitmap_fillGeneric_At b w h hR hS x y (by rw [hR]; exact hin) c
    by_cases hge : (b.PixOffset x y).1 ≥ b.Pix.length
    · rw [if_pos hge] at hfa hsa
      exact ⟨fast, slow, _, hf, hs, hfa, hsa⟩
    · rw [if_neg hge] at hfa hsa
      exact ⟨fast, slow, _, hf, hs, hfa, hsa⟩
  refine ⟨?_, ?_, ?_, ?_⟩
  · intro b0 hb0 _
    rw [NewBitmap_eq w h hw hh] at hb0
    simp only [Option.some.injEq] at hb0
    subst hb0
    exact hbitmap _ rfl rfl
  · intro b0 hb0 _
    rw [New_bitmap_eq w h hw hh MHMSBFormat (Or.inl rfl)] at hb0
    simp only [Option.some.injEq, Except.ok.injEq, Image.bitmap.injEq] at hb0
    subst hb0
    exact hbitmap _ rfl rfl
  · intro b0 hb0 hlen
    simp only [NewRGB565, make, show 0 ≤ w * h * 2 by omega, if_true, Option.map_some',
      Option.some.injEq] at hb0
    subst hb0
    simp only [List.length_replicate] at hlen
    obtain ⟨fast, hf, hfa⟩ := RGB565_Fill_At ⟨⟨⟨0, 0⟩, ⟨w, h⟩⟩, pix, w * 2⟩ w h rfl rfl
      (by simp only; omega) x y hin c
    obtain ⟨slow, hs, hsa⟩ := RGB565_fillGeneric_At ⟨⟨⟨0, 0⟩, ⟨w, h⟩⟩, pix, w * 2⟩ w h rfl rfl
      (by simp only; omega) x y hin c
    exact ⟨fast, slow, _, hf, hs, hfa, hsa⟩
  · intro b0 hb0 hlen
    simp only [NewRGB888, make, show 0 ≤ w * h * 3 by omega, if_true, Option.map_some',
      Option.some.injEq] at hb0
    subst hb0
    simp only [List.length_replicate] at hlen
    obtain ⟨fast, hf, hfa⟩ := RGB888_Fill_At ⟨⟨⟨0, 0⟩, ⟨w, h⟩⟩, pix, w * 3⟩ w h rfl rfl
      (by simp only; omega) x y hin c
    obtain ⟨slow, hs, hsa⟩ := RGB888_fillGeneric_At ⟨⟨⟨0, 0⟩, ⟨w, h⟩⟩, pix, w * 3⟩ w h rfl rfl
      (by simp only; omega) x y hin c
    exact ⟨fast, slow, _, hf, hs, hfa, hsa⟩

theorem Fill_fast_eq_generic_witness :
    ∃ fast slow v,
      Fill (.bitmap ⟨⟨⟨0, 0⟩, ⟨3, 3⟩⟩, [0x55, 0xaa], 3, MVLSBFormat⟩) (.gray16 0xffff) = some fast ∧
      fillGeneric (.bitmap ⟨⟨⟨0, 0⟩, ⟨3, 3⟩⟩, [0x55, 0xaa], 3, MVLSBFormat⟩) (.gray16 0xffff)
        = some slow ∧
      fast.At 1 2 = some v ∧ slow.At 1 2 = some v :=
  (Fill_fast_eq_generic 3 3 1 2 (.gray16 0xffff) (by decide) (by decide) (by decide) (by decide)
    [0x55, 0xaa]).1 ⟨⟨⟨0, 0⟩, ⟨3, 3⟩⟩, [0, 0], 3, MVLSBFormat⟩ rfl rfl

/-! ## Degenerate rectangles, generic rectangle fill, circle -/

/-- C13, evaluated at the failing input: on `NewRGB332(2,2)`, which takes the generic
branch of `fillRectangle`, `FillRectangle(b, (0,0)-(2,2), white)` sets the two pixels of
row 0 and leaves both pixels of row 1 at 0: the inner loop never resets `x`. -/
theorem FillRectangle_generic_first_row_only :
    ∃ b img, NewRGB332 2 2 = some b ∧
      FillRectangle (.rgb332 b) ⟨⟨0, 0⟩, ⟨2, 2⟩⟩ (.gray16 0xffff) = some img ∧
      img.Pix = [0xff, 0xff, 0, 0] ∧
      pixelcolor.ToRGB332 (.gray16 0xffff) = 0xff ∧
      img.At 0 0 = some (.rgb332 0xff) ∧ img.At 1 0 = some (.rgb332 0xff) ∧
      img.At 0 1 = some (.rgb332 0) ∧ img.At 1 1 = some (.rgb332 0) :=
  ⟨_, _, rfl, rfl, rfl, rfl, rfl, rfl, rfl, rfl⟩

/-- C14, evaluated at failing inputs: on the 10×10 buffers of `New`, `FillRectangle`
panics for the RGB888 rectangle (20,0)-(25,5), which lies outside the bounds, for the
RGB565 rectangle (5,0)-(3,5) of negative width, and for the MVLSB bitmap rectangle
(20,20)-(25,25); the RGB888 rectangle (20,20)-(25,25) of the claim does leave `Pix`
unchanged. -/
theorem FillRectangle_outside_panics :
    (∃ b, New 10 10 RGB888Format = some (.ok b) ∧
      FillRectangle b ⟨⟨20, 0⟩, ⟨25, 5⟩⟩ (.gray16 0xffff) = none) ∧
    (∃ b, New 10 10 RGB565Format = some (.ok b) ∧
      FillRectangle b ⟨⟨5, 0⟩, ⟨3, 5⟩⟩ (.gray16 0xffff) = none) ∧
    (∃ b, New 10 10 MVLSBFormat = some (.ok b) ∧
      FillRectangle b ⟨⟨20, 20⟩, ⟨25, 25⟩⟩ (.gray16 0xffff) = none) ∧
    (∃ b img, New 10 10 RGB888Format = some (.ok b) ∧
      FillRectangle b ⟨⟨20, 20⟩, ⟨25, 25⟩⟩ (.gray16 0xffff) = some img ∧ img.Pix = b.Pix) :=
  ⟨⟨_, rfl, rfl⟩, ⟨_, rfl, rfl⟩, ⟨_, rfl, rfl⟩, ⟨_, _, rfl, rfl, rfl⟩⟩

/-- C16, evaluated at the failing input: on `NewRGB332(2,2)`, `VLine(b, (0,0), 2, white)`
sets the pixel (0,0) only; the pixel (0,1) of the line keeps the value 0. -/
theorem VLine_generic_first_pixel_only :
    ∃ b img, NewRGB332 2 2 = some b ∧ (Point.mk 0 0).In b.Rect ∧
      VLine (.rgb332 b) ⟨0, 0⟩ 2 (.gray16 0xffff) = some img ∧
      img.Pix = [0xff, 0, 0, 0] ∧
      img.At 0 0 = some (.rgb332 (pixelcolor.ToRGB332 (.gray16 0xffff))) ∧
      img.At 0 1 = some (.rgb332 0) ∧
      img.At 0 1 ≠ some (.rgb332 (pixelcolor.ToRGB332 (.gray16 0xffff))) :=
  ⟨_, _, rfl, by decide, rfl, rfl, rfl, rfl, by decide⟩

/-- C19: for every centre `p`, `Circle` with `r < 0` passes no point to `Set` and
returns the buffer as it is, and `Circle` with `r = 0` ends after one iteration of its
loop, having called `Set` four times, each time on `p`. -/
theorem Circle_degenerate (p : Point) :
    (∀ fuel r, r < 0 → circlePoints fuel p r = some []) ∧
    (∀ fuel r b c, r < 0 → Circle fuel b p r c = some b) ∧
    (∀ fuel, 1 ≤ fuel → circlePoints fuel p 0 = some [p, p, p, p]) := by
  refine ⟨?_, ?_, ?_⟩
  · intro fuel r hr
    simp [circlePoints, hr]
  · intro fuel r b c hr
    simp [Circle, circlePoints, hr, setAll]
  · intro fuel hf
    obtain ⟨n, rfl⟩ : ∃ n, fuel = n + 1 := ⟨fuel - 1, by omega⟩
    obtain ⟨x, y⟩ := p
    simp [circlePoints, circleLoop]

theorem Circle_degenerate_witness :
    circlePoints 1 ⟨5, 5⟩ 0 = some [⟨5, 5⟩, ⟨5, 5⟩, ⟨5, 5⟩, ⟨5, 5⟩] :=
  (Circle_degenerate ⟨5, 5⟩).2.2 1 (by decide)

/-! ## Scrolling -/

theorem zeroing_fold (idxs : List Int) :
    ∀ p : List Nat, (∀ i ∈ idxs, 0 ≤ i ∧ i < p.length) →
      ∃ p', idxs.foldlM (fun b i => setIndex b i 0) p = some p' ∧ p'.length = p.length ∧
        ∀ j : Nat, j < p.length →
          p'[j]? = if (j : Int) ∈ idxs then some 0 else p[j]? := by
  induction idxs with
  | nil =>
    intro p _
    exact ⟨p, rfl, rfl, fun j _ => by simp⟩
  | cons i rest ih =>
    intro p hp
    obtain ⟨hi0, hil⟩ := hp i (List.mem_cons_self _ _)
    have hset : setIndex p i 0 = some (p.set i.toNat 0) := by
      simp only [setIndex]
      rw [if_pos ⟨hi0, hil⟩]
    obtain ⟨p', hf, hl, hg⟩ := ih (p.set i.toNat 0) (by
      intro k hk
      rw [List.length_set]
      exact hp k (List.mem_cons_of_mem _ hk))
    refine ⟨p', ?_, by rw [hl, List.length_set], ?_⟩
    · rw [List.foldlM_cons, hset]
      exact hf
    · intro j hj
      rw [hg j (by rw [List.length_set]; exact hj)]
      by_cases hjr : (j : Int) ∈ rest
      · rw [if_pos hjr, if_pos (List.mem_cons_of_mem _ hjr)]
      · rw [if_neg hjr]
        by_cases hji : (j : Int) = i
        · rw [if_pos (by rw [hji]; exact List.mem_cons_self _ _)]
          have : i.toNat = j := by omega
          rw [this, List.getElem?_set_self hj]
        · rw [if_neg (by
            intro hmem
            rcases List.mem_cons.mp hmem with h | h
            · exact hji h
            · exact hjr h)]
          rw [List.getElem?_set_ne (by omega)]

theorem zeroRange_spec (p : List Nat) (n l : Int) (hn : 0 ≤ n) (hl : l ≤ p.length) :
    ∃ p', zeroRange p n l = some p' ∧ p'.length = p.length ∧
      ∀ j : Nat, j < p.length →
        p'[j]? = if n ≤ (j : Int) ∧ (j : Int) < l then some 0 else p[j]? := by
  obtain ⟨p', hf, hlen, hg⟩ := zeroing_fold (intRange n l) p (by
    intro i hi
    rw [mem_intRange] at hi
    omega)
  refine ⟨p', hf, hlen, ?_⟩
  intro j hj
  rw [hg j hj]
  simp only [mem_intRange]

theorem scrollUpPix_spec (pix : List Nat) (stride : Int) (hs0 : 0 ≤ stride)
    (hs : stride ≤ pix.length) :
    ∃ p', scrollUpPix pix stride = some p' ∧ p'.length = pix.length ∧
      ∀ i : Nat, i < pix.length →
        p'[i]? = if (i : Int) < pix.length - stride then pix[i + stride.toNat]? else some 0 := by
  obtain ⟨S, hS⟩ : ∃ S : Nat, (S : Int) = stride := ⟨stride.toNat, Int.toNat_of_nonneg hs0⟩
  subst hS
  have hSl : S ≤ pix.length := by omega
  have hlen1 : (copyAt pix 0 (pix.drop S)).length = pix.length := length_copyAt _ _ _ (by omega)
  obtain ⟨p', hz, hl', hg⟩ := zeroRange_spec (copyAt pix 0 (pix.drop S))
    (((copyAt pix 0 (pix.drop S)).length : Int) - S) (copyAt pix 0 (pix.drop S)).length
    (by rw [hlen1]; omega) (le_refl _)
  refine ⟨p', ?_, by rw [hl', hlen1], ?_⟩
  · simp only [scrollUpPix, sliceFrom]
    rw [if_pos ⟨by omega, by omega⟩]
    simpa using hz
  · intro i hi
    rw [hg i (by rw [hlen1]; exact hi), hlen1]
    by_cases hlt : (i : Int) < pix.length - S
    · rw [if_neg (by omega), if_pos hlt, getElem?_copyAt _ _ _ _ (by omega), List.length_drop,
        if_pos ⟨by omega, by omega, hi⟩, List.getElem?_drop]
      simp only [Int.toNat_ofNat, Nat.sub_zero]
      rw [Nat.add_comm]
    · rw [if_pos ⟨by omega, by omega⟩, if_neg hlt]

/-- C20: for a buffer created by `NewRGB565(w,h)` or `NewRGB888(w,h)` with `w ≥ 0`,
`h ≥ 1` (holding any bytes `pix` of the created length), `ScrollUp` completes, keeps
the length of `Pix`, and afterwards `Pix[i]` is the original `Pix[i+Stride]` for
`i < len(Pix) - Stride` and 0 for every later `i`. -/
theorem ScrollUp_rows (w h : Int) (hw : 0 ≤ w) (hh : 1 ≤ h) (pix : List Nat) :
    (∀ b0, NewRGB565 w h = some b0 → pix.length = b0.Pix.length →
      ∃ p', ScrollUp (.rgb565 { b0 with Pix := pix }) = some (.rgb565 { b0 with Pix := p' }) ∧
        p'.length = pix.length ∧
        ∀ i : Nat, i < pix.length →
          p'[i]? = if (i : Int) < pix.length - b0.Stride then pix[i + b0.Stride.toNat]?
            else some 0) ∧
    (∀ b0, NewRGB888 w h = some b0 → pix.length = b0.Pix.length →
      ∃ p', ScrollUp (.rgb888 { b0 with Pix := pix }) = some (.rgb888 { b0 with Pix := p' }) ∧
        p'.length = pix.length ∧
        ∀ i : Nat, i < pix.length →
          p'[i]? = if (i : Int) < pix.length - b0.Stride then pix[i + b0.Stride.toNat]?
            else some 0) := by
  have hwh : 0 ≤ w * h := mul_nonneg hw (by omega)
  have hrow : w ≤ w * h := by
    have := mul_nonneg hw (show 0 ≤ h - 1 by omega)
    have e : w * (h - 1) = w * h - w := by ring
    omega
  refine ⟨?_, ?_⟩
  · intro b0 hb0 hlen
    simp only [NewRGB565, make, show 0 ≤ w * h * 2 by omega, if_true, Option.map_some',
      Option.some.injEq] at hb0
    subst hb0
    simp only [List.length_replicate] at hlen
    obtain ⟨p', hp, hl, hg⟩ := scrollUpPix_spec pix (w * 2) (by omega) (by omega)
    exact ⟨p', by simp only [ScrollUp, hp, Option.map_some'], hl, hg⟩
  · intro b0 hb0 hlen
    simp only [NewRGB888, make, show 0 ≤ w * h * 3 by omega, if_true, Option.map_some',
      Option.some.injEq] at hb0
    subst hb0
    simp only [List.length_replicate] at hlen
    obtain ⟨p', hp, hl, hg⟩ := scrollUpPix_spec pix (w * 3) (by omega) (by omega)
    exact ⟨p', by simp only [ScrollUp, hp, Option.map_some'], hl, hg⟩

theorem ScrollUp_rows_witness :
    ∃ p', ScrollUp (.rgb565 ⟨⟨⟨0, 0⟩, ⟨2, 2⟩⟩, [1, 2, 3, 4, 5, 6, 7, 8], 2 * 2⟩)
        = some (.rgb565 ⟨⟨⟨0, 0⟩, ⟨2, 2⟩⟩, p', 2 * 2⟩) ∧
      p'.length = 8 ∧ p'[1]? = some 6 ∧ p'[4]? = some 0 :=
  have h := (ScrollUp_rows 2 2 (by decide) (by decide) [1, 2, 3, 4, 5, 6, 7, 8]).1
    ⟨⟨⟨0, 0⟩, ⟨2, 2⟩⟩, List.replicate 8 0, 2 * 2⟩ rfl rfl
  h.imp fun _ hp => ⟨hp.1, hp.2.1, hp.2.2 1 (by decide), hp.2.2 4 (by decide)⟩

/-! ## Fill twice -/

theorem list_eq_of_getElem? (l1 l2 : List Nat) (hlen : l1.length = l2.length)
    (h : ∀ j, j < l1.length → l1[j]? = l2[j]?) : l1 = l2 := by
  apply List.ext_getElem?
  intro j
  by_cases hj : j < l1.length
  · exact h j hj
  · rw [List.getElem?_eq_none (by omega), List.getElem?_eq_none (by omega)]

theorem fillGeneric_inv (img : Image) (c : pixelcolor.Color) (inv : Image → Prop)
    (hinv : inv img)
    (hstep : ∀ b x y, inv b → (Point.mk x y).In img.Bounds →
      ∃ b', b.Set x y c = some b' ∧ inv b') :
    ∃ b', fillGeneric img c = some b' ∧ inv b' := by
  have houter := foldlM_establish
    (fun b y => (intRange img.Bounds.Min.X img.Bounds.Max.X).foldlM (fun b x => b.Set x y c) b)
    inv (fun _ => True) (fun _ => False) (intRange img.Bounds.Min.Y img.Bounds.Max.Y)
    (by
      intro b y hy hb
      rw [mem_intRange] at hy
      have hinner := foldlM_establish (fun b x => b.Set x y c) inv (fun _ => True)
        (fun _ => False) (intRange img.Bounds.Min.X img.Bounds.Max.X)
        (by
          intro b x hx hb
          rw [mem_intRange] at hx
          obtain ⟨b', h1, h2⟩ := hstep b x y hb ⟨hx.1, hx.2, hy.1, hy.2⟩
          exact ⟨b', h1, h2, fun _ => trivial, fun h => h.elim⟩)
        b hb
      obtain ⟨b', hf, hinv', -⟩ := hinner
      exact ⟨b', hf, hinv', fun _ => trivial, fun h => h.elim⟩)
    img hinv
  obtain ⟨b', hf, hinv', -⟩ := houter
  exact ⟨b', hf, hinv'⟩

theorem RGB332_fillGeneric_all (b : RGB332) (w h : Int) (hw : 0 ≤ w)
    (hR : b.Rect = ⟨⟨0, 0⟩, ⟨w, h⟩⟩) (hS : b.Stride = w) (hL : (b.Pix.length : Int) = w * h)
    (c : pixelcolor.Color) :
    ∃ p, fillGeneric (.rgb332 b) c = some (.rgb332 { b with Pix := p }) ∧
      p.length = b.Pix.length ∧
      ∀ j, j < b.Pix.length → p[j]? = some (pixelcolor.ToRGB332 c % 2 ^ 8) := by
  obtain ⟨img, hf, ⟨b1, rfl, hR1, hS1, hL1⟩⟩ := fillGeneric_inv (.rgb332 b) c
    (fun i => ∃ b1, i = .rgb332 b1 ∧ b1.Rect = b.Rect ∧ b1.Stride = b.Stride ∧
      b1.Pix.length = b.Pix.length)
    ⟨b, rfl, rfl, rfl, rfl⟩
    (by
      rintro i px py ⟨b1, rfl, hR1, hS1, hL1⟩ hp
      have hp1 : (Point.mk px py).In b1.Rect := by rw [hR1]; exact hp
      obtain ⟨b2, hs, hR2, hS2, hL2, -, -⟩ :=
        RGB332_Set_At b1 w h (hR1.trans hR) (hS1.trans hS) (by rw [hL1]; exact hL) px py hp1 c
      exact ⟨.rgb332 b2, by simp [Image.Set, hs], b2, rfl, hR2.trans hR1, hS2.trans hS1,
        hL2.trans hL1⟩)
  have hb1 : b1 = { b with Pix := b1.Pix } := by
    cases b1; cases b; simp only at hR1 hS1; subst hR1 hS1; rfl
  refine ⟨b1.Pix, by rw [hf, ← hb1], hL1, ?_⟩
  intro j hj
  have hwpos : 0 < w := by
    by_contra hneg
    have : w = 0 := by omega
    rw [this, zero_mul] at hL
    omega
  have hx0 : 0 ≤ (j : Int) % w := Int.emod_nonneg _ (by omega)
  have hx1 : (j : Int) % w < w := Int.emod_lt_of_pos _ hwpos
  have hy0 : 0 ≤ (j : Int) / w := Int.ediv_nonneg (by omega) hw
  have hdecomp : (j : Int) / w * w + (j : Int) % w = j := by
    have := Int.ediv_add_emod (j : Int) w
    linarith [mul_comm w ((j : Int) / w)]
  have hy1 : (j : Int) / w < h := by
    by_contra hge
    have : h * w ≤ (j : Int) / w * w := mul_le_mul_of_nonneg_right (by omega) hw
    have e : h * w = w * h := by ring
    omega
  have hin : (Point.mk ((j : Int) % w) ((j : Int) / w)).In b.Rect := by
    rw [hR]; exact ⟨hx0, hx1, hy0, hy1⟩
  obtain ⟨img', hf', hat⟩ := RGB332_fillGeneric_At b w h hR hS hL _ _ hin c
  rw [hf] at hf'
  simp only [Option.some.injEq] at hf'
  subst hf'
  simp only [Image.At, RGB332.At, hR1, hin, not_true_eq_false, if_false, hS1, hS, hdecomp,
    index_natCast] at hat
  rcases hopt : b1.Pix[j]? with _ | v
  · rw [hopt] at hat; cases hat
  · rw [hopt] at hat
    simp only [Option.map_some', Option.some.injEq, pixelcolor.Color.rgb332.injEq] at hat
    rw [hat]

/-- C11: for a buffer created by `NewBitmap`, `NewRGB332`, `NewRGB565` or `NewRGB888`
with `w, h ≥ 0` (holding any bytes `pix` of the created length) and every colour `c`,
`Fill(b, c)` completes and a second `Fill(b, c)` returns the very same buffer: the same
`Pix` bytes as after the first call. -/
theorem Fill_idempotent (w h : Int) (hw : 0 ≤ w) (hh : 0 ≤ h) (c : pixelcolor.Color)
    (pix : List Nat) :
    (∀ b0, NewBitmap w h = some b0 → pix.length = b0.Pix.length →
      ∃ img, Fill (.bitmap { b0 with Pix := pix }) c = some img ∧ Fill img c = some img) ∧
    (∀ b0, NewRGB332 w h = some b0 → pix.length = b0.Pix.length →
      ∃ img, Fill (.rgb332 { b0 with Pix := pix }) c = some img ∧ Fill img c = some img) ∧
    (∀ b0, NewRGB565 w h = some b0 → pix.length = b0.Pix.length →
      ∃ img, Fill (.rgb565 { b0 with Pix := pix }) c = some img ∧ Fill img c = some img) ∧
    (∀ b0, NewRGB888 w h = some b0 → pix.length = b0.Pix.length →
      ∃ img, Fill (.rgb888 { b0 with Pix := pix }) c = some img ∧ Fill img c = some img) := by
  have hwh : 0 ≤ w * h := mul_nonneg hw hh
  refine ⟨?_, ?_, ?_, ?_⟩
  · intro b0 _ _
    obtain ⟨x, hx⟩ : ∃ x, x = (if pixelcolor.ToBit c then 0xff else 0x00) := ⟨_, rfl⟩
    have hfill : ∀ q : List Nat, Fill (.bitmap { b0 with Pix := q }) c
        = (memset q x).map fun p => .bitmap { b0 with Pix := p } := by
      intro q
      simp only [Fill, hx]
      split_ifs <;> rfl
    obtain ⟨p1, hp1, hl1, hc1⟩ := memset_const pix x
    obtain ⟨p2, hp2, hl2, hc2⟩ := memset_const p1 x
    have : p2 = p1 := list_eq_of_getElem? _ _ hl2 (fun j hj => by
      rw [hc2 j (by omega), hc1 j (by omega)])
    subst this
    exact ⟨.bitmap { b0 with Pix := p2 }, by rw [hfill, hp1]; rfl, by rw [hfill, hp2]; rfl⟩
  · intro b0 hb0 hlen
    simp only [NewRGB332, make, hwh, if_true, Option.map_some', Option.some.injEq] at hb0
    subst hb0
    simp only [List.length_replicate] at hlen
    obtain ⟨p1, hp1, hl1, hc1⟩ := RGB332_fillGeneric_all ⟨⟨⟨0, 0⟩, ⟨w, h⟩⟩, pix, w⟩ w h hw rfl rfl
      (by simp only; omega) c
    obtain ⟨p2, hp2, hl2, hc2⟩ := RGB332_fillGeneric_all ⟨⟨⟨0, 0⟩, ⟨w, h⟩⟩, p1, w⟩ w h hw rfl rfl
      (by simp only at hl1 ⊢; omega) c
    simp only at hl1 hl2 hc1 hc2 hp1 hp2
    have : p2 = p1 := list_eq_of_getElem? _ _ hl2 (fun j hj => by
      rw [hc2 j (by omega), hc1 j (by omega)])
    subst this
    exact ⟨_, hp1, hp2⟩
  · intro b0 _ _
    obtain ⟨v, hv⟩ : ∃ v, v = [(pixelcolor.ToRGB565 c >>> 8) % 2 ^ 8,
      pixelcolor.ToRGB565 c % 2 ^ 8] := ⟨_, rfl⟩
    have hfill : ∀ q : List Nat, Fill (.rgb565 { b0 with Pix := q }) c
        = (memsetSlice q v).map fun p => .rgb565 { b0 with Pix := p } := by
      intro q; rw [hv]; rfl
    have hvne : v ≠ [] := by rw [hv]; simp
    obtain ⟨p1, hp1, hl1, hc1⟩ := memsetSlice_periodic pix v hvne
    obtain ⟨p2, hp2, hl2, hc2⟩ := memsetSlice_periodic p1 v hvne
    have : p2 = p1 := list_eq_of_getElem? _ _ hl2 (fun j hj => by
      rw [hc2 j (by omega), hc1 j (by omega)])
    subst this
    exact ⟨.rgb565 { b0 with Pix := p2 }, by rw [hfill, hp1]; rfl, by rw [hfill, hp2]; rfl⟩
  · intro b0 _ _
    obtain ⟨v, hv⟩ : ∃ v, v = [(pixelcolor.ToRGB888 c).R, (pixelcolor.ToRGB888 c).G,
      (pixelcolor.ToRGB888 c).B] := ⟨_, rfl⟩
    have hfill : ∀ q : List Nat, Fill (.rgb888 { b0 with Pix := q }) c
        = (memsetSlice q v).map fun p => .rgb888 { b0 with Pix := p } := by
      intro q; rw [hv]; rfl
    have hvne : v ≠ [] := by rw [hv]; simp
    obtain ⟨p1, hp1, hl1, hc1⟩ := memsetSlice_periodic pix v hvne
    obtain ⟨p2, hp2, hl2, hc2⟩ := memsetSlice_periodic p1 v hvne
    have : p2 = p1 := list_eq_of_getElem? _ _ hl2 (fun j hj => by
      rw [hc2 j (by omega), hc1 j (by omega)])
    subst this
    exact ⟨.rgb888 { b0 with Pix := p2 }, by rw [hfill, hp1]; rfl, by rw [hfill, hp2]; rfl⟩

theorem Fill_idempotent_witness :
    ∃ img, Fill (.rgb565 ⟨⟨⟨0, 0⟩, ⟨2, 2⟩⟩, [1, 2, 3, 4, 5, 6, 7, 8], 2 * 2⟩) (.gray16 0x1234)
        = some img ∧ Fill img (.gray16 0x1234) = some img :=
  (Fill_idempotent 2 2 (by decide) (by decide) (.gray16 0x1234) [1, 2, 3, 4, 5, 6, 7, 8]).2.2.1
    ⟨⟨⟨0, 0⟩, ⟨2, 2⟩⟩, List.replicate 8 0, 2 * 2⟩ rfl rfl

/-! ## Line -/

/-- Invariant of the first loop of `Line` in exact arithmetic (`lineLoopXExact`): with
`n` steps to go on the x axis and the
doubled error term in `[0, 2*dx)`, the loop ends after `n` iterations with `n + 1` points,
from `(x, y)` to `(tx, y + sy*s)`, where the number `s` of y steps keeps the final error
term in `[0, 2*dx)`; consecutive points differ by one in x and by at most one in y. -/
theorem lineLoopX_spec (tx sx sy dx dy : Int) (hsx : sx = 1 ∨ sx = -1)
    (hsy : sy = 1 ∨ sy = -1) (hdy : 0 ≤ dy) (hlt : dy < dx) :
    ∀ (n : Nat) (x y e : Int), tx = x + sx * n → 0 ≤ e → e < 2 * dx →
      ∃ pts s, lineLoopXExact tx sx sy dx dy n x y e = some pts ∧ pts.length = n + 1 ∧
        pts.head? = some ⟨x, y⟩ ∧ pts.getLast? = some ⟨tx, y + sy * s⟩ ∧
        0 ≤ e - 2 * (n * dy) + 2 * (dx * s) ∧ e - 2 * (n * dy) + 2 * (dx * s) < 2 * dx ∧
        pts.Chain' (fun a b => (b.X - a.X = 1 ∨ b.X - a.X = -1) ∧
          (b.Y - a.Y = 0 ∨ b.Y - a.Y = 1 ∨ b.Y - a.Y = -1)) := by
  intro n
  induction n with
  | zero =>
    intro x y e htx he0 he1
    have : x = tx := by rw [htx]; simp
    refine ⟨[⟨x, y⟩], 0, by simp [lineLoopXExact, this], rfl, rfl, by simp [this], ?_, ?_, ?_⟩
    · simp; exact he0
    · simp; exact he1
    · simp
  | succ n ih =>
    intro x y e htx he0 he1
    have hne : x ≠ tx := by
      rw [htx]
      rcases hsx with h | h <;> rw [h] <;> push_cast <;> omega
    have htx' : tx = (x + sx) + sx * n := by rw [htx]; push_cast; ring
    by_cases hneg : e - 2 * dy < 0
    · obtain ⟨pts, s, hp, hl, hh, hlast, hb0, hb1, hch⟩ :=
        ih (x + sx) (y + sy) (e - 2 * dy + 2 * dx) htx' (by omega) (by omega)
      obtain ⟨q, rest, rfl⟩ : ∃ q rest, pts = q :: rest := by
        cases pts with
        | nil => simp at hl
        | cons q rest => exact ⟨q, rest, rfl⟩
      simp only [List.head?_cons, Option.some.injEq] at hh
      subst hh
      refine ⟨(⟨x, y⟩ : Point) :: ⟨x + sx, y + sy⟩ :: rest, s + 1, ?_, by simpa using hl, rfl,
        ?_, ?_, ?_, ?_⟩
      · simp only [lineLoopXExact, hne, if_false, hneg, if_true, hp, Option.map_some']
      · rw [List.getLast?_cons_cons, hlast]
        simp only [Option.some.injEq, Point.mk.injEq, true_and]
        ring
      · have : e - 2 * (((n + 1 : Nat) : Int) * dy) + 2 * (dx * (s + 1))
            = e - 2 * dy + 2 * dx - 2 * (n * dy) + 2 * (dx * s) := by push_cast; ring
        rw [this]; exact hb0
      · have : e - 2 * (((n + 1 : Nat) : Int) * dy) + 2 * (dx * (s + 1))
            = e - 2 * dy + 2 * dx - 2 * (n * dy) + 2 * (dx * s) := by push_cast; ring
        rw [this]; exact hb1
      · refine List.Chain'.cons ?_ hch
        simp only
        constructor
        · rcases hsx with h | h <;> rw [h] <;> omega
        · rcases hsy with h | h <;> rw [h] <;> omega
    · obtain ⟨pts, s, hp, hl, hh, hlast, hb0, hb1, hch⟩ :=
        ih (x + sx) y (e - 2 * dy) htx' (by omega) (by omega)
      obtain ⟨q, rest, rfl⟩ : ∃ q rest, pts = q :: rest := by
        cases pts with
        | nil => simp at hl
        | cons q rest => exact ⟨q, rest, rfl⟩
      simp only [List.head?_cons, Option.some.injEq] at hh
      subst hh
      refine ⟨(⟨x, y⟩ : Point) :: ⟨x + sx, y⟩ :: rest, s, ?_, by simpa using hl, rfl,
        ?_, ?_, ?_, ?_⟩
      · simp only [lineLoopXExact, hne, if_false, hneg, hp, Option.map_some']
      · rw [List.getLast?_cons_cons, hlast]
      · have : e - 2 * (((n + 1 : Nat) : Int) * dy) + 2 * (dx * s)
            = e - 2 * dy - 2 * (n * dy) + 2 * (dx * s) := by push_cast; ring
        rw [this]; exact hb0
      · have : e - 2 * (((n + 1 : Nat) : Int) * dy) + 2 * (dx * s)
            = e - 2 * dy - 2 * (n * dy) + 2 * (dx * s) := by push_cast; ring
        rw [this]; exact hb1
      · refine List.Chain'.cons ?_ hch
        simp only
        constructor
        · rcases hsx with h | h <;> rw [h] <;> omega
        · omega

theorem lineLoopY_spec (ty sx sy dx dy : Int) (hsx : sx = 1 ∨ sx = -1)
    (hsy : sy = 1 ∨ sy = -1) (hdx : 0 ≤ dx) (hle : dx ≤ dy) :
    ∀ (n : Nat) (x y e : Int), ty = y + sy * n → 0 ≤ e → e < 2 * dy →
      ∃ pts s, lineLoopYExact ty sx sy dx dy n x y e = some pts ∧ pts.length = n + 1 ∧
        pts.head? = some ⟨x, y⟩ ∧ pts.getLast? = some ⟨x + sx * s, ty⟩ ∧
        0 ≤ e - 2 * (n * dx) + 2 * (dy * s) ∧ e - 2 * (n * dx) + 2 * (dy * s) < 2 * dy ∧
        pts.Chain' (fun a b => (b.Y - a.Y = 1 ∨ b.Y - a.Y = -1) ∧
          (b.X - a.X = 0 ∨ b.X - a.X = 1 ∨ b.X - a.X = -1)) := by
  intro n
  induction n with
  | zero =>
    intro x y e hty he0 he1
    have : y = ty := by rw [hty]; simp
    refine ⟨[⟨x, y⟩], 0, by simp [lineLoopYExact, this], rfl, rfl, by simp [this], ?_, ?_, ?_⟩
    · simp; exact he0
    · simp; exact he1
    · simp
  | succ n ih =>
    intro x y e hty he0 he1
    have hne : y ≠ ty := by
      rw [hty]
      rcases hsy with h | h <;> rw [h] <;> push_cast <;> omega
    have hty' : ty = (y + sy) + sy * n := by rw [hty]; push_cast; ring
    by_cases hneg : e - 2 * dx < 0
    · obtain ⟨pts, s, hp, hl, hh, hlast, hb0, hb1, hch⟩ :=
        ih (x + sx) (y + sy) (e - 2 * dx + 2 * dy) hty' (by omega) (by omega)
      obtain ⟨q, rest, rfl⟩ : ∃ q rest, pts = q :: rest := by
        cases pts with
        | nil => simp at hl
        | cons q rest => exact ⟨q, rest, rfl⟩
      simp only [List.head?_cons, Option.some.injEq] at hh
      subst hh
      refine ⟨(⟨x, y⟩ : Point) :: ⟨x + sx, y + sy⟩ :: rest, s + 1, ?_, by simpa using hl, rfl,
        ?_, ?_, ?_, ?_⟩
      · simp only [lineLoopYExact, hne, if_false, hneg, if_true, hp, Option.map_some']
      · rw [List.getLast?_cons_cons, hlast]
        simp only [Option.some.injEq, Point.mk.injEq, and_true]
        ring
      · have : e - 2 * (((n + 1 : Nat) : Int) * dx) + 2 * (dy * (s + 1))
            = e - 2 * dx + 2 * dy - 2 * (n * dx) + 2 * (dy * s) := by push_cast; ring
        rw [this]; exact hb0
      · have : e - 2 * (((n + 1 : Nat) : Int) * dx) + 2 * (dy * (s + 1))
            = e - 2 * dx + 2 * dy - 2 * (n * dx) + 2 * (dy * s) := by push_cast; ring
        rw [this]; exact hb1
      · refine List.Chain'.cons ?_ hch
        simp only
        constructor
        · rcases hsy with h | h <;> rw [h] <;> omega
        · rcases hsx with h | h <;> rw [h] <;> omega
    · obtain ⟨pts, s, hp, hl, hh, hlast, hb0, hb1, hch⟩ :=
        ih x (y + sy) (e - 2 * dx) hty' (by omega) (by omega)
      obtain ⟨q, rest, rfl⟩ : ∃ q rest, pts = q :: rest := by
        cases pts with
        | nil => simp at hl
        | cons q rest => exact ⟨q, rest, rfl⟩
      simp only [List.head?_cons, Option.some.injEq] at hh
      subst hh
      refine ⟨(⟨x, y⟩ : Point) :: ⟨x, y + sy⟩ :: rest, s, ?_, by simpa using hl, rfl,
        ?_, ?_, ?_, ?_⟩
      · simp only [lineLoopYExact, hne, if_false, hneg, hp, Option.map_some']
      · rw [List.getLast?_cons_cons, hlast]
      · have : e - 2 * (((n + 1 : Nat) : Int) * dx) + 2 * (dy * s)
            = e - 2 * dx - 2 * (n * dx) + 2 * (dy * s) := by push_cast; ring
        rw [this]; exact hb0
      · have : e - 2 * (((n + 1 : Nat) : Int) * dx) + 2 * (dy * s)
            = e - 2 * dx - 2 * (n * dx) + 2 * (dy * s) := by push_cast; ring
        rw [this]; exact hb1
      · refine List.Chain'.cons ?_ hch
        simp only
        constructor
        · rcases hsy with h | h <;> rw [h] <;> omega
        · omega

/-- The number of minor-axis steps is forced by the bounds on the final error term. -/
theorem minor_steps_eq (d m s : Int) (hd : 0 < d)
    (h0 : 0 ≤ d - 2 * (d * m) + 2 * (d * s)) (h1 : d - 2 * (d * m) + 2 * (d * s) < 2 * d) :
    s = m := by
  have e : d - 2 * (d * m) + 2 * (d * s) = d * (2 * (s - m) + 1) := by ring
  rw [e] at h0 h1
  have ht0 : 0 ≤ 2 * (s - m) + 1 := by
    by_contra hneg
    have : d * (2 * (s - m) + 1) ≤ d * (-1) := mul_le_mul_of_nonneg_left (by omega) hd.le
    omega
  have ht1 : 2 * (s - m) + 1 < 2 := by
    by_contra hge
    have : d * 2 ≤ d * (2 * (s - m) + 1) := mul_le_mul_of_nonneg_left (by omega) hd.le
    omega
  omega

theorem abs_sign (a b : Int) :
    0 ≤ abs (b - a) ∧ (if a ≤ b then (1 : Int) else -1) * abs (b - a) = b - a := by
  unfold abs
  split_ifs <;> constructor <;> omega

/-! ## Line: the machine arithmetic is exact on small points -/

/-- An `int` value is its own wrap-around. -/
theorem wrapInt_exact (v : Int) (h0 : -(2 ^ 63) ≤ v) (h1 : v < 2 ^ 63) : wrapInt v = v := by
  unfold wrapInt
  omega

theorem excessBits_small (fuel n : Nat) (h : n < 2 ^ 53) : excessBits fuel n = 0 := by
  cases fuel with
  | zero => rfl
  | succ f => simp only [excessBits, h, if_true]

/-- Integers of magnitude at most `2^53` are `float64` values. -/
theorem roundFloat_exact (v : Int) (h : v.natAbs ≤ 2 ^ 53) : roundFloat v = v := by
  by_cases hlt : v.natAbs < 2 ^ 53
  · unfold roundFloat
    simp only [excessBits_small _ _ hlt, pow_zero, Nat.div_one, Nat.mod_one, mul_zero,
      mul_one]
    have hf : ¬ ((0 : Nat) > 1 ∨ ((0 : Nat) = 1 ∧ v.natAbs % 2 = 1)) := by omega
    rw [if_neg hf]
    split_ifs <;> omega
  · have he : v.natAbs = 2 ^ 53 := by omega
    rcases Int.natAbs_eq v with hv | hv
    · rw [hv, he]; decide
    · rw [hv, he]; decide

/-- Rounding keeps the sign of a non-negative value. -/
theorem roundFloat_nonneg (v : Int) (h : 0 ≤ v) : 0 ≤ roundFloat v := by
  unfold roundFloat
  simp only
  rw [if_neg (by omega)]
  exact Int.ofNat_nonneg _

/-- On small data the first loop of `Line` is the loop with exact arithmetic. -/
theorem lineLoopX_eq_exact (tx sx sy dx dy : Int) (hsx : sx = 1 ∨ sx = -1)
    (hsy : sy = 1 ∨ sy = -1) (hdy : 0 ≤ dy) (hdyx : dy ≤ dx) (hdx : dx ≤ 2 ^ 52) :
    ∀ (n : Nat) (x y e : Int), -(2 ^ 62) ≤ x - n → x + n ≤ 2 ^ 62 → -(2 ^ 62) ≤ y - n →
      y + n ≤ 2 ^ 62 → 0 ≤ e → e ≤ 2 * dx →
      lineLoopX tx sx sy dx dy n x y e = lineLoopXExact tx sx sy dx dy n x y e := by
  have rdx : roundFloat dx = dx := roundFloat_exact dx (by omega)
  have rdy : roundFloat dy = dy := roundFloat_exact dy (by omega)
  intro n
  induction n with
  | zero =>
    intro x y e _ _ _ _ _ _
    rfl
  | succ n ih =>
    intro x y e hx0 hx1 hy0 hy1 he0 he1
    push_cast at hx0 hx1 hy0 hy1
    have r1 : roundFloat (e - 2 * dy) = e - 2 * dy := roundFloat_exact _ (by omega)
    have wx : wrapInt (x + sx) = x + sx := wrapInt_exact _ (by omega) (by omega)
    simp only [lineLoopX, lineLoopXExact, rdx, rdy, r1, wx]
    by_cases hxt : x = tx
    · simp only [hxt, if_true]
    · simp only [hxt, if_false]
      by_cases hneg : e - 2 * dy < 0
      · have r2 : roundFloat (e - 2 * dy + 2 * dx) = e - 2 * dy + 2 * dx :=
          roundFloat_exact _ (by omega)
        have wy : wrapInt (y + sy) = y + sy := wrapInt_exact _ (by omega) (by omega)
        simp only [hneg, if_true, r2, wy]
        rw [ih (x + sx) (y + sy) _ (by omega) (by omega) (by omega) (by omega) (by omega)
          (by omega)]
      · simp only [hneg, if_false]
        rw [ih (x + sx) y _ (by omega) (by omega) (by omega) (by omega) (by omega) (by omega)]

/-- On small data the second loop of `Line` is the loop with exact arithmetic. -/
theorem lineLoopY_eq_exact (ty sx sy dx dy : Int) (hsx : sx = 1 ∨ sx = -1)
    (hsy : sy = 1 ∨ sy = -1) (hdx : 0 ≤ dx) (hdxy : dx ≤ dy) (hdy : dy ≤ 2 ^ 52) :
    ∀ (n : Nat) (x y e : Int), -(2 ^ 62) ≤ x - n → x + n ≤ 2 ^ 62 → -(2 ^ 62) ≤ y - n →
      y + n ≤ 2 ^ 62 → 0 ≤ e → e ≤ 2 * dy →
      lineLoopY ty sx sy dx dy n x y e = lineLoopYExact ty sx sy dx dy n x y e := by
  have rdx : roundFloat dx = dx := roundFloat_exact dx (by omega)
  have rdy : roundFloat dy = dy := roundFloat_exact dy (by omega)
  intro n
  induction n with
  | zero =>
    intro x y e _ _ _ _ _ _
    rfl
  | succ n ih =>
    intro x y e hx0 hx1 hy0 hy1 he0 he1
    push_cast at hx0 hx1 hy0 hy1
    have r1 : roundFloat (e - 2 * dx) = e - 2 * dx := roundFloat_exact _ (by omega)
    have wy : wrapInt (y + sy) = y + sy := wrapInt_exact _ (by omega) (by omega)
    simp only [lineLoopY, lineLoopYExact, rdx, rdy, r1, wy]
    by_cases hyt : y = ty
    · simp only [hyt, if_true]
    · simp only [hyt, if_false]
      by_cases hneg : e - 2 * dx < 0
      · have r2 : roundFloat (e - 2 * dx + 2 * dy) = e - 2 * dx + 2 * dy :=
          roundFloat_exact _ (by omega)
        have wx : wrapInt (x + sx) = x + sx := wrapInt_exact _ (by omega) (by omega)
        simp only [hneg, if_true, r2, wx]
        rw [ih (x + sx) (y + sy) _ (by omega) (by omega) (by omega) (by omega) (by omega)
          (by omega)]
      · simp only [hneg, if_false]
        rw [ih x (y + sy) _ (by omega) (by omega) (by omega) (by omega) (by omega) (by omega)]

/-- Coordinates of a small point, as inequalities. -/
theorem small_bounds (p : Point) (h : p.small) :
    (-(2 ^ 51) ≤ p.X ∧ p.X ≤ 2 ^ 51) ∧ (-(2 ^ 51) ≤ p.Y ∧ p.Y ≤ 2 ^ 51) := by
  obtain ⟨h1, h2⟩ := h
  omega

/-- The distance between two small coordinates. -/
theorem small_dist (a b : Int) (ha : -(2 ^ 51) ≤ a ∧ a ≤ 2 ^ 51)
    (hb : -(2 ^ 51) ≤ b ∧ b ≤ 2 ^ 51) :
    abs (b - a) ≤ 2 ^ 52 ∧ wrapInt (b - a) = b - a ∧ wrapInt (abs (b - a)) = abs (b - a) ∧
      roundFloat (abs (b - a)) = abs (b - a) := by
  have h1 : 0 ≤ abs (b - a) ∧ abs (b - a) ≤ 2 ^ 52 := by unfold abs; split_ifs <;> omega
  exact ⟨h1.2, wrapInt_exact _ (by omega) (by omega), wrapInt_exact _ (by omega) (by omega),
    roundFloat_exact _ (by omega)⟩

/-- A small coordinate stays far inside the `int` range for `d ≤ 2^52` steps. -/
theorem small_steps (x d : Int) (hx : -(2 ^ 51) ≤ x ∧ x ≤ 2 ^ 51) (hd0 : 0 ≤ d)
    (hd : d ≤ 2 ^ 52) : -(2 ^ 62) ≤ x - (d.toNat : Int) ∧ x + (d.toNat : Int) ≤ 2 ^ 62 := by
  rw [Int.toNat_of_nonneg hd0]
  omega

/-- For small points `Line` passes to `Set` the points of the exact algorithm. -/
theorem linePoints_eq_exact (p0 p1 : Point) (h0 : p0.small) (h1 : p1.small) :
    linePoints p0 p1 = linePointsExact p0 p1 := by
  obtain ⟨hx0, hy0⟩ := small_bounds p0 h0
  obtain ⟨hx1, hy1⟩ := small_bounds p1 h1
  obtain ⟨hbx, wx, wdx, rdx⟩ := small_dist p0.X p1.X hx0 hx1
  obtain ⟨hby, wy, wdy, rdy⟩ := small_dist p0.Y p1.Y hy0 hy1
  have hdx0 := (abs_sign p0.X p1.X).1
  have hdy0 := (abs_sign p0.Y p1.Y).1
  have hsx : (if p0.X ≤ p1.X then (1 : Int) else -1) = 1 ∨
      (if p0.X ≤ p1.X then (1 : Int) else -1) = -1 := by
    split_ifs <;> simp
  have hsy : (if p0.Y ≤ p1.Y then (1 : Int) else -1) = 1 ∨
      (if p0.Y ≤ p1.Y then (1 : Int) else -1) = -1 := by
    split_ifs <;> simp
  simp only [linePoints, linePointsExact, wx, wy, wdx, wdy, rdx, rdy]
  by_cases hmaj : abs (p1.X - p0.X) > abs (p1.Y - p0.Y)
  · rw [if_pos hmaj, if_pos hmaj]
    exact lineLoopX_eq_exact p1.X _ _ _ _ hsx hsy hdy0 (le_of_lt hmaj) hbx _ p0.X p0.Y _
      (small_steps p0.X _ hx0 hdx0 hbx).1 (small_steps p0.X _ hx0 hdx0 hbx).2
      (small_steps p0.Y _ hy0 hdx0 hbx).1 (small_steps p0.Y _ hy0 hdx0 hbx).2
      hdx0 (le_mul_of_one_le_left hdx0 (by decide))
  · rw [if_neg hmaj, if_neg hmaj]
    exact lineLoopY_eq_exact p1.Y _ _ _ _ hsx hsy hdx0 (not_lt.mp hmaj) hby _ p0.X p0.Y _
      (small_steps p0.X _ hx0 hdy0 hby).1 (small_steps p0.X _ hx0 hdy0 hby).2
      (small_steps p0.Y _ hy0 hdy0 hby).1 (small_steps p0.Y _ hy0 hdy0 hby).2
      hdy0 (le_mul_of_one_le_left hdy0 (by decide))

/-- With `dy = 0` the error term never goes negative, whatever its rounding: the first
loop of `Line` on `int` values is the loop with exact arithmetic. -/
theorem lineLoopX_flat_eq_exact (tx sx sy dx dx' y : Int) (hsx : sx = 1 ∨ sx = -1)
    (ht0 : -(2 ^ 63) ≤ tx) (ht1 : tx < 2 ^ 63) :
    ∀ (n : Nat) (x e e' : Int), tx = x + sx * n → -(2 ^ 63) ≤ x → x < 2 ^ 63 → 0 ≤ e →
      0 ≤ e' →
      lineLoopX tx sx sy dx 0 n x y e = lineLoopXExact tx sx sy dx' 0 n x y e' := by
  have r0 : roundFloat 0 = 0 := by decide
  intro n
  induction n with
  | zero =>
    intro x e e' _ _ _ _ _
    rfl
  | succ n ih =>
    intro x e e' htx hx0 hx1 he he'
    push_cast at htx
    have hn0 : (0 : Int) ≤ (n : Int) := Int.ofNat_nonneg n
    have hne : x ≠ tx := by
      rcases hsx with h | h <;> rw [h] at htx <;> omega
    have wx : wrapInt (x + sx) = x + sx :=
      wrapInt_exact _ (by rcases hsx with h | h <;> rw [h] at htx ⊢ <;> omega)
        (by rcases hsx with h | h <;> rw [h] at htx ⊢ <;> omega)
    have h1 : 0 ≤ roundFloat (e - 2 * 0) := roundFloat_nonneg _ (by omega)
    have hneg : ¬ roundFloat (e - 2 * 0) < 0 := by omega
    have hneg' : ¬ e' - 2 * 0 < 0 := by omega
    simp only [lineLoopX, lineLoopXExact, r0, hne, if_false, hneg, hneg', wx]
    rw [ih (x + sx) _ (e' - 2 * 0) (by rw [htx]; ring)
      (by rcases hsx with h | h <;> rw [h] at htx ⊢ <;> omega)
      (by rcases hsx with h | h <;> rw [h] at htx ⊢ <;> omega) h1 (by omega)]

/-- For a horizontal line whose `x1 - x0` does not overflow, `Line` passes to `Set` the
points of the exact algorithm. -/
theorem linePoints_flat_eq_exact (x0 x1 y : Int) (hx0 : -(2 ^ 63) ≤ x0 ∧ x0 < 2 ^ 63)
    (hx1 : -(2 ^ 63) ≤ x1 ∧ x1 < 2 ^ 63) (hd : abs (x1 - x0) < 2 ^ 63) :
    linePoints ⟨x0, y⟩ ⟨x1, y⟩ = linePointsExact ⟨x0, y⟩ ⟨x1, y⟩ := by
  obtain ⟨hdx0, hsdx⟩ := abs_sign x0 x1
  have hsx : (if x0 ≤ x1 then (1 : Int) else -1) = 1 ∨ (if x0 ≤ x1 then (1 : Int) else -1) = -1 := by
    split_ifs <;> simp
  have wx : wrapInt (x1 - x0) = x1 - x0 :=
    wrapInt_exact _ (by unfold abs at hd; split_ifs at hd <;> omega)
      (by unfold abs at hd; split_ifs at hd <;> omega)
  have wdx : wrapInt (abs (x1 - x0)) = abs (x1 - x0) := wrapInt_exact _ (by omega) hd
  have hy : wrapInt (abs (wrapInt (y - y))) = 0 := by
    rw [sub_self]; decide
  have hy' : abs (y - y) = 0 := by rw [sub_self]; decide
  simp only [linePoints, linePointsExact, wx, wdx, hy, hy']
  generalize abs (x1 - x0) = dx at *
  generalize (if x0 ≤ x1 then (1 : Int) else -1) = sx at *
  by_cases hpos : dx > 0
  · rw [if_pos hpos, if_pos hpos]
    have hn : ((dx.toNat : Nat) : Int) = dx := Int.toNat_of_nonneg hdx0
    exact lineLoopX_flat_eq_exact x1 sx _ dx dx y hsx hx1.1 hx1.2 dx.toNat x0 _ dx
      (by rw [hn]; omega) hx0.1 hx0.2 (roundFloat_nonneg _ hdx0) hdx0
  · rw [if_neg hpos, if_neg hpos]
    rfl

/-! ## Line beyond the exact range -/

/-- From (0,0) toward (2^53+1, 2^53) the conversion `float64(dx)` rounds `2^53+1` to
`2^53`: the doubled error term is `2^53` at the head of every iteration and `-2^53` after
the subtraction, so `y` advances with every step of `x`. -/
theorem lineLoopX_drift :
    ∀ (n : Nat) (x y : Int), 0 ≤ x → 0 ≤ y → x + n = 2 ^ 53 + 1 → y + n ≤ 2 ^ 54 →
      ∃ pts, lineLoopX (2 ^ 53 + 1) 1 1 (2 ^ 53 + 1) (2 ^ 53) n x y (2 ^ 53) = some pts ∧
        pts.length = n + 1 ∧ ∀ i : Nat, i ≤ n → pts[i]? = some ⟨x + i, y + i⟩ := by
  have c1 : roundFloat (2 ^ 53 - 2 * roundFloat (2 ^ 53)) = -(2 ^ 53) := by decide
  have c2 : roundFloat (-(2 ^ 53) + 2 * roundFloat (2 ^ 53 + 1)) = 2 ^ 53 := by decide
  have c3 : (-(2 ^ 53) : Int) < 0 := by decide
  intro n
  induction n with
  | zero =>
    intro x y _ _ hx _
    have hxt : x = 2 ^ 53 + 1 := by simpa using hx
    refine ⟨[⟨x, y⟩], by simp only [lineLoopX, hxt, if_true], rfl, ?_⟩
    intro i hi
    have hi0 : i = 0 := by omega
    subst hi0
    simp
  | succ n ih =>
    intro x y hx0 hy0 hx hy
    push_cast at hx hy
    have hn0 : (0 : Int) ≤ (n : Int) := Int.ofNat_nonneg n
    have hne : x ≠ 2 ^ 53 + 1 := by omega
    have wx : wrapInt (x + 1) = x + 1 := wrapInt_exact _ (by omega) (by omega)
    have wy : wrapInt (y + 1) = y + 1 := wrapInt_exact _ (by omega) (by omega)
    obtain ⟨pts, hp, hl, hidx⟩ := ih (x + 1) (y + 1) (by omega) (by omega) (by omega) (by omega)
    refine ⟨⟨x, y⟩ :: pts, ?_, by simp only [List.length_cons, hl], ?_⟩
    · simp only [lineLoopX, hne, if_false, c1, c2, c3, if_true, wx, wy, hp, Option.map_some']
    · intro i hi
      rcases Nat.eq_zero_or_pos i with h0 | hpos
      · subst h0
        simp
      · obtain ⟨j, rfl⟩ : ∃ j, i = j + 1 := ⟨i - 1, by omega⟩
        rw [List.getElem?_cons_succ, hidx j (by omega)]
        push_cast
        congr 2 <;> ring

/-- The points `Line` passes to `Set` from (0,0) to (2^53+1, 2^53) lie on the diagonal. -/
theorem linePoints_drift :
    ∃ pts, linePoints ⟨0, 0⟩ ⟨2 ^ 53 + 1, 2 ^ 53⟩ = some pts ∧ pts.length = 2 ^ 53 + 2 ∧
      ∀ i : Nat, i ≤ 2 ^ 53 + 1 → pts[i]? = some ⟨i, i⟩ := by
  have hline : linePoints ⟨0, 0⟩ ⟨2 ^ 53 + 1, 2 ^ 53⟩ =
      lineLoopX (2 ^ 53 + 1) 1 1 (2 ^ 53 + 1) (2 ^ 53) (2 ^ 53 + 1) 0 0 (2 ^ 53) := by
    have e1 : wrapInt (abs (wrapInt (2 ^ 53 + 1 - 0))) = 2 ^ 53 + 1 := by decide
    have e2 : wrapInt (abs (wrapInt (2 ^ 53 - 0))) = 2 ^ 53 := by decide
    have e3 : (abs (2 ^ 53 + 1 - 0)).toNat = 2 ^ 53 + 1 := by decide
    have e4 : roundFloat (2 ^ 53 + 1) = 2 ^ 53 := by decide
    have e5 : (2 ^ 53 + 1 : Int) > 2 ^ 53 := by decide
    have e6 : (0 : Int) ≤ 2 ^ 53 + 1 := by decide
    have e7 : (0 : Int) ≤ 2 ^ 53 := by decide
    simp only [linePoints, e1, e2, e3, e4, e5, e6, e7, if_true]
  obtain ⟨pts, hp, hl, hidx⟩ := lineLoopX_drift (2 ^ 53 + 1) 0 0 (by decide) (by decide)
    (by decide) (by decide)
  refine ⟨pts, hline.trans hp, hl, ?_⟩
  intro i hi
  rw [hidx i hi]
  simp

/-- C17, amended: for all points `p0`, `p1` with coordinates of magnitude at most `2^51`,
`Line` terminates and calls `Set` on a list of `max(|p1.X-p0.X|, |p1.Y-p0.Y|) + 1` points,
the first being `p0` and the last `p1`, each consecutive pair differing by exactly 1 on the
major axis and by at most 1 on the other. -/
theorem Line_calls (p0 p1 : Point) (h0 : p0.small) (h1 : p1.small) :
    ∃ pts, linePoints p0 p1 = some pts ∧
      (∀ b c, Line b p0 p1 c = setAll b pts c) ∧
      (pts.length : Int) = max (abs (p1.X - p0.X)) (abs (p1.Y - p0.Y)) + 1 ∧
      pts.head? = some p0 ∧ pts.getLast? = some p1 ∧
      pts.Chain' (fun a b =>
        if abs (p1.X - p0.X) > abs (p1.Y - p0.Y) then
          abs (b.X - a.X) = 1 ∧ abs (b.Y - a.Y) ≤ 1
        else abs (b.Y - a.Y) = 1 ∧ abs (b.X - a.X) ≤ 1) := by
  have hbr := linePoints_eq_exact p0 p1 h0 h1
  clear h0 h1
  obtain ⟨x0, y0⟩ := p0
  obtain ⟨x1, y1⟩ := p1
  obtain ⟨hdx0, hsdx⟩ := abs_sign x0 x1
  obtain ⟨hdy0, hsdy⟩ := abs_sign y0 y1
  have hsx : (if x0 ≤ x1 then (1 : Int) else -1) = 1 ∨ (if x0 ≤ x1 then (1 : Int) else -1) = -1 := by
    split_ifs <;> simp
  have hsy : (if y0 ≤ y1 then (1 : Int) else -1) = 1 ∨ (if y0 ≤ y1 then (1 : Int) else -1) = -1 := by
    split_ifs <;> simp
  simp only
  generalize hdxe : abs (x1 - x0) = dx at *
  generalize hdye : abs (y1 - y0) = dy at *
  generalize hsxe : (if x0 ≤ x1 then (1 : Int) else -1) = sx at *
  generalize hsye : (if y0 ≤ y1 then (1 : Int) else -1) = sy at *
  have hline : linePointsExact ⟨x0, y0⟩ ⟨x1, y1⟩ =
      if dx > dy then lineLoopXExact x1 sx sy dx dy dx.toNat x0 y0 dx
      else lineLoopYExact y1 sx sy dx dy dy.toNat x0 y0 dy := by
    simp only [linePointsExact, hdxe, hdye, hsxe, hsye]
  by_cases hmaj : dx > dy
  · have hn : ((dx.toNat : Nat) : Int) = dx := Int.toNat_of_nonneg hdx0
    obtain ⟨pts, s, hp, hl, hh, hlast, hb0, hb1, hch⟩ :=
      lineLoopX_spec x1 sx sy dx dy hsx hsy hdy0 hmaj dx.toNat x0 y0 dx
        (by rw [hn]; omega) (by omega) (by omega)
    rw [hn] at hb0 hb1
    have hs : s = dy := minor_steps_eq dx dy s (by omega) hb0 hb1
    subst hs
    have hpts : linePoints ⟨x0, y0⟩ ⟨x1, y1⟩ = some pts := by rw [hbr, hline, if_pos hmaj, hp]
    refine ⟨pts, hpts, ?_, ?_, hh, ?_, ?_⟩
    · intro b c
      simp only [Line, hpts, Option.some_bind]
    · rw [hl]; push_cast; rw [hn, max_eq_left (by omega)]
    · rw [hlast, hsdy]; simp
    · refine List.Chain'.imp ?_ hch
      intro a b hab
      rw [if_pos hmaj]
      unfold abs
      split_ifs <;> omega
  · have hle : dx ≤ dy := by omega
    have hn : ((dy.toNat : Nat) : Int) = dy := Int.toNat_of_nonneg hdy0
    by_cases hzero : dy = 0
    · have hdx : dx = 0 := by omega
      have hxe : x1 = x0 := by rw [hdx] at hsdx; omega
      have hye : y1 = y0 := by rw [hzero] at hsdy; omega
      subst hxe hye
      have hpts : linePoints ⟨x1, y1⟩ ⟨x1, y1⟩ = some [⟨x1, y1⟩] := by
        rw [hbr, hline, if_neg hmaj, hzero]
        simp [lineLoopYExact]
      refine ⟨[⟨x1, y1⟩], hpts, ?_, ?_, rfl, rfl, by simp⟩
      · intro b c
        simp only [Line, hpts, Option.some_bind]
      · rw [hdx, hzero]; simp
    · obtain ⟨pts, s, hp, hl, hh, hlast, hb0, hb1, hch⟩ :=
        lineLoopY_spec y1 sx sy dx dy hsx hsy hdx0 hle dy.toNat x0 y0 dy
          (by rw [hn]; omega) (by omega) (by omega)
      rw [hn] at hb0 hb1
      have hs : s = dx := minor_steps_eq dy dx s (by omega) hb0 hb1
      subst hs
      have hpts : linePoints ⟨x0, y0⟩ ⟨x1, y1⟩ = some pts := by rw [hbr, hline, if_neg hmaj, hp]
      refine ⟨pts, hpts, ?_, ?_, hh, ?_, ?_⟩
      · intro b c
        simp only [Line, hpts, Option.some_bind]
      · rw [hl]; push_cast; rw [hn, max_eq_right hle]
      · rw [hlast, hsdx]; simp
      · refine List.Chain'.imp ?_ hch
        intro a b hab
        rw [if_neg hmaj]
        unfold abs
        split_ifs <;> omega

theorem Line_calls_witness :
    ∃ pts, linePoints ⟨0, 0⟩ ⟨4, 2⟩ = some pts ∧
      (pts.length : Int) = max (abs (4 - 0)) (abs (2 - 0)) + 1 ∧
      pts.head? = some ⟨0, 0⟩ ∧ pts.getLast? = some ⟨4, 2⟩ :=
  (Line_calls ⟨0, 0⟩ ⟨4, 2⟩ (by decide) (by decide)).imp
    fun _ hp => ⟨hp.1, hp.2.2.1, hp.2.2.2.1, hp.2.2.2.2.1⟩

/-- C17, as stated, fails outside the exact range.  From (-2^63, 0) to (0,0) the
difference wraps, `abs` returns `-2^63`, `dx > dy` is false and the loop on `y` does not
run: `Line` calls `Set` once, at `p0`, and never at `p1`.  From (0,0) to (2^53+1, 2^53)
the conversion `float64(dx)` rounds, `y` advances with every `x`, and the last call is at
(2^53+1, 2^53+1), not at `p1`. -/
theorem Line_calls_overflow :
    linePoints ⟨-(2 ^ 63), 0⟩ ⟨0, 0⟩ = some [⟨-(2 ^ 63), 0⟩] ∧
    (([⟨-(2 ^ 63), 0⟩] : List Point).length : Int) ≠
      max (abs (0 - -(2 ^ 63))) (abs (0 - 0)) + 1 ∧
    ([⟨-(2 ^ 63), 0⟩] : List Point).getLast? ≠ some ⟨0, 0⟩ ∧
    ∃ pts, linePoints ⟨0, 0⟩ ⟨2 ^ 53 + 1, 2 ^ 53⟩ = some pts ∧
      pts.getLast? = some ⟨2 ^ 53 + 1, 2 ^ 53 + 1⟩ ∧
      pts.getLast? ≠ some ⟨2 ^ 53 + 1, 2 ^ 53⟩ := by
  refine ⟨by decide, by decide, by decide, ?_⟩
  obtain ⟨pts, hp, hl, hidx⟩ := linePoints_drift
  have hlast : pts.getLast? = some ⟨2 ^ 53 + 1, 2 ^ 53 + 1⟩ := by
    rw [List.getLast?_eq_getElem?, hl, hidx _ (by omega)]
    rfl
  refine ⟨pts, hp, hlast, ?_⟩
  rw [hlast]
  decide

theorem lineLoopX_flat (tx sx sy dx y : Int) (hsx : sx = 1 ∨ sx = -1) :
    ∀ (n : Nat) (x e : Int), tx = x + sx * n → 0 ≤ e →
      ∃ pts, lineLoopXExact tx sx sy dx 0 n x y e = some pts ∧ pts.Nodup ∧
        ∀ q : Point, q ∈ pts ↔ q.Y = y ∧ ∃ i : Nat, i ≤ n ∧ q.X = x + sx * i := by
  intro n
  induction n with
  | zero =>
    intro x e htx he
    have hx : x = tx := by rw [htx]; simp
    refine ⟨[⟨x, y⟩], by simp [lineLoopXExact, hx], by simp, ?_⟩
    intro q
    obtain ⟨qx, qy⟩ := q
    simp only [List.mem_singleton, Point.mk.injEq]
    constructor
    · rintro ⟨rfl, rfl⟩
      exact ⟨rfl, 0, le_refl _, by simp⟩
    · rintro ⟨rfl, i, hi, hq⟩
      have : i = 0 := by omega
      subst this
      exact ⟨by simpa using hq, rfl⟩
  | succ n ih =>
    intro x e htx he
    have hne : x ≠ tx := by
      rw [htx]
      rcases hsx with h | h <;> rw [h] <;> push_cast <;> omega
    have htx' : tx = (x + sx) + sx * n := by rw [htx]; push_cast; ring
    obtain ⟨pts, hp, hnd, hmem⟩ := ih (x + sx) e htx' he
    have hneg : ¬ e - 2 * 0 < 0 := by omega
    refine ⟨⟨x, y⟩ :: pts, ?_, ?_, ?_⟩
    · simp only [lineLoopXExact, hne, if_false, hneg]
      rw [show e - 2 * 0 = e by ring, hp]
      rfl
    · refine List.nodup_cons.mpr ⟨?_, hnd⟩
      rw [hmem]
      rintro ⟨-, i, -, hq⟩
      simp only at hq
      have hi0 : (0 : Int) ≤ (i : Int) := Int.ofNat_nonneg i
      rcases hsx with h | h <;> rw [h] at hq <;> omega
    · intro q
      obtain ⟨qx, qy⟩ := q
      rw [List.mem_cons, hmem]
      simp only [Point.mk.injEq]
      constructor
      · rintro (⟨rfl, rfl⟩ | ⟨rfl, i, hi, hq⟩)
        · exact ⟨rfl, 0, by omega, by simp⟩
        · exact ⟨rfl, i + 1, by omega, by rw [hq]; push_cast; ring⟩
      · rintro ⟨rfl, i, hi, hq⟩
        rcases Nat.eq_zero_or_pos i with h0 | hpos
        · left
          subst h0
          exact ⟨by simpa using hq, rfl⟩
        · right
          refine ⟨rfl, i - 1, by omega, ?_⟩
          rw [hq]
          have : ((i - 1 : Nat) : Int) = (i : Int) - 1 := by omega
          rw [this]; ring

/-- C18, amended: for all `int` values `x0`, `x1` whose difference does not overflow
(`|x1 - x0| < 2^63`) and every `y`, the points `Line(b, (x0,y), (x1,y), c)` passes to `Set`
are exactly the pixels `(x, y)` with `min(x0,x1) ≤ x ≤ max(x0,x1)`, each one once. -/
theorem Line_horizontal (x0 x1 y : Int) (hx0 : -(2 ^ 63) ≤ x0 ∧ x0 < 2 ^ 63)
    (hx1 : -(2 ^ 63) ≤ x1 ∧ x1 < 2 ^ 63) (hd : abs (x1 - x0) < 2 ^ 63) :
    ∃ pts, linePoints ⟨x0, y⟩ ⟨x1, y⟩ = some pts ∧
      (∀ b c, Line b ⟨x0, y⟩ ⟨x1, y⟩ c = setAll b pts c) ∧
      pts.Nodup ∧
      ∀ q : Point, q ∈ pts ↔ q.Y = y ∧ min x0 x1 ≤ q.X ∧ q.X ≤ max x0 x1 := by
  have hbr := linePoints_flat_eq_exact x0 x1 y hx0 hx1 hd
  clear hx0 hx1 hd
  obtain ⟨hdx0, hsdx⟩ := abs_sign x0 x1
  have hsx : (if x0 ≤ x1 then (1 : Int) else -1) = 1 ∨ (if x0 ≤ x1 then (1 : Int) else -1) = -1 := by
    split_ifs <;> simp
  have hdy : abs (y - y) = 0 := by simp [abs]
  generalize hdxe : abs (x1 - x0) = dx at *
  generalize hsxe : (if x0 ≤ x1 then (1 : Int) else -1) = sx at *
  have hline : linePointsExact ⟨x0, y⟩ ⟨x1, y⟩ =
      if dx > 0 then lineLoopXExact x1 sx 1 dx 0 dx.toNat x0 y dx
      else lineLoopYExact y sx 1 dx 0 (0 : Int).toNat x0 y 0 := by
    simp only [linePointsExact, hdxe, hdy, hsxe, le_refl, if_true]
  have hn : ((dx.toNat : Nat) : Int) = dx := Int.toNat_of_nonneg hdx0
  have hkey : ∃ pts, linePointsExact ⟨x0, y⟩ ⟨x1, y⟩ = some pts ∧ pts.Nodup ∧
      ∀ q : Point, q ∈ pts ↔ q.Y = y ∧ ∃ i : Nat, (i : Int) ≤ dx ∧ q.X = x0 + sx * i := by
    by_cases hpos : dx > 0
    · obtain ⟨pts, hp, hnd, hmem⟩ := lineLoopX_flat x1 sx 1 dx y hsx dx.toNat x0 dx
        (by rw [hn]; omega) hdx0
      refine ⟨pts, by rw [hline, if_pos hpos, hp], hnd, ?_⟩
      intro q
      rw [hmem]
      constructor
      · rintro ⟨h1, i, hi, hq⟩
        exact ⟨h1, i, by omega, hq⟩
      · rintro ⟨h1, i, hi, hq⟩
        exact ⟨h1, i, by omega, hq⟩
    · have hz : dx = 0 := by omega
      refine ⟨[⟨x0, y⟩], by rw [hline, if_neg hpos]; simp [lineLoopYExact], by simp, ?_⟩
      intro q
      obtain ⟨qx, qy⟩ := q
      simp only [List.mem_singleton, Point.mk.injEq]
      constructor
      · rintro ⟨rfl, rfl⟩
        exact ⟨rfl, 0, by omega, by simp⟩
      · rintro ⟨rfl, i, hi, hq⟩
        have hi0 : (0 : Int) ≤ (i : Int) := Int.ofNat_nonneg i
        have : (i : Int) = 0 := by omega
        rw [this] at hq
        exact ⟨by simpa using hq, rfl⟩
  obtain ⟨pts, hpts, hnd, hmem⟩ := hkey
  replace hpts : linePoints ⟨x0, y⟩ ⟨x1, y⟩ = some pts := hbr.trans hpts
  refine ⟨pts, hpts, ?_, hnd, ?_⟩
  · intro b c
    simp only [Line, hpts, Option.some_bind]
  · intro q
    rw [hmem]
    constructor
    · rintro ⟨h1, i, hi, hq⟩
      refine ⟨h1, ?_⟩
      have hi0 : (0 : Int) ≤ (i : Int) := Int.ofNat_nonneg i
      rcases hsx with h | h
      · rw [h] at hq hsdx
        rw [min_def, max_def]; split_ifs <;> omega
      · rw [h] at hq hsdx
        rw [min_def, max_def]; split_ifs <;> omega
    · rintro ⟨h1, hlo, hhi⟩
      refine ⟨h1, ?_⟩
      rcases hsx with h | h
      · rw [h] at hsdx ⊢
        rw [min_def, max_def] at *
        refine ⟨(q.X - x0).toNat, ?_, ?_⟩ <;> split_ifs at hlo hhi <;> omega
      · rw [h] at hsdx ⊢
        rw [min_def, max_def] at *
        refine ⟨(x0 - q.X).toNat, ?_, ?_⟩ <;> split_ifs at hlo hhi <;> omega

theorem Line_horizontal_witness :
    ∃ pts, linePoints ⟨0, 0⟩ ⟨4, 0⟩ = some pts ∧ pts.Nodup ∧
      (⟨0, 0⟩ : Point) ∈ pts ∧ (⟨2, 0⟩ : Point) ∈ pts ∧ (⟨4, 0⟩ : Point) ∈ pts ∧
      (⟨5, 0⟩ : Point) ∉ pts ∧ (⟨2, 1⟩ : Point) ∉ pts :=
  (Line_horizontal 0 4 0 (by decide) (by decide) (by decide)).imp
    fun _ hp => ⟨hp.1, hp.2.2.1, (hp.2.2.2 ⟨0, 0⟩).mpr (by decide),
      (hp.2.2.2 ⟨2, 0⟩).mpr (by decide), (hp.2.2.2 ⟨4, 0⟩).mpr (by decide),
      fun h => absurd ((hp.2.2.2 ⟨5, 0⟩).mp h) (by decide),
      fun h => absurd ((hp.2.2.2 ⟨2, 1⟩).mp h) (by decide)⟩

/-- C18, as stated, fails when `x1 - x0` overflows: from (-2^63, 0) to (0, 0) the
difference wraps, `abs` returns `-2^63`, `dx > dy` is false and the loop on `y` does not
run, so `Line` calls `Set` on (-2^63, 0) alone; the pixel (-1, 0), which lies between the
two ends, is not set. -/
theorem Line_horizontal_overflow :
    linePoints ⟨-(2 ^ 63), 0⟩ ⟨0, 0⟩ = some [⟨-(2 ^ 63), 0⟩] ∧
    (⟨-1, 0⟩ : Point) ∉ ([⟨-(2 ^ 63), 0⟩] : List Point) ∧
    (min (-(2 ^ 63)) 0 ≤ (-1 : Int) ∧ (-1 : Int) ≤ max (-(2 ^ 63)) 0) := by
  refine ⟨by decide, by decide, by decide⟩

/-! ## FillRectangle and Rectangle on the RGB565 and RGB888 fast paths -/

theorem memsetSliceRange_spec (b v : List Nat) (lo hi : Int) (h0 : 0 ≤ lo) (hlh : lo ≤ hi)
    (hhi : hi ≤ b.length) (hv : v ≠ []) (hk : (v.length : Int) ∣ lo) :
    ∃ p', memsetSliceRange b lo hi v = some p' ∧ p'.length = b.length ∧
      ∀ j : Nat, j < b.length →
        p'[j]? = if lo ≤ (j : Int) ∧ (j : Int) < hi then v[j % v.length]? else b[j]? := by
  obtain ⟨l, hl⟩ : ∃ l : Nat, (l : Int) = lo := ⟨lo.toNat, Int.toNat_of_nonneg h0⟩
  obtain ⟨u, hu⟩ : ∃ u : Nat, (u : Int) = hi := ⟨hi.toNat, Int.toNat_of_nonneg (by omega)⟩
  subst hl hu
  have hlu : l ≤ u := by omega
  have hub : u ≤ b.length := by omega
  have hkn : v.length ∣ l := by exact_mod_cast hk
  have hsub : ((b.drop l).take (u - l)).length = u - l := by
    rw [List.length_take, List.length_drop]; omega
  obtain ⟨s, hs, hsl, hsp⟩ := memsetSlice_periodic ((b.drop l).take (u - l)) v hv
  rw [hsub] at hsl hsp
  refine ⟨b.take l ++ s ++ b.drop u, ?_, ?_, ?_⟩
  · simp only [memsetSliceRange]
    rw [if_pos ⟨by omega, by omega, by omega⟩]
    simp only [Int.toNat_ofNat, hs, Option.map_some']
  · simp only [List.length_append, List.length_take, List.length_drop, hsl]
    omega
  · intro j hj
    by_cases h1 : j < l
    · rw [if_neg (by omega), List.append_assoc,
        List.getElem?_append_left (by rw [List.length_take]; omega),
        List.getElem?_take_of_lt h1]
    · by_cases h2 : j < u
      · rw [if_pos ⟨by omega, by omega⟩,
          List.getElem?_append_left (by
            simp only [List.length_append, List.length_take, hsl]; omega),
          List.getElem?_append_right (by rw [List.length_take]; omega)]
        simp only [List.length_take]
        rw [show j - min l b.length = j - l by omega, hsp (j - l) (by omega)]
        obtain ⟨m, hm⟩ := hkn
        have : (j - l) % v.length = j % v.length := by
          have hj2 : j = (j - l) + v.length * m := by omega
          conv_rhs => rw [hj2]
          exact (Nat.add_mul_mod_self_left _ _ _).symm
        rw [this]
      · rw [if_neg (by omega),
          List.getElem?_append_right (by
            simp only [List.length_append, List.length_take, hsl]; omega)]
        simp only [List.length_append, List.length_take, hsl, List.getElem?_drop]
        congr 1
        omega

/-- Rows filled one after the other by `memsetSliceRange`: a byte inside one of the row
segments ends up as the pattern byte of its position, any other byte is kept. -/
theorem rows_fold (v : List Nat) (hv : v ≠ []) (lo hi : Int → Int) (rows : List Int) :
    ∀ pix : List Nat,
      (∀ yy ∈ rows, 0 ≤ lo yy ∧ lo yy ≤ hi yy ∧ hi yy ≤ pix.length ∧
        (v.length : Int) ∣ lo yy) →
      ∃ p', rows.foldlM (fun p yy => memsetSliceRange p (lo yy) (hi yy) v) pix = some p' ∧
        p'.length = pix.length ∧
        ∀ j : Nat, j < pix.length →
          p'[j]? = if ∃ yy ∈ rows, lo yy ≤ (j : Int) ∧ (j : Int) < hi yy
            then v[j % v.length]? else pix[j]? := by
  induction rows with
  | nil =>
    intro pix _
    exact ⟨pix, rfl, rfl, fun j _ => by simp⟩
  | cons r rest ih =>
    intro pix hrows
    obtain ⟨h0, hlh, hhi, hk⟩ := hrows r (List.mem_cons_self _ _)
    obtain ⟨p1, hp1, hl1, hg1⟩ := memsetSliceRange_spec pix v (lo r) (hi r) h0 hlh hhi hv hk
    obtain ⟨p', hf, hl', hg'⟩ := ih p1 (by
      intro yy hyy
      rw [hl1]
      exact hrows yy (List.mem_cons_of_mem _ hyy))
    refine ⟨p', ?_, by rw [hl', hl1], ?_⟩
    · rw [List.foldlM_cons, hp1]
      exact hf
    · intro j hj
      rw [hg' j (by rw [hl1]; exact hj), hg1 j hj]
      by_cases hrest : ∃ yy ∈ rest, lo yy ≤ (j : Int) ∧ (j : Int) < hi yy
      · obtain ⟨yy, hyy, hin⟩ := hrest
        rw [if_pos ⟨yy, hyy, hin⟩, if_pos ⟨yy, List.mem_cons_of_mem _ hyy, hin⟩]
      · rw [if_neg hrest]
        by_cases hr : lo r ≤ (j : Int) ∧ (j : Int) < hi r
        · rw [if_pos hr, if_pos ⟨r, List.mem_cons_self _ _, hr⟩]
        · rw [if_neg hr, if_neg]
          rintro ⟨yy, hyy, hin⟩
          rcases List.mem_cons.mp hyy with rfl | hmem
          · exact hr hin
          · exact hrest ⟨yy, hmem, hin⟩

/-- A pixel index lies in the row segment `[yy*w + x, yy*w + xe)` exactly when the pixel
is in row `yy` and its column lies in `[x, xe)`. -/
theorem row_segment_iff (w x xe qx qy yy : Int) (hx : 0 ≤ x) (hxe : xe ≤ w)
    (hqx0 : 0 ≤ qx) (hqx : qx < w) :
    (yy * w + x ≤ qy * w + qx ∧ qy * w + qx < yy * w + xe) ↔
      (yy = qy ∧ x ≤ qx ∧ qx < xe) := by
  have hw : 0 ≤ w := by omega
  constructor
  · rintro ⟨h1, h2⟩
    rcases lt_trichotomy yy qy with hlt | heq | hgt
    · have h3 : (yy + 1) * w ≤ qy * w := mul_le_mul_of_nonneg_right (by omega) hw
      have e1 : (yy + 1) * w = yy * w + w := by ring
      omega
    · subst heq
      exact ⟨rfl, by omega, by omega⟩
    · have h3 : (qy + 1) * w ≤ yy * w := mul_le_mul_of_nonneg_right (by omega) hw
      have e1 : (qy + 1) * w = qy * w + w := by ring
      omega
  · rintro ⟨rfl, h1, h2⟩
    exact ⟨by omega, by omega⟩

theorem RGB565_fillRectangle_At (b : RGB565) (w h : Int) (hR : b.Rect = ⟨⟨0, 0⟩, ⟨w, h⟩⟩)
    (hS : b.Stride = w * 2) (hL : (b.Pix.length : Int) = w * h * 2)
    (x y width height : Int) (hx : 0 ≤ x) (hxw : x ≤ w) (hwd : 0 ≤ width) (hy : 0 ≤ y)
    (c : pixelcolor.Color) :
    ∃ p', fillRectangle (.rgb565 b) x y width height c = some (.rgb565 { b with Pix := p' }) ∧
      p'.length = b.Pix.length ∧
      ∀ qx qy, (Point.mk qx qy).In b.Rect →
        RGB565.At { b with Pix := p' } qx qy =
          if x ≤ qx ∧ qx < x + width ∧ y ≤ qy ∧ qy < y + height
          then some (.rgb565 (pixelcolor.ToRGB565 c)) else b.At qx qy := by
  have hw : 0 ≤ w := by omega
  have hv : pixelcolor.ToRGB565 c < 2 ^ 16 := Nat.mod_lt _ (by decide)
  obtain ⟨cv, hcv⟩ : ∃ cv, cv = pixelcolor.ToRGB565 c := ⟨_, rfl⟩
  rw [← hcv] at hv ⊢
  obtain ⟨xe, hxe⟩ : ∃ xe, xe = min (x + width) w := ⟨_, rfl⟩
  obtain ⟨ye, hye⟩ : ∃ ye, ye = min (y + height) h := ⟨_, rfl⟩
  have hxe1 : x ≤ xe := by rw [hxe]; exact le_min (by omega) hxw
  have hxe2 : xe ≤ w := by rw [hxe]; exact min_le_right _ _
  have hye2 : ye ≤ h := by rw [hye]; exact min_le_right _ _
  have hfr : fillRectangle (.rgb565 b) x y width height c =
      ((intRange y ye).foldlM
        (fun p yy => memsetSliceRange p ((fun yy => yy * (w * 2) + x * 2) yy)
          ((fun yy => yy * (w * 2) + x * 2 + (xe - x) * 2) yy)
          [(cv >>> 8) % 2 ^ 8, cv % 2 ^ 8]) b.Pix).map
        fun p => .rgb565 { b with Pix := p } := by
    simp only [fillRectangle, hR, hS, ← hxe, ← hye, ← hcv]
  have elo : ∀ yy : Int, yy * (w * 2) + x * 2 = 2 * (yy * w + x) := fun yy => by ring
  have ehi : ∀ yy : Int, yy * (w * 2) + x * 2 + (xe - x) * 2 = 2 * (yy * w + xe) :=
    fun yy => by ring
  obtain ⟨p', hf, hl', hg⟩ := rows_fold [(cv >>> 8) % 2 ^ 8, cv % 2 ^ 8] (by simp)
    (fun yy => yy * (w * 2) + x * 2) (fun yy => yy * (w * 2) + x * 2 + (xe - x) * 2)
    (intRange y ye) b.Pix (by
      intro yy hyy
      rw [mem_intRange] at hyy
      simp only
      rw [ehi, elo]
      have h1 : 0 ≤ yy * w := mul_nonneg (by omega) hw
      have h2 : (yy + 1) * w ≤ h * w := mul_le_mul_of_nonneg_right (by omega) hw
      have e1 : (yy + 1) * w = yy * w + w := by ring
      have e2 : h * w = w * h := by ring
      refine ⟨by omega, by omega, by omega, ?_⟩
      simp only [List.length_cons, List.length_nil]
      exact ⟨yy * w + x, by push_cast; ring⟩)
  refine ⟨p', by rw [hfr, hf]; rfl, hl', ?_⟩
  intro qx qy hin
  have hin2 := hin
  simp only [hR, Point.In] at hin2
  obtain ⟨hqx0, hqx, hqy0, hqy⟩ := hin2
  obtain ⟨n, hn, hnlt⟩ := pixel_index w h qx qy hqx0 hqx hqy0 hqy
  have hnL : 2 * n + 2 ≤ b.Pix.length := by omega
  have hcond : ∀ t : Nat, t < 2 →
      ((∃ yy ∈ intRange y ye, (fun yy => yy * (w * 2) + x * 2) yy ≤ ((2 * n + t : Nat) : Int) ∧
        ((2 * n + t : Nat) : Int) < (fun yy => yy * (w * 2) + x * 2 + (xe - x) * 2) yy) ↔
      (x ≤ qx ∧ qx < x + width ∧ y ≤ qy ∧ qy < y + height)) := by
    intro t ht
    simp only
    constructor
    · rintro ⟨yy, hyy, h1, h2⟩
      rw [mem_intRange] at hyy
      rw [elo] at h1
      rw [ehi] at h2
      push_cast at h1 h2
      have hseg := (row_segment_iff w x xe qx qy yy hx hxe2 hqx0 hqx).mp
        ⟨by omega, by omega⟩
      obtain ⟨rfl, h3, h4⟩ := hseg
      have h5 : xe ≤ x + width := by rw [hxe]; exact min_le_left _ _
      have h6 : ye ≤ y + height := by rw [hye]; exact min_le_left _ _
      omega
    · rintro ⟨h1, h2, h3, h4⟩
      have h5 : qx < xe := by rw [hxe]; exact lt_min h2 hqx
      have h6 : qy < ye := by rw [hye]; exact lt_min h4 hqy
      refine ⟨qy, by rw [mem_intRange]; omega, ?_, ?_⟩
      · rw [elo]; push_cast; omega
      · rw [ehi]; push_cast; omega
  have hoff : ∀ q : List Nat, RGB565.OffsetOf { b with Pix := q } qx qy = ((2 * n : Nat) : Int) := by
    intro q
    simp only [RGB565.OffsetOf, hS]; push_cast; rw [hn]; ring
  have hAt : ∀ q : List Nat, RGB565.At { b with Pix := q } qx qy =
      (do let b0 ← q[2 * n]?; let b1 ← q[2 * n + 1]?; pure (b1 ||| (b0 <<< 8))).map .rgb565 := by
    intro q
    have hin3 : (Point.mk qx qy).In (RGB565.Rect { b with Pix := q }) := hin
    simp only [RGB565.At, hin3, not_true_eq_false, if_false]
    rw [hoff q]
    simp only [Uint16, index_natCast,
      show (((2 * n : Nat) : Int) + 1) = ((2 * n + 1 : Nat) : Int) by push_cast; ring]
  have hb : b.At qx qy = RGB565.At { b with Pix := b.Pix } qx qy := rfl
  rw [hb, hAt p', hAt b.Pix, hg (2 * n) (by omega), hg (2 * n + 1) (by omega)]
  have c0 := hcond 0 (by omega)
  have c1 := hcond 1 (by omega)
  simp only [Nat.add_zero] at c0
  by_cases hrect : x ≤ qx ∧ qx < x + width ∧ y ≤ qy ∧ qy < y + height
  · rw [if_pos (c0.mpr hrect), if_pos (c1.mpr hrect), if_pos hrect]
    have e0 : (2 * n) % 2 = 0 := by omega
    have e1 : (2 * n + 1) % 2 = 1 := by omega
    simp only [List.length_cons, List.length_nil, e0, e1]
    simpa using uint16_bytes _ hv
  · rw [if_neg (fun hc => hrect (c0.mp hc)), if_neg (fun hc => hrect (c1.mp hc)), if_neg hrect]

theorem RGB888_fillRectangle_At (b : RGB888) (w h : Int) (hR : b.Rect = ⟨⟨0, 0⟩, ⟨w, h⟩⟩)
    (hS : b.Stride = w * 3) (hL : (b.Pix.length : Int) = w * h * 3)
    (x y width height : Int) (hx : 0 ≤ x) (hxw : x ≤ w) (hwd : 0 ≤ width) (hy : 0 ≤ y)
    (c : pixelcolor.Color) :
    ∃ p', fillRectangle (.rgb888 b) x y width height c = some (.rgb888 { b with Pix := p' }) ∧
      p'.length = b.Pix.length ∧
      ∀ qx qy, (Point.mk qx qy).In b.Rect →
        RGB888.At { b with Pix := p' } qx qy =
          if x ≤ qx ∧ qx < x + width ∧ y ≤ qy ∧ qy < y + height
          then some (.rgb888 (pixelcolor.ToRGB888 c)) else b.At qx qy := by
  have hw : 0 ≤ w := by omega
  obtain ⟨cv, hcv⟩ : ∃ cv, cv = pixelcolor.ToRGB888 c := ⟨_, rfl⟩
  rw [← hcv]
  obtain ⟨xe, hxe⟩ : ∃ xe, xe = min (x + width) w := ⟨_, rfl⟩
  obtain ⟨ye, hye⟩ : ∃ ye, ye = min (y + height) h := ⟨_, rfl⟩
  have hxe1 : x ≤ xe := by rw [hxe]; exact le_min (by omega) hxw
  have hxe2 : xe ≤ w := by rw [hxe]; exact min_le_right _ _
  have hye2 : ye ≤ h := by rw [hye]; exact min_le_right _ _
  have hfr : fillRectangle (.rgb888 b) x y width height c =
      ((intRange y ye).foldlM
        (fun p yy => memsetSliceRange p ((fun yy => yy * (w * 3) + x * 3) yy)
          ((fun yy => yy * (w * 3) + x * 3 + (xe - x) * 3) yy)
          [cv.R, cv.G, cv.B]) b.Pix).map
        fun p => .rgb888 { b with Pix := p } := by
    simp only [fillRectangle, hR, hS, ← hxe, ← hye, ← hcv]
  have elo : ∀ yy : Int, yy * (w * 3) + x * 3 = 3 * (yy * w + x) := fun yy => by ring
  have ehi : ∀ yy : Int, yy * (w * 3) + x * 3 + (xe - x) * 3 = 3 * (yy * w + xe) :=
    fun yy => by ring
  obtain ⟨p', hf, hl', hg⟩ := rows_fold [cv.R, cv.G, cv.B] (by simp)
    (fun yy => yy * (w * 3) + x * 3) (fun yy => yy * (w * 3) + x * 3 + (xe - x) * 3)
    (intRange y ye) b.Pix (by
      intro yy hyy
      rw [mem_intRange] at hyy
      simp only
      rw [ehi, elo]
      have h1 : 0 ≤ yy * w := mul_nonneg (by omega) hw
      have h2 : (yy + 1) * w ≤ h * w := mul_le_mul_of_nonneg_right (by omega) hw
      have e1 : (yy + 1) * w = yy * w + w := by ring
      have e2 : h * w = w * h := by ring
      refine ⟨by omega, by omega, by omega, ?_⟩
      simp only [List.length_cons, List.length_nil]
      exact ⟨yy * w + x, by push_cast; ring⟩)
  refine ⟨p', by rw [hfr, hf]; rfl, hl', ?_⟩
  intro qx qy hin
  have hin2 := hin
  simp only [hR, Point.In] at hin2
  obtain ⟨hqx0, hqx, hqy0, hqy⟩ := hin2
  obtain ⟨n, hn, hnlt⟩ := pixel_index w h qx qy hqx0 hqx hqy0 hqy
  have hnL : 3 * n + 3 ≤ b.Pix.length := by omega
  have hcond : ∀ t : Nat, t < 3 →
      ((∃ yy ∈ intRange y ye, (fun yy => yy * (w * 3) + x * 3) yy ≤ ((3 * n + t : Nat) : Int) ∧
        ((3 * n + t : Nat) : Int) < (fun yy => yy * (w * 3) + x * 3 + (xe - x) * 3) yy) ↔
      (x ≤ qx ∧ qx < x + width ∧ y ≤ qy ∧ qy < y + height)) := by
    intro t ht
    simp only
    constructor
    · rintro ⟨yy, hyy, h1, h2⟩
      rw [mem_intRange] at hyy
      rw [elo] at h1
      rw [ehi] at h2
      push_cast at h1 h2
      have hseg := (row_segment_iff w x xe qx qy yy hx hxe2 hqx0 hqx).mp
        ⟨by omega, by omega⟩
      obtain ⟨rfl, h3, h4⟩ := hseg
      have h5 : xe ≤ x + width := by rw [hxe]; exact min_le_left _ _
      have h6 : ye ≤ y + height := by rw [hye]; exact min_le_left _ _
      omega
    · rintro ⟨h1, h2, h3, h4⟩
      have h5 : qx < xe := by rw [hxe]; exact lt_min h2 hqx
      have h6 : qy < ye := by rw [hye]; exact lt_min h4 hqy
      refine ⟨qy, by rw [mem_intRange]; omega, ?_, ?_⟩
      · rw [elo]; push_cast; omega
      · rw [ehi]; push_cast; omega
  have hoff : ∀ q : List Nat, RGB888.OffsetOf { b with Pix := q } qx qy = ((3 * n : Nat) : Int) := by
    intro q
    simp only [RGB888.OffsetOf, hS]; push_cast; rw [hn]; ring
  have hAt : ∀ q : List Nat, RGB888.At { b with Pix := q } qx qy =
      (do let v0 ← q[3 * n]?; let v1 ← q[3 * n + 1]?; let v2 ← q[3 * n + 2]?
          pure (pixelcolor.Color.rgb888 ⟨v0, v1, v2⟩)) := by
    intro q
    have hin3 : (Point.mk qx qy).In (RGB888.Rect { b with Pix := q }) := hin
    simp only [RGB888.At, hin3, not_true_eq_false, if_false]
    rw [hoff q]
    simp only [index_natCast,
      show (((3 * n : Nat) : Int) + 1) = ((3 * n + 1 : Nat) : Int) by push_cast; ring,
      show (((3 * n : Nat) : Int) + 2) = ((3 * n + 2 : Nat) : Int) by push_cast; ring]
  have hb : b.At qx qy = RGB888.At { b with Pix := b.Pix } qx qy := rfl
  rw [hb, hAt p', hAt b.Pix, hg (3 * n) (by omega), hg (3 * n + 1) (by omega),
    hg (3 * n + 2) (by omega)]
  have c0 := hcond 0 (by omega)
  have c1 := hcond 1 (by omega)
  have c2 := hcond 2 (by omega)
  simp only [Nat.add_zero] at c0
  by_cases hrect : x ≤ qx ∧ qx < x + width ∧ y ≤ qy ∧ qy < y + height
  · rw [if_pos (c0.mpr hrect), if_pos (c1.mpr hrect), if_pos (c2.mpr hrect), if_pos hrect]
    have e0 : (3 * n) % 3 = 0 := by omega
    have e1 : (3 * n + 1) % 3 = 1 := by omega
    have e2 : (3 * n + 2) % 3 = 2 := by omega
    simp only [List.length_cons, List.length_nil, e0, e1, e2]
    rfl
  · rw [if_neg (fun hc => hrect (c0.mp hc)), if_neg (fun hc => hrect (c1.mp hc)),
      if_neg (fun hc => hrect (c2.mp hc)), if_neg hrect]

/-- C12: on a buffer with the geometry of `NewRGB565 w h` or `NewRGB888 w h` (whatever its
bytes), for a rectangle `r` with `0 ≤ r.Min.X ≤ r.Max.X`, `r.Min.X ≤ w` and
`0 ≤ r.Min.Y ≤ r.Max.Y`, `FillRectangle` returns without a panic, keeps the length of `Pix`,
and afterwards an in-bounds pixel reads as the conversion of `c` when it lies in `r` and
as before otherwise. -/
theorem FillRectangle_rows (w h : Int) (hw : 0 ≤ w) (hh : 0 ≤ h) (r : Rectangle)
    (hrx : 0 ≤ r.Min.X ∧ r.Min.X ≤ r.Max.X ∧ r.Min.X ≤ w)
    (hry : 0 ≤ r.Min.Y ∧ r.Min.Y ≤ r.Max.Y) (c : pixelcolor.Color) (pix : List Nat) :
    (∀ b0, NewRGB565 w h = some b0 → pix.length = b0.Pix.length →
      ∃ p', FillRectangle (.rgb565 { b0 with Pix := pix }) r c
          = some (.rgb565 { b0 with Pix := p' }) ∧
        p'.length = pix.length ∧
        ∀ x y, (Point.mk x y).In b0.Rect →
          RGB565.At { b0 with Pix := p' } x y =
            if (Point.mk x y).In r then some (.rgb565 (pixelcolor.ToRGB565 c))
            else RGB565.At { b0 with Pix := pix } x y) ∧
    (∀ b0, NewRGB888 w h = some b0 → pix.length = b0.Pix.length →
      ∃ p', FillRectangle (.rgb888 { b0 with Pix := pix }) r c
          = some (.rgb888 { b0 with Pix := p' }) ∧
        p'.length = pix.length ∧
        ∀ x y, (Point.mk x y).In b0.Rect →
          RGB888.At { b0 with Pix := p' } x y =
            if (Point.mk x y).In r then some (.rgb888 (pixelcolor.ToRGB888 c))
            else RGB888.At { b0 with Pix := pix } x y) := by
  have hwh : 0 ≤ w * h := mul_nonneg hw hh
  have hiff : ∀ x y : Int, (r.Min.X ≤ x ∧ x < r.Min.X + (r.Max.X - r.Min.X) ∧ r.Min.Y ≤ y ∧
      y < r.Min.Y + (r.Max.Y - r.Min.Y)) ↔ (Point.mk x y).In r := by
    intro x y
    simp only [Point.In]
    constructor <;> rintro ⟨h1, h2, h3, h4⟩ <;> exact ⟨h1, by omega, h3, by omega⟩
  refine ⟨?_, ?_⟩
  · intro b0 hb0 hlen
    simp only [NewRGB565, make, show 0 ≤ w * h * 2 by omega, if_true, Option.map_some',
      Option.some.injEq] at hb0
    subst hb0
    simp only [List.length_replicate] at hlen
    obtain ⟨p', hf, hl, hg⟩ := RGB565_fillRectangle_At ⟨⟨⟨0, 0⟩, ⟨w, h⟩⟩, pix, w * 2⟩ w h rfl rfl
      (by simp only; omega) r.Min.X r.Min.Y (r.Max.X - r.Min.X) (r.Max.Y - r.Min.Y)
      hrx.1 hrx.2.2 (by omega) hry.1 c
    refine ⟨p', hf, hl, ?_⟩
    intro x y hin
    rw [hg x y hin]
    exact if_congr (hiff x y) rfl rfl
  · intro b0 hb0 hlen
    simp only [NewRGB888, make, show 0 ≤ w * h * 3 by omega, if_true, Option.map_some',
      Option.some.injEq] at hb0
    subst hb0
    simp only [List.length_replicate] at hlen
    obtain ⟨p', hf, hl, hg⟩ := RGB888_fillRectangle_At ⟨⟨⟨0, 0⟩, ⟨w, h⟩⟩, pix, w * 3⟩ w h rfl rfl
      (by simp only; omega) r.Min.X r.Min.Y (r.Max.X - r.Min.X) (r.Max.Y - r.Min.Y)
      hrx.1 hrx.2.2 (by omega) hry.1 c
    refine ⟨p', hf, hl, ?_⟩
    intro x y hin
    rw [hg x y hin]
    exact if_congr (hiff x y) rfl rfl

theorem FillRectangle_rows_witness :
    ∃ p', FillRectangle (.rgb565 ⟨⟨⟨0, 0⟩, ⟨3, 3⟩⟩, List.replicate 18 7, 3 * 2⟩)
          ⟨⟨1, 1⟩, ⟨5, 5⟩⟩ (.gray16 0xffff)
        = some (.rgb565 ⟨⟨⟨0, 0⟩, ⟨3, 3⟩⟩, p', 3 * 2⟩) ∧
      RGB565.At ⟨⟨⟨0, 0⟩, ⟨3, 3⟩⟩, p', 3 * 2⟩ 2 1
        = some (.rgb565 (pixelcolor.ToRGB565 (.gray16 0xffff))) ∧
      RGB565.At ⟨⟨⟨0, 0⟩, ⟨3, 3⟩⟩, p', 3 * 2⟩ 0 1
        = RGB565.At ⟨⟨⟨0, 0⟩, ⟨3, 3⟩⟩, List.replicate 18 7, 3 * 2⟩ 0 1 :=
  have h := (FillRectangle_rows 3 3 (by decide) (by decide) ⟨⟨1, 1⟩, ⟨5, 5⟩⟩ (by decide)
    (by decide) (.gray16 0xffff) (List.replicate 18 7)).1
    ⟨⟨⟨0, 0⟩, ⟨3, 3⟩⟩, List.replicate 18 0, 3 * 2⟩ rfl rfl
  h.imp fun _ hp => ⟨hp.1, (hp.2.2 2 1 (by decide)).trans (if_pos (by decide)),
    (hp.2.2 0 1 (by decide)).trans (if_neg (by decide))⟩

/-- The outline drawn by `rectangle`, for any class `inv` of buffers with bounds
`(0,0)-(w,h)` on which `fillRectangle` fills exactly the pixels of its rectangle. -/
theorem rectangle_border (w h : Int) (conv : pixelcolor.Color) (c : pixelcolor.Color)
    (inv : Image → Prop) (hB : ∀ img, inv img → img.Bounds = ⟨⟨0, 0⟩, ⟨w, h⟩⟩)
    (hfill : ∀ img x y width height, inv img → 0 ≤ x → x ≤ w → 0 ≤ width → 0 ≤ y →
      ∃ img', fillRectangle img x y width height c = some img' ∧ inv img' ∧
        ∀ qx qy, (Point.mk qx qy).In ⟨⟨0, 0⟩, ⟨w, h⟩⟩ →
          img'.At qx qy = if x ≤ qx ∧ qx < x + width ∧ y ≤ qy ∧ qy < y + height
            then some conv else img.At qx qy)
    (img : Image) (hinv : inv img) (x y width height : Int) (hx : 0 ≤ x) (hy : 0 ≤ y)
    (hwd : 1 ≤ width) (hht : 1 ≤ height) (hxw : x + width ≤ w) (hyh : y + height ≤ h) :
    ∃ img', rectangle img x y width height c false = some img' ∧ inv img' ∧
      ∀ qx qy, (Point.mk qx qy).In ⟨⟨0, 0⟩, ⟨w, h⟩⟩ →
        img'.At qx qy =
          if (x ≤ qx ∧ qx < x + width ∧ y ≤ qy ∧ qy < y + height) ∧
              (qx = x ∨ qx = x + width - 1 ∨ qy = y ∨ qy = y + height - 1)
          then some conv else img.At qx qy := by
  have hguard : ¬ (width < 1 ∨ height < 1 ∨ x + width ≤ 0 ∨ y + height ≤ 0 ∨
      y ≥ (⟨⟨0, 0⟩, ⟨w, h⟩⟩ : Rectangle).Max.Y ∨ x ≥ (⟨⟨0, 0⟩, ⟨w, h⟩⟩ : Rectangle).Max.X) := by
    simp only; omega
  have hxe : min (w - 1) (x + width - 1) = x + width - 1 := min_eq_right (by omega)
  have hye : min (h - 1) (y + height - 1) = y + height - 1 := min_eq_right (by omega)
  have hmx : max x 0 = x := max_eq_left hx
  have hmy : max y 0 = y := max_eq_left hy
  have e1 : x + width - 1 - x + 1 = width := by ring
  have e2 : y + height - 1 - y + 1 = height := by ring
  by_cases hthin : height = 1 ∨ width = 1
  · obtain ⟨img', hf, hinv', hat⟩ := hfill img x y width height hinv hx (by omega) (by omega) hy
    refine ⟨img', ?_, hinv', ?_⟩
    · simp only [rectangle, hB img hinv, hguard, if_false, hxe, hye, hmx, hmy, e1, e2,
        Bool.false_eq_true, false_or, hthin, if_true]
      exact hf
    · intro qx qy hin
      rw [hat qx qy hin]
      refine if_congr ?_ rfl rfl
      constructor
      · intro hr
        refine ⟨hr, ?_⟩
        rcases hthin with h1 | h1 <;> omega
      · exact fun hr => hr.1
  · obtain ⟨i1, hf1, hinv1, hat1⟩ := hfill img x y width 1 hinv hx (by omega) (by omega) hy
    obtain ⟨i2, hf2, hinv2, hat2⟩ := hfill i1 x y 1 height hinv1 hx (by omega) (by omega) hy
    obtain ⟨i3, hf3, hinv3, hat3⟩ := hfill i2 x (y + height - 1) width 1 hinv2 hx (by omega)
      (by omega) (by omega)
    obtain ⟨i4, hf4, hinv4, hat4⟩ := hfill i3 (x + width - 1) y 1 height hinv3 (by omega)
      (by omega) (by omega) hy
    refine ⟨i4, ?_, hinv4, ?_⟩
    · simp only [rectangle, hB img hinv, hguard, if_false, hxe, hye, hmx, hmy, e1, e2,
        Bool.false_eq_true, false_or, hthin, Option.bind_eq_bind, hf1, Option.some_bind, hf2,
        hf3]
      exact hf4
    · intro qx qy hin
      rw [hat4 qx qy hin, hat3 qx qy hin, hat2 qx qy hin, hat1 qx qy hin]
      by_cases hb : (x ≤ qx ∧ qx < x + width ∧ y ≤ qy ∧ qy < y + height) ∧
          (qx = x ∨ qx = x + width - 1 ∨ qy = y ∨ qy = y + height - 1)
      · rw [if_pos hb]
        obtain ⟨⟨h1, h2, h3, h4⟩, h5⟩ := hb
        by_cases c4 : x + width - 1 ≤ qx ∧ qx < x + width - 1 + 1 ∧ y ≤ qy ∧ qy < y + height
        · rw [if_pos c4]
        · rw [if_neg c4]
          by_cases c3 : x ≤ qx ∧ qx < x + width ∧ y + height - 1 ≤ qy ∧ qy < y + height - 1 + 1
          · rw [if_pos c3]
          · rw [if_neg c3]
            by_cases c2 : x ≤ qx ∧ qx < x + 1 ∧ y ≤ qy ∧ qy < y + height
            · rw [if_pos c2]
            · rw [if_neg c2]
              by_cases c1 : x ≤ qx ∧ qx < x + width ∧ y ≤ qy ∧ qy < y + 1
              · rw [if_pos c1]
              · exfalso
                rcases h5 with h | h | h | h <;> omega
      · rw [if_neg hb, if_neg (by intro hc; apply hb; omega),
          if_neg (by intro hc; apply hb; omega), if_neg (by intro hc; apply hb; omega),
          if_neg (by intro hc; apply hb; omega)]

theorem RGB565_rectangle_At (b : RGB565) (w h : Int) (hR : b.Rect = ⟨⟨0, 0⟩, ⟨w, h⟩⟩)
    (hS : b.Stride = w * 2) (hL : (b.Pix.length : Int) = w * h * 2)
    (x y width height : Int) (hx : 0 ≤ x) (hy : 0 ≤ y)
    (hwd : 1 ≤ width) (hht : 1 ≤ height) (hxw : x + width ≤ w) (hyh : y + height ≤ h)
    (c : pixelcolor.Color) :
    ∃ p', rectangle (.rgb565 b) x y width height c false = some (.rgb565 { b with Pix := p' }) ∧
      p'.length = b.Pix.length ∧
      ∀ qx qy, (Point.mk qx qy).In b.Rect →
        RGB565.At { b with Pix := p' } qx qy =
          if (x ≤ qx ∧ qx < x + width ∧ y ≤ qy ∧ qy < y + height) ∧
              (qx = x ∨ qx = x + width - 1 ∨ qy = y ∨ qy = y + height - 1)
          then some (.rgb565 (pixelcolor.ToRGB565 c)) else b.At qx qy := by
  obtain ⟨img', hf, ⟨b1, rfl, hR1, hS1, hL1⟩, hat⟩ := rectangle_border w h
    (.rgb565 (pixelcolor.ToRGB565 c)) c
    (fun i => ∃ b1, i = .rgb565 b1 ∧ b1.Rect = ⟨⟨0, 0⟩, ⟨w, h⟩⟩ ∧ b1.Stride = w * 2 ∧
      (b1.Pix.length : Int) = w * h * 2)
    (by rintro i ⟨b1, rfl, hR1, -, -⟩; exact hR1)
    (by
      rintro i fx fy fw fh ⟨b1, rfl, hR1, hS1, hL1⟩ h1 h2 h3 h4
      obtain ⟨p', hf, hl, hg⟩ := RGB565_fillRectangle_At b1 w h hR1 hS1 hL1 fx fy fw fh h1 h2 h3 h4 c
      refine ⟨_, hf, ⟨_, rfl, hR1, hS1, by simp only [hl]; exact hL1⟩, ?_⟩
      intro qx qy hin
      exact hg qx qy (by rw [hR1]; exact hin))
    (.rgb565 b) ⟨b, rfl, hR, hS, hL⟩ x y width height hx hy hwd hht hxw hyh
  have hb1 : b1 = { b with Pix := b1.Pix } := by
    cases b1; cases b; simp only at hR1 hS1 hR hS; subst hR1 hS1 hR hS; rfl
  refine ⟨b1.Pix, by rw [hf, ← hb1], by omega, ?_⟩
  intro qx qy hin
  rw [← hb1]
  exact hat qx qy (by rw [← hR]; exact hin)

theorem RGB888_rectangle_At (b : RGB888) (w h : Int) (hR : b.Rect = ⟨⟨0, 0⟩, ⟨w, h⟩⟩)
    (hS : b.Stride = w * 3) (hL : (b.Pix.length : Int) = w * h * 3)
    (x y width height : Int) (hx : 0 ≤ x) (hy : 0 ≤ y)
    (hwd : 1 ≤ width) (hht : 1 ≤ height) (hxw : x + width ≤ w) (hyh : y + height ≤ h)
    (c : pixelcolor.Color) :
    ∃ p', rectangle (.rgb888 b) x y width height c false = some (.rgb888 { b with Pix := p' }) ∧
      p'.length = b.Pix.length ∧
      ∀ qx qy, (Point.mk qx qy).In b.Rect →
        RGB888.At { b with Pix := p' } qx qy =
          if (x ≤ qx ∧ qx < x + width ∧ y ≤ qy ∧ qy < y + height) ∧
              (qx = x ∨ qx = x + width - 1 ∨ qy = y ∨ qy = y + height - 1)
          then some (.rgb888 (pixelcolor.ToRGB888 c)) else b.At qx qy := by
  obtain ⟨img', hf, ⟨b1, rfl, hR1, hS1, hL1⟩, hat⟩ := rectangle_border w h
    (.rgb888 (pixelcolor.ToRGB888 c)) c
    (fun i => ∃ b1, i = .rgb888 b1 ∧ b1.Rect = ⟨⟨0, 0⟩, ⟨w, h⟩⟩ ∧ b1.Stride = w * 3 ∧
      (b1.Pix.length : Int) = w * h * 3)
    (by rintro i ⟨b1, rfl, hR1, -, -⟩; exact hR1)
    (by
      rintro i fx fy fw fh ⟨b1, rfl, hR1, hS1, hL1⟩ h1 h2 h3 h4
      obtain ⟨p', hf, hl, hg⟩ := RGB888_fillRectangle_At b1 w h hR1 hS1 hL1 fx fy fw fh h1 h2 h3 h4 c
      refine ⟨_, hf, ⟨_, rfl, hR1, hS1, by simp only [hl]; exact hL1⟩, ?_⟩
      intro qx qy hin
      exact hg qx qy (by rw [hR1]; exact hin))
    (.rgb888 b) ⟨b, rfl, hR, hS, hL⟩ x y width height hx hy hwd hht hxw hyh
  have hb1 : b1 = { b with Pix := b1.Pix } := by
    cases b1; cases b; simp only at hR1 hS1 hR hS; subst hR1 hS1 hR hS; rfl
  refine ⟨b1.Pix, by rw [hf, ← hb1], by omega, ?_⟩
  intro qx qy hin
  rw [← hb1]
  exact hat qx qy (by rw [← hR]; exact hin)

/-- C15: on a buffer with the geometry of `NewRGB565 w h` or `NewRGB888 w h`, for a rectangle
`r` inside the bounds with width and height at least 1, `Rectangle` returns without a
panic and afterwards an in-bounds pixel reads as the conversion of `c` when it lies in `r`
on one of the four border lines (`x = r.Min.X`, `x = r.Max.X - 1`, `y = r.Min.Y`,
`y = r.Max.Y - 1`), and as before otherwise. -/
theorem Rectangle_outline (w h : Int) (hw : 0 ≤ w) (hh : 0 ≤ h) (r : Rectangle)
    (hin : 0 ≤ r.Min.X ∧ 0 ≤ r.Min.Y ∧ r.Max.X ≤ w ∧ r.Max.Y ≤ h)
    (hdx : 1 ≤ r.Dx) (hdy : 1 ≤ r.Dy) (c : pixelcolor.Color) (pix : List Nat) :
    (∀ b0, NewRGB565 w h = some b0 → pix.length = b0.Pix.length →
      ∃ p', Rectangle.draw (.rgb565 { b0 with Pix := pix }) r c
          = some (.rgb565 { b0 with Pix := p' }) ∧
        p'.length = pix.length ∧
        ∀ x y, (Point.mk x y).In b0.Rect →
          RGB565.At { b0 with Pix := p' } x y =
            if (Point.mk x y).In r ∧
                (x = r.Min.X ∨ x = r.Max.X - 1 ∨ y = r.Min.Y ∨ y = r.Max.Y - 1)
            then some (.rgb565 (pixelcolor.ToRGB565 c))
            else RGB565.At { b0 with Pix := pix } x y) ∧
    (∀ b0, NewRGB888 w h = some b0 → pix.length = b0.Pix.length →
      ∃ p', Rectangle.draw (.rgb888 { b0 with Pix := pix }) r c
          = some (.rgb888 { b0 with Pix := p' }) ∧
        p'.length = pix.length ∧
        ∀ x y, (Point.mk x y).In b0.Rect →
          RGB888.At { b0 with Pix := p' } x y =
            if (Point.mk x y).In r ∧
                (x = r.Min.X ∨ x = r.Max.X - 1 ∨ y = r.Min.Y ∨ y = r.Max.Y - 1)
            then some (.rgb888 (pixelcolor.ToRGB888 c))
            else RGB888.At { b0 with Pix := pix } x y) := by
  have hwh : 0 ≤ w * h := mul_nonneg hw hh
  simp only [Rectangle.Dx, Rectangle.Dy] at hdx hdy
  have hiff : ∀ x y : Int,
      ((r.Min.X ≤ x ∧ x < r.Min.X + (r.Max.X - r.Min.X) ∧ r.Min.Y ≤ y ∧
          y < r.Min.Y + (r.Max.Y - r.Min.Y)) ∧
        (x = r.Min.X ∨ x = r.Min.X + (r.Max.X - r.Min.X) - 1 ∨ y = r.Min.Y ∨
          y = r.Min.Y + (r.Max.Y - r.Min.Y) - 1)) ↔
      ((Point.mk x y).In r ∧
        (x = r.Min.X ∨ x = r.Max.X - 1 ∨ y = r.Min.Y ∨ y = r.Max.Y - 1)) := by
    intro x y
    simp only [Point.In]
    constructor
    · rintro ⟨⟨h1, h2, h3, h4⟩, h5⟩
      exact ⟨⟨h1, by omega, h3, by omega⟩, by omega⟩
    · rintro ⟨⟨h1, h2, h3, h4⟩, h5⟩
      exact ⟨⟨h1, by omega, h3, by omega⟩, by omega⟩
  refine ⟨?_, ?_⟩
  · intro b0 hb0 hlen
    simp only [NewRGB565, make, show 0 ≤ w * h * 2 by omega, if_true, Option.map_some',
      Option.some.injEq] at hb0
    subst hb0
    simp only [List.length_replicate] at hlen
    obtain ⟨p', hf, hl, hg⟩ := RGB565_rectangle_At ⟨⟨⟨0, 0⟩, ⟨w, h⟩⟩, pix, w * 2⟩ w h rfl rfl
      (by simp only; omega) r.Min.X r.Min.Y (r.Max.X - r.Min.X) (r.Max.Y - r.Min.Y)
      hin.1 hin.2.1 hdx hdy (by omega) (by omega) c
    refine ⟨p', hf, hl, ?_⟩
    intro x y hxy
    rw [hg x y hxy]
    exact if_congr (hiff x y) rfl rfl
  · intro b0 hb0 hlen
    simp only [NewRGB888, make, show 0 ≤ w * h * 3 by omega, if_true, Option.map_some',
      Option.some.injEq] at hb0
    subst hb0
    simp only [List.length_replicate] at hlen
    obtain ⟨p', hf, hl, hg⟩ := RGB888_rectangle_At ⟨⟨⟨0, 0⟩, ⟨w, h⟩⟩, pix, w * 3⟩ w h rfl rfl
      (by simp only; omega) r.Min.X r.Min.Y (r.Max.X - r.Min.X) (r.Max.Y - r.Min.Y)
      hin.1 hin.2.1 hdx hdy (by omega) (by omega) c
    refine ⟨p', hf, hl, ?_⟩
    intro x y hxy
    rw [hg x y hxy]
    exact if_congr (hiff x y) rfl rfl

theorem Rectangle_outline_witness :
    ∃ p', Rectangle.draw (.rgb565 ⟨⟨⟨0, 0⟩, ⟨4, 4⟩⟩, List.replicate 32 0, 4 * 2⟩)
          ⟨⟨0, 0⟩, ⟨4, 4⟩⟩ (.gray16 0xffff)
        = some (.rgb565 ⟨⟨⟨0, 0⟩, ⟨4, 4⟩⟩, p', 4 * 2⟩) ∧
      RGB565.At ⟨⟨⟨0, 0⟩, ⟨4, 4⟩⟩, p', 4 * 2⟩ 3 2
        = some (.rgb565 (pixelcolor.ToRGB565 (.gray16 0xffff))) ∧
      RGB565.At ⟨⟨⟨0, 0⟩, ⟨4, 4⟩⟩, p', 4 * 2⟩ 1 2
        = RGB565.At ⟨⟨⟨0, 0⟩, ⟨4, 4⟩⟩, List.replicate 32 0, 4 * 2⟩ 1 2 :=
  have h := (Rectangle_outline 4 4 (by decide) (by decide) ⟨⟨0, 0⟩, ⟨4, 4⟩⟩ (by decide)
    (by decide) (by decide) (.gray16 0xffff) (List.replicate 32 0)).1
    ⟨⟨⟨0, 0⟩, ⟨4, 4⟩⟩, List.replicate 32 0, 4 * 2⟩ rfl rfl
  h.imp fun _ hp => ⟨hp.1, (hp.2.2 3 2 (by decide)).trans (if_pos (by decide)),
    (hp.2.2 1 2 (by decide)).trans (if_neg (by decide))⟩

/-! ## Errors of `New` -/

/-- C27: `New(w,h,format)` returns an error exactly when `format` is none of the seven
formats; a buffer returned for `MHMSBFormat` or `MVLSBFormat` is a `Bitmap` whose `Format`
field is the requested format, and for `w, h ≥ 0` such a buffer is returned. -/
theorem New_error_iff (w h : Int) (f : Format) :
    ((∃ e, New w h f = some (.error e)) ↔
      ¬ (f = MHMSBFormat ∨ f = MVLSBFormat ∨ f = RGB332Format ∨ f = RGB565Format ∨
        f = RGB888Format ∨ f = RGBA4444Format ∨ f = RGBA5551Format)) ∧
    (∀ img, New w h f = some (.ok img) → (f = MHMSBFormat ∨ f = MVLSBFormat) →
      ∃ b, img = .bitmap b ∧ b.Format = f) ∧
    (0 ≤ w → 0 ≤ h → (f = MHMSBFormat ∨ f = MVLSBFormat) →
      ∃ b, New w h f = some (.ok (.bitmap b)) ∧ b.Format = f) := by
  refine ⟨?_, ?_, ?_⟩
  · constructor
    · rintro ⟨e, he⟩ hf
      have hne : ∀ {α : Type} (o : Option α) (g : α → Except String Image),
          (∀ a, g a ≠ .error e) → o.map g ≠ some (.error e) := by
        intro α o g hg
        cases o with
        | none => simp
        | some a => simpa using hg a
      simp only [New] at he
      split_ifs at he with h1 h2 h3 h4 h5 h6
      · exact hne _ _ (fun _ h => Except.noConfusion h) he
      · exact hne _ _ (fun _ h => Except.noConfusion h) he
      · exact hne _ _ (fun _ h => Except.noConfusion h) he
      · exact hne _ _ (fun _ h => Except.noConfusion h) he
      · exact hne _ _ (fun _ h => Except.noConfusion h) he
      · exact hne _ _ (fun _ h => Except.noConfusion h) he
      · tauto
    · intro hf
      refine ⟨"framebuffer: invalid format", ?_⟩
      simp only [New]
      rw [if_neg (by tauto), if_neg (by tauto), if_neg (by tauto), if_neg (by tauto),
        if_neg (by tauto), if_neg (by tauto)]
  · intro img himg hf
    simp only [New, hf, if_true] at himg
    cases hnb : NewBitmap w h with
    | none => rw [hnb] at himg; simp at himg
    | some b0 =>
      rw [hnb] at himg
      simp only [Option.map_some', Option.some.injEq, Except.ok.injEq] at himg
      exact ⟨_, himg.symm, rfl⟩
  · intro hw hh hf
    exact ⟨_, New_bitmap_eq w h hw hh f hf, rfl⟩

theorem New_error_iff_witness :
    (∃ e, New 4 4 UnknownFormat = some (.error e)) ∧
    (∃ b, New 4 4 MHMSBFormat = some (.ok (.bitmap b)) ∧ b.Format = MHMSBFormat) :=
  ⟨(New_error_iff 4 4 UnknownFormat).1.mpr (by decide),
    (New_error_iff 4 4 MHMSBFormat).2.2 (by decide) (by decide) (Or.inl rfl)⟩

/-! ## Scrolling up, then down; small bitmaps -/

/-- C21, evaluated at the failing input: `NewBitmap(4,4)` has `Stride = 4` and 2 bytes of
`Pix`, so the slice expression `Pix[Stride:]` of `ScrollUp` is out of range and `ScrollUp`
panics. -/
theorem ScrollUp_bitmap_4x4_panics :
    ∃ b, NewBitmap 4 4 = some b ∧ b.Stride = 4 ∧ b.Pix.length = 2 ∧
      sliceFrom b.Pix b.Stride = none ∧ ScrollUp (.bitmap b) = none :=
  ⟨_, rfl, rfl, rfl, rfl, rfl⟩

theorem scrollDownPix_spec (pix : List Nat) (stride : Int) (hs0 : 0 ≤ stride)
    (hs : stride ≤ pix.length) :
    ∃ p', scrollDownPix pix stride = some p' ∧ p'.length = pix.length ∧
      ∀ i : Nat, i < pix.length →
        p'[i]? = if (i : Int) < stride then some 0 else pix[i - stride.toNat]? := by
  obtain ⟨S, hS⟩ : ∃ S : Nat, (S : Int) = stride := ⟨stride.toNat, Int.toNat_of_nonneg hs0⟩
  subst hS
  have hSl : S ≤ pix.length := by omega
  have hlen1 : (copyAt pix S pix).length = pix.length := length_copyAt _ _ _ hSl
  obtain ⟨p', hz, hl', hg⟩ := zeroRange_spec (copyAt pix S pix) 0 S (le_refl _)
    (by rw [hlen1]; omega)
  refine ⟨p', ?_, by rw [hl', hlen1], ?_⟩
  · simp only [scrollDownPix, copyFrom]
    rw [if_pos ⟨by omega, by omega⟩]
    simpa using hz
  · intro i hi
    rw [hg i (by rw [hlen1]; exact hi)]
    by_cases hlt : (i : Int) < S
    · rw [if_pos ⟨by omega, hlt⟩, if_pos hlt]
    · rw [if_neg (by omega), if_neg hlt, getElem?_copyAt _ _ _ _ hSl,
        if_pos ⟨by omega, by omega, hi⟩]
      simp only [Int.toNat_ofNat]

theorem scroll_up_down (pix : List Nat) (stride : Int) (hs0 : 0 ≤ stride)
    (hs : stride ≤ pix.length) :
    ∃ p', (scrollUpPix pix stride).bind (fun p => scrollDownPix p stride) = some p' ∧
      p'.length = pix.length ∧
      (∀ i : Nat, i < pix.length → p'[i]? = if (i : Int) < stride then some 0 else pix[i]?) ∧
      (p' = pix ↔ ∀ i : Nat, (i : Int) < stride → pix[i]? = some 0) := by
  obtain ⟨p1, h1, hl1, hg1⟩ := scrollUpPix_spec pix stride hs0 hs
  obtain ⟨p2, h2, hl2, hg2⟩ := scrollDownPix_spec p1 stride hs0 (by rw [hl1]; exact hs)
  have hbytes : ∀ i : Nat, i < pix.length →
      p2[i]? = if (i : Int) < stride then some 0 else pix[i]? := by
    intro i hi
    rw [hg2 i (by rw [hl1]; exact hi)]
    by_cases hlt : (i : Int) < stride
    · rw [if_pos hlt, if_pos hlt]
    · rw [if_neg hlt, if_neg hlt, hg1 (i - stride.toNat) (by omega), if_pos (by omega)]
      congr 1
      omega
  refine ⟨p2, by rw [h1, Option.some_bind, h2], by rw [hl2, hl1], hbytes, ?_⟩
  constructor
  · intro heq i hi
    have hil : i < pix.length := by omega
    have := hbytes i hil
    rw [if_pos hi, heq] at this
    exact this
  · intro hz
    apply list_eq_of_getElem? _ _ (by rw [hl2, hl1])
    intro j hj
    rw [hl2, hl1] at hj
    rw [hbytes j hj]
    split_ifs with hlt
    · exact (hz j hlt).symm
    · rfl

/-- C22: for a buffer created by `NewRGB565(w,h)` or `NewRGB888(w,h)` with `h ≥ 1`
(holding any bytes `pix` of the created length), `ScrollUp` followed by `ScrollDown`
completes, keeps the length of `Pix`, leaves 0 in the first `Stride` bytes and the original
byte at every later offset; the result equals the original `Pix` exactly when the first
`Stride` bytes were all 0. -/
theorem ScrollUp_then_ScrollDown (w h : Int) (hh : 1 ≤ h) (pix : List Nat) :
    (∀ b0, NewRGB565 w h = some b0 → pix.length = b0.Pix.length →
      ∃ p', (ScrollUp (.rgb565 { b0 with Pix := pix })).bind ScrollDown
          = some (.rgb565 { b0 with Pix := p' }) ∧
        p'.length = pix.length ∧
        (∀ i : Nat, i < pix.length →
          p'[i]? = if (i : Int) < b0.Stride then some 0 else pix[i]?) ∧
        (p' = pix ↔ ∀ i : Nat, (i : Int) < b0.Stride → pix[i]? = some 0)) ∧
    (∀ b0, NewRGB888 w h = some b0 → pix.length = b0.Pix.length →
      ∃ p', (ScrollUp (.rgb888 { b0 with Pix := pix })).bind ScrollDown
          = some (.rgb888 { b0 with Pix := p' }) ∧
        p'.length = pix.length ∧
        (∀ i : Nat, i < pix.length →
          p'[i]? = if (i : Int) < b0.Stride then some 0 else pix[i]?) ∧
        (p' = pix ↔ ∀ i : Nat, (i : Int) < b0.Stride → pix[i]? = some 0)) := by
  have hrow : ∀ k : Int, 0 < k → 0 ≤ w * h * k → 0 ≤ w * k ∧ w * k ≤ w * h * k := by
    intro k hk hwhk
    have hw : 0 ≤ w := by
      by_contra hneg
      have h1 : w * h ≤ -1 * h := mul_le_mul_of_nonneg_right (by omega) (by omega)
      have h2 : w * h * k ≤ -1 * h * k := mul_le_mul_of_nonneg_right h1 (by omega)
      have h3 : 0 < h * k := mul_pos (by omega) hk
      have e : -1 * h * k = -(h * k) := by ring
      omega
    have h4 : 0 ≤ w * k := mul_nonneg hw (by omega)
    have h5 := mul_nonneg h4 (show 0 ≤ h - 1 by omega)
    have e : w * k * (h - 1) = w * h * k - w * k := by ring
    exact ⟨h4, by omega⟩
  refine ⟨?_, ?_⟩
  · intro b0 hb0 hlen
    have hpos : 0 ≤ w * h * 2 := by
      by_contra hneg
      simp [NewRGB565, make, hneg] at hb0
    simp only [NewRGB565, make, hpos, if_true, Option.map_some', Option.some.injEq] at hb0
    subst hb0
    simp only [List.length_replicate] at hlen
    obtain ⟨h4, h5⟩ := hrow 2 (by decide) hpos
    obtain ⟨p', hp, hl, hg, hiff⟩ := scroll_up_down pix (w * 2) h4 (by omega)
    refine ⟨p', ?_, hl, hg, hiff⟩
    cases hu : scrollUpPix pix (w * 2) with
    | none => rw [hu] at hp; cases hp
    | some p1 =>
      rw [hu, Option.some_bind] at hp
      simp only [ScrollUp, hu, Option.map_some', Option.some_bind, ScrollDown, hp]
  · intro b0 hb0 hlen
    have hpos : 0 ≤ w * h * 3 := by
      by_contra hneg
      simp [NewRGB888, make, hneg] at hb0
    simp only [NewRGB888, make, hpos, if_true, Option.map_some', Option.some.injEq] at hb0
    subst hb0
    simp only [List.length_replicate] at hlen
    obtain ⟨h4, h5⟩ := hrow 3 (by decide) hpos
    obtain ⟨p', hp, hl, hg, hiff⟩ := scroll_up_down pix (w * 3) h4 (by omega)
    refine ⟨p', ?_, hl, hg, hiff⟩
    cases hu : scrollUpPix pix (w * 3) with
    | none => rw [hu] at hp; cases hp
    | some p1 =>
      rw [hu, Option.some_bind] at hp
      simp only [ScrollUp, hu, Option.map_some', Option.some_bind, ScrollDown, hp]

theorem ScrollUp_then_ScrollDown_witness :
    ∃ p', (ScrollUp (.rgb565 ⟨⟨⟨0, 0⟩, ⟨2, 2⟩⟩, [1, 2, 3, 4, 5, 6, 7, 8], 2 * 2⟩)).bind ScrollDown
        = some (.rgb565 ⟨⟨⟨0, 0⟩, ⟨2, 2⟩⟩, p', 2 * 2⟩) ∧
      p'.length = 8 ∧ p'[1]? = some 0 ∧ p'[4]? = some 5 :=
  have h := (ScrollUp_then_ScrollDown 2 2 (by decide) [1, 2, 3, 4, 5, 6, 7, 8]).1
    ⟨⟨⟨0, 0⟩, ⟨2, 2⟩⟩, List.replicate 8 0, 2 * 2⟩ rfl rfl
  h.imp fun _ hp => ⟨hp.1, hp.2.1, hp.2.2.1 1 (by decide), hp.2.2.1 4 (by decide)⟩

/-! ## Bytes written by `RGB565.Set` -/

/-- C23: for a buffer created by `NewRGB565(w,h)` (holding any bytes `pix` of the created
length) and `(x,y)` inside its bounds, `Set(x,y,c)` completes, keeps the length of `Pix`,
writes the high byte of `ToRGB565(c)` at offset `y*Stride + 2*x` and the low byte at the
next offset, and leaves every other byte. -/
theorem RGB565_Set_bytes (w h : Int) (pix : List Nat) (x y : Int) (c : pixelcolor.Color) :
    ∀ b0, NewRGB565 w h = some b0 → pix.length = b0.Pix.length →
      (Point.mk x y).In b0.Rect →
      ∃ p', RGB565.Set { b0 with Pix := pix } x y c = some { b0 with Pix := p' } ∧
        p'.length = pix.length ∧
        0 ≤ y * b0.Stride + 2 * x ∧
        p'[(y * b0.Stride + 2 * x).toNat]? = some (pixelcolor.ToRGB565 c / 256) ∧
        p'[(y * b0.Stride + 2 * x).toNat + 1]? = some (pixelcolor.ToRGB565 c % 256) ∧
        ∀ i : Nat, i ≠ (y * b0.Stride + 2 * x).toNat → i ≠ (y * b0.Stride + 2 * x).toNat + 1 →
          p'[i]? = pix[i]? := by
  intro b0 hb0 hlen hin
  have hpos : 0 ≤ w * h * 2 := by
    by_contra hneg
    simp [NewRGB565, make, hneg] at hb0
  simp only [NewRGB565, make, hpos, if_true, Option.map_some', Option.some.injEq] at hb0
  subst hb0
  simp only [List.length_replicate] at hlen
  have hin2 := hin
  simp only [Point.In] at hin2
  obtain ⟨hx0, hx, hy0, hy⟩ := hin2
  obtain ⟨n, hn, hnlt⟩ := pixel_index w h x y hx0 hx hy0 hy
  have hoff : y * (w * 2) + 2 * x = ((2 * n : Nat) : Int) := by
    push_cast; rw [hn]; ring
  have hoff' : RGB565.OffsetOf ⟨⟨⟨0, 0⟩, ⟨w, h⟩⟩, pix, w * 2⟩ x y = ((2 * n : Nat) : Int) := by
    simp only [RGB565.OffsetOf]; rw [← hoff]; ring
  have hnL : 2 * n + 2 ≤ pix.length := by omega
  have hv : pixelcolor.ToRGB565 c < 2 ^ 16 := Nat.mod_lt _ (by decide)
  obtain ⟨v, hvdef⟩ : ∃ v, v = pixelcolor.ToRGB565 c := ⟨_, rfl⟩
  rw [← hvdef] at hv ⊢
  simp only
  rw [hoff, Int.toNat_ofNat]
  refine ⟨copyAt pix (2 * n) [(v >>> 8) % 2 ^ 8, v % 2 ^ 8], ?_, ?_, by omega, ?_, ?_, ?_⟩
  · simp only [RGB565.Set, hin, not_true_eq_false, if_false, hoff', PutUint16, ← hvdef]
    rw [if_pos ⟨by omega, by omega⟩]
    rfl
  · exact length_copyAt _ _ _ (by omega)
  · rw [getElem?_copyAt _ _ _ _ (by omega), if_pos ⟨by omega, by simp, by omega⟩]
    simp only [Nat.sub_self, List.getElem?_cons_zero, Option.some.injEq]
    rw [Nat.shiftRight_eq_div_pow]
    omega
  · rw [getElem?_copyAt _ _ _ _ (by omega), if_pos ⟨by omega, by simp, by omega⟩]
    simp only [show 2 * n + 1 - 2 * n = 1 by omega, List.getElem?_cons_succ,
      List.getElem?_cons_zero]
    rfl
  · intro i h1 h2
    rw [getElem?_copyAt _ _ _ _ (by omega), if_neg (by simp; omega)]

theorem RGB565_Set_bytes_witness :
    (∃ p', RGB565.Set ⟨⟨⟨0, 0⟩, ⟨2, 1⟩⟩, [0, 0, 0, 0], 2 * 2⟩ 0 0 (.rgba 0xff 0 0 0xff)
        = some ⟨⟨⟨0, 0⟩, ⟨2, 1⟩⟩, p', 2 * 2⟩ ∧
      p'.length = 4 ∧
      p'[0]? = some (pixelcolor.ToRGB565 (.rgba 0xff 0 0 0xff) / 256) ∧
      p'[1]? = some (pixelcolor.ToRGB565 (.rgba 0xff 0 0 0xff) % 256) ∧
      p'[2]? = some 0 ∧ p'[3]? = some 0) ∧
    pixelcolor.ToRGB565 (.rgba 0xff 0 0 0xff) = 0xF800 ∧
    RGB565.Set ⟨⟨⟨0, 0⟩, ⟨2, 1⟩⟩, [0, 0, 0, 0], 2 * 2⟩ 0 0 (.rgba 0xff 0 0 0xff)
      = some ⟨⟨⟨0, 0⟩, ⟨2, 1⟩⟩, [0xF8, 0x00, 0x00, 0x00], 2 * 2⟩ :=
  ⟨(RGB565_Set_bytes 2 1 [0, 0, 0, 0] 0 0 (.rgba 0xff 0 0 0xff)
      ⟨⟨⟨0, 0⟩, ⟨2, 1⟩⟩, List.replicate 4 0, 2 * 2⟩ rfl rfl (by decide)).imp
    fun _ hp => ⟨hp.1, hp.2.1, hp.2.2.2.1, hp.2.2.2.2.1, hp.2.2.2.2.2 2 (by decide) (by decide),
      hp.2.2.2.2.2 3 (by decide) (by decide)⟩, rfl, rfl⟩

/-! ## Horizontally packed bitmaps -/

/-- C28, evaluated at the failing input: on the 8×1 bitmap of `New(8,1,MHMSBFormat)` the
distinct in-bounds pixels (0,0) and (1,0) have the same byte offset and the same mask
`0x80` (the bit is taken from `y`), so `Set(0,0,On)` turns `At(1,0)` from Off to On. -/
theorem MHMSB_Set_changes_neighbour :
    ∃ b b', New 8 1 MHMSBFormat = some (.ok (.bitmap b)) ∧
      (Point.mk 0 0).In b.Rect ∧ (Point.mk 1 0).In b.Rect ∧
      b.PixOffset 0 0 = (0, 0x80) ∧ b.PixOffset 1 0 = (0, 0x80) ∧
      b.Set 0 0 (.bit pixelcolor.On) = some b' ∧
      b.At 1 0 = some (.bit pixelcolor.Off) ∧ b'.At 1 0 = some (.bit pixelcolor.On) :=
  ⟨_, _, rfl, by decide, by decide, rfl, rfl, rfl, rfl, rfl⟩

/-- C29, evaluated at failing inputs: on `New(8,8,MHMSBFormat)`, whose `Pix` has 8 bytes,
`FillRectangle` over the whole bounds panics (it indexes `Pix[yy*Stride+xx]`); on
`New(16,1,MHMSBFormat)` filling the single pixel (1,0) returns `Pix = [0, 0x40]` where
`Set(1,0,On)` gives `Pix = [0x80, 0]`. -/
theorem MHMSB_fillRectangle_diverges :
    (∃ b, New 8 8 MHMSBFormat = some (.ok b) ∧ b.Pix.length = 8 ∧
      FillRectangle b ⟨⟨0, 0⟩, ⟨8, 8⟩⟩ (.bit pixelcolor.On) = none) ∧
    (∃ b img b', New 16 1 MHMSBFormat = some (.ok (.bitmap b)) ∧
      (Point.mk 1 0).In b.Rect ∧
      FillRectangle (.bitmap b) ⟨⟨1, 0⟩, ⟨2, 1⟩⟩ (.bit pixelcolor.On) = some img ∧
      img.Pix = [0, 0x40] ∧
      b.Set 1 0 (.bit pixelcolor.On) = some b' ∧ b'.Pix = [0x80, 0]) :=
  ⟨⟨_, rfl, rfl, rfl⟩, ⟨_, _, _, rfl, by decide, rfl, rfl, rfl, rfl⟩⟩

/-! ## Vertically packed bitmaps -/

/-- Byte written by `putBit`: bit `k` becomes `cb`, the other bits below 8 are kept. -/
theorem putBit_byte (p k : Nat) (cb : Bool) (hk : k < 8) :
    ((p &&& (0xff ^^^ ((0x01 <<< k) % 2 ^ 8))) |||
        (((if cb then 0x01 else 0x00) <<< k) % 2 ^ 8)).testBit k = cb ∧
    ∀ j, j < 8 → j ≠ k →
      ((p &&& (0xff ^^^ ((0x01 <<< k) % 2 ^ 8))) |||
        (((if cb then 0x01 else 0x00) <<< k) % 2 ^ 8)).testBit j = p.testBit j := by
  rw [byte_mask k hk]
  have hmask : ∀ j, j < 8 → ((0xff : Nat) ^^^ 2 ^ k).testBit j = decide (j ≠ k) := by
    intro j hj
    rw [Nat.testBit_xor, show (0xff : Nat) = 2 ^ 8 - 1 by decide, Nat.testBit_two_pow_sub_one,
      Nat.testBit_two_pow]
    by_cases hjk : k = j
    · subst hjk; simp [hj]
    · have : j ≠ k := fun h => hjk h.symm
      simp [hj, hjk, this]
  have hv : ∀ j, (((if cb then 0x01 else 0x00) <<< k) % 2 ^ 8).testBit j
      = (cb && decide (k = j)) := by
    intro j
    cases cb
    · simp
    · simp only [if_true, byte_mask k hk, Nat.testBit_two_pow, Bool.true_and]
  constructor
  · rw [Nat.testBit_or, Nat.testBit_and, hmask k hk, hv]
    simp
  · intro j hj hjk
    rw [Nat.testBit_or, Nat.testBit_and, hmask j hj, hv]
    have : ¬ k = j := fun h => hjk h.symm
    simp [hjk, this]

/-- Statement `putBit` on a byte that exists: it succeeds and replaces that byte. -/
theorem putBit_eq (pix : List Nat) (n : Nat) (byte : Nat) (hb : pix[n]? = some byte)
    (k v : Nat) :
    putBit pix (n : Int) k v
      = some (pix.set n ((byte &&& (0xff ^^^ ((0x01 <<< k) % 2 ^ 8))) ||| ((v <<< k) % 2 ^ 8))) := by
  have hn : n < pix.length := by
    by_contra hge
    rw [List.getElem?_eq_none (by omega)] at hb
    cases hb
  simp only [putBit, index_natCast, hb, setIndex, Option.bind_eq_bind, Option.some_bind]
  rw [if_pos ⟨by omega, by omega⟩]
  simp

/-- One `putBit` with respect to a watched bit `(nq, kq)`: the call succeeds, keeps the
length, keeps the watched bit at `t` when it is another bit or `t` is the value written,
and sets it to the value written when it is the bit addressed. -/
theorem putBit_watch (pix : List Nat) (n k : Nat) (cb : Bool) (hn : n < pix.length) (hk : k < 8)
    (nq kq : Nat) (hkq : kq < 8) (t : Bool) :
    ∃ p', putBit pix (n : Int) k (if cb then 0x01 else 0x00) = some p' ∧
      p'.length = pix.length ∧
      ((t = cb ∨ ¬ (n = nq ∧ k = kq)) →
        (∃ byte, pix[nq]? = some byte ∧ byte.testBit kq = t) →
        (∃ byte, p'[nq]? = some byte ∧ byte.testBit kq = t)) ∧
      ((n = nq ∧ k = kq) → ∃ byte, p'[nq]? = some byte ∧ byte.testBit kq = cb) := by
  obtain ⟨byte, hb⟩ : ∃ byte, pix[n]? = some byte := ⟨pix[n], List.getElem?_eq_getElem hn⟩
  obtain ⟨hset, hkeep⟩ := putBit_byte byte k cb hk
  refine ⟨_, putBit_eq pix n byte hb k _, List.length_set _ _ _, ?_, ?_⟩
  · rintro hsafe ⟨bq, hbq, hbit⟩
    by_cases hnn : n = nq
    · subst hnn
      rw [hb] at hbq
      cases hbq
      refine ⟨_, List.getElem?_set_self hn, ?_⟩
      by_cases hkk : k = kq
      · subst hkk
        rcases hsafe with h | h
        · rw [hset, h]
        · exact absurd ⟨rfl, rfl⟩ h
      · rw [hkeep kq hkq (fun h => hkk h.symm), hbit]
    · exact ⟨bq, by rw [List.getElem?_set_ne hnn]; exact hbq, hbit⟩
  · rintro ⟨rfl, rfl⟩
    exact ⟨_, List.getElem?_set_self hn, hset⟩

/-- Address of a pixel in a vertically packed bitmap whose height is a multiple of 8. -/
theorem MVLSB_addr (w h x y : Int) (hh8 : h % 8 = 0) (hx0 : 0 ≤ x) (hx : x < w) (hy0 : 0 ≤ y)
    (hy : y < h) :
    ∃ n : Nat, (n : Int) = y / 8 * w + x ∧ (n : Int) < w * (h / 8) ∧ (y % 8).toNat < 8 := by
  obtain ⟨n, hn, hlt⟩ := pixel_index w (h / 8) x (y / 8) hx0 hx (by omega) (by omega)
  exact ⟨n, hn, by omega, by omega⟩

/-- Distinct pixels of a vertically packed bitmap differ in the byte or in the bit. -/
theorem MVLSB_addr_inj (w x y x' y' : Int) (hx0 : 0 ≤ x) (hx : x < w) (hx0' : 0 ≤ x')
    (hx' : x' < w) (haddr : y' / 8 * w + x' = y / 8 * w + x) (hbit : y' % 8 = y % 8) :
    x' = x ∧ y' = y := by
  by_contra hne
  have hcase : x' ≠ x ∨ y' / 8 ≠ y / 8 := by
    by_contra hboth
    push_neg at hboth
    exact hne ⟨hboth.1, by omega⟩
  exact pixel_index_ne w x (y / 8) x' (y' / 8) hx0 hx hx0' hx' hcase haddr

/-- What `At` reads from a vertically packed bitmap, given the byte of the pixel. -/
theorem MVLSB_At_testBit (b : Bitmap) (w h : Int) (hR : b.Rect = ⟨⟨0, 0⟩, ⟨w, h⟩⟩)
    (hS : b.Stride = w) (hF : b.Format = MVLSBFormat) (qx qy : Int)
    (hin : (Point.mk qx qy).In b.Rect) (n : Nat) (hn : (n : Int) = qy / 8 * w + qx)
    (byte : Nat) (hb : b.Pix[n]? = some byte) :
    b.At qx qy = some (.bit (byte.testBit (qy % 8).toNat)) := by
  have hin2 := hin
  simp only [hR, Point.In] at hin2
  obtain ⟨hx0, hx, hy0, hy⟩ := hin2
  have hnl : n < b.Pix.length := by
    by_contra hge
    rw [List.getElem?_eq_none (by omega)] at hb
    cases hb
  have hoff : b.PixOffset qx qy = ((n : Int), 1 <<< (qy % 8).toNat) := by
    simp only [Bitmap.PixOffset, hF, if_true, hS, hn]
  rw [Bitmap_At_eq b qx qy (by rw [hR]; simp only; omega), hoff]
  simp only
  rw [if_neg (by omega), index_natCast, hb]
  simp only [Option.map_some', test_mask _ _ (show (qy % 8).toNat < 8 by omega)]

/-- The vertically packed branch of `fillRectangle`, as a fold over `Pix`. -/
theorem fillRectangle_MVLSB_eq (b : Bitmap) (hF : b.Format = MVLSBFormat)
    (x y width height : Int) (c : pixelcolor.Color) :
    fillRectangle (.bitmap b) x y width height c =
      ((intRange y (y + height)).foldlM
        (fun pix yy => (intRange 0 width).foldlM
          (fun pix ww => putBit pix (yy / 8 * b.Stride + x + ww) (yy % 8).toNat
            (if pixelcolor.ToBit c then 0x01 else 0x00)) pix)
        b.Pix).map fun p => .bitmap { b with Pix := p } := by
  simp only [fillRectangle, hF]
  rw [if_neg (by decide), if_pos trivial]

/-- The fold of the vertically packed branch with respect to a watched bit `(nq, kq)` and
a value `t`: the fold succeeds and keeps the length; the watched bit ends at `t` when it
was `t` before and either `t` is the value written or no step addresses it, and also when
some step addresses it and `t` is the value written. -/
theorem MVLSB_fold_watch (w h : Int) (hh8 : h % 8 = 0) (x y width height : Int)
    (hx : 0 ≤ x) (hxw : x + width ≤ w) (hy : 0 ≤ y) (hyh : y + height ≤ h) (cb : Bool)
    (nq kq : Nat) (hkq : kq < 8) (t : Bool)
    (hsafe : t = cb ∨ ∀ yy ww, y ≤ yy → yy < y + height → 0 ≤ ww → ww < width →
      ¬ (yy / 8 * w + x + ww = (nq : Int) ∧ (yy % 8).toNat = kq))
    (pix : List Nat) (hL : (pix.length : Int) = w * (h / 8)) :
    ∃ p', (intRange y (y + height)).foldlM
        (fun pix yy => (intRange 0 width).foldlM
          (fun pix ww => putBit pix (yy / 8 * w + x + ww) (yy % 8).toNat
            (if cb then 0x01 else 0x00)) pix) pix = some p' ∧
      (p'.length : Int) = w * (h / 8) ∧
      (((∃ yy ww, y ≤ yy ∧ yy < y + height ∧ 0 ≤ ww ∧ ww < width ∧
            yy / 8 * w + x + ww = (nq : Int) ∧ (yy % 8).toNat = kq ∧ t = cb) ∨
          (∃ byte, pix[nq]? = some byte ∧ byte.testBit kq = t)) →
        ∃ byte, p'[nq]? = some byte ∧ byte.testBit kq = t) := by
  have houter := foldlM_establish
    (fun pix yy => (intRange 0 width).foldlM
      (fun pix ww => putBit pix (yy / 8 * w + x + ww) (yy % 8).toNat
        (if cb then 0x01 else 0x00)) pix)
    (fun p => (p.length : Int) = w * (h / 8))
    (fun p => ∃ byte, p[nq]? = some byte ∧ byte.testBit kq = t)
    (fun yy => ∃ ww, 0 ≤ ww ∧ ww < width ∧
      yy / 8 * w + x + ww = (nq : Int) ∧ (yy % 8).toNat = kq ∧ t = cb)
    (intRange y (y + height))
    (by
      intro p yy hyy hp
      rw [mem_intRange] at hyy
      have hinner := foldlM_establish
        (fun pix ww => putBit pix (yy / 8 * w + x + ww) (yy % 8).toNat
          (if cb then 0x01 else 0x00))
        (fun p => (p.length : Int) = w * (h / 8))
        (fun p => ∃ byte, p[nq]? = some byte ∧ byte.testBit kq = t)
        (fun ww => yy / 8 * w + x + ww = (nq : Int) ∧ (yy % 8).toNat = kq ∧ t = cb)
        (intRange 0 width)
        (by
          intro p ww hww hp
          rw [mem_intRange] at hww
          obtain ⟨n, hn, hnlt, hk⟩ := MVLSB_addr w h (x + ww) yy hh8 (by omega) (by omega)
            (by omega) (by omega)
          have hnn : yy / 8 * w + x + ww = (n : Int) := by omega
          obtain ⟨p', hput, hlen, hkeep, hhit⟩ := putBit_watch p n (yy % 8).toNat cb
            (by omega) hk nq kq hkq t
          refine ⟨p', ?_, ?_, ?_, ?_⟩
          · show putBit p (yy / 8 * w + x + ww) (yy % 8).toNat (if cb then 0x01 else 0x00)
              = some p'
            rw [hnn]
            exact hput
          · show (p'.length : Int) = w * (h / 8)
            rw [hlen]
            exact hp
          · apply hkeep
            rcases hsafe with h1 | h1
            · exact Or.inl h1
            · refine Or.inr ?_
              rintro ⟨h2, h3⟩
              exact h1 yy ww hyy.1 hyy.2 hww.1 hww.2 ⟨by omega, h3⟩
          · rintro ⟨h2, h3, h4⟩
            rw [h4]
            exact hhit ⟨by omega, h3⟩)
        p hp
      obtain ⟨p', hf, hinv', hg'⟩ := hinner
      refine ⟨p', hf, hinv', fun hg => hg' (Or.inr hg), ?_⟩
      rintro ⟨ww, h1, h2, h3, h4, h5⟩
      refine hg' (Or.inl ⟨ww, ?_, h3, h4, h5⟩)
      rw [mem_intRange]
      exact ⟨h1, h2⟩)
    pix hL
  obtain ⟨p', hf, hinv', hg'⟩ := houter
  refine ⟨p', hf, hinv', ?_⟩
  rintro (⟨yy, ww, h1, h2, h3, h4, h5, h6, h7⟩ | hg)
  · refine hg' (Or.inl ⟨yy, ?_, ww, h3, h4, h5, h6, h7⟩)
    rw [mem_intRange]
    exact ⟨h1, h2⟩
  · exact hg' (Or.inr hg)

/-- The vertically packed branch of `fillRectangle` on a bitmap whose height is a multiple
of 8, for a rectangle inside the bounds: it returns, keeps the length of `Pix`, sets the
pixels of the rectangle to `ToBit(c)` and leaves `At` of every other in-bounds pixel. -/
theorem MVLSB_fillRectangle_At (b : Bitmap) (w h : Int) (hR : b.Rect = ⟨⟨0, 0⟩, ⟨w, h⟩⟩)
    (hS : b.Stride = w) (hF : b.Format = MVLSBFormat) (hh8 : h % 8 = 0)
    (hL : (b.Pix.length : Int) = w * (h / 8)) (x y width height : Int)
    (hx : 0 ≤ x) (hxw : x + width ≤ w) (hy : 0 ≤ y) (hyh : y + height ≤ h)
    (c : pixelcolor.Color) :
    ∃ p', fillRectangle (.bitmap b) x y width height c = some (.bitmap { b with Pix := p' }) ∧
      p'.length = b.Pix.length ∧
      ∀ qx qy, (Point.mk qx qy).In b.Rect →
        Bitmap.At { b with Pix := p' } qx qy =
          if x ≤ qx ∧ qx < x + width ∧ y ≤ qy ∧ qy < y + height
          then some (.bit (pixelcolor.ToBit c)) else b.At qx qy := by
  obtain ⟨cb, hcb⟩ : ∃ cb, cb = pixelcolor.ToBit c := ⟨_, rfl⟩
  subst hS
  rw [fillRectangle_MVLSB_eq b hF, ← hcb]
  obtain ⟨p', hf, hl, -⟩ := MVLSB_fold_watch b.Stride h hh8 x y width height hx hxw hy hyh cb
    0 0 (by decide) cb (Or.inl rfl) b.Pix hL
  refine ⟨p', by rw [hf]; rfl, by omega, ?_⟩
  intro qx qy hin
  have hin2 := hin
  simp only [hR, Point.In] at hin2
  obtain ⟨hx0, hx1, hy0, hy1⟩ := hin2
  obtain ⟨n, hn, hnlt, hk⟩ := MVLSB_addr b.Stride h qx qy hh8 hx0 hx1 hy0 hy1
  have hnL : n < b.Pix.length := by omega
  obtain ⟨byte0, hb0⟩ : ∃ byte, b.Pix[n]? = some byte :=
    ⟨b.Pix[n], List.getElem?_eq_getElem hnL⟩
  by_cases hr : x ≤ qx ∧ qx < x + width ∧ y ≤ qy ∧ qy < y + height
  · rw [if_pos hr]
    obtain ⟨p'', hf2, -, hg⟩ := MVLSB_fold_watch b.Stride h hh8 x y width height hx hxw hy hyh cb
      n (qy % 8).toNat hk cb (Or.inl rfl) b.Pix hL
    rw [hf] at hf2
    cases hf2
    obtain ⟨byte, hbyte, hbit⟩ := hg (Or.inl ⟨qy, qx - x, hr.2.2.1, hr.2.2.2, by omega, by omega,
      by omega, rfl, rfl⟩)
    rw [MVLSB_At_testBit { b with Pix := p' } b.Stride h hR rfl hF qx qy hin n hn byte hbyte, hbit]
  · rw [if_neg hr]
    obtain ⟨p'', hf2, -, hg⟩ := MVLSB_fold_watch b.Stride h hh8 x y width height hx hxw hy hyh cb
      n (qy % 8).toNat hk (byte0.testBit (qy % 8).toNat)
      (Or.inr (by
        rintro yy ww h1 h2 h3 h4 ⟨h5, h6⟩
        have hinj := MVLSB_addr_inj b.Stride qx qy (x + ww) yy hx0 hx1 (by omega) (by omega)
          (by omega) (by omega)
        exact hr ⟨by omega, by omega, by omega, by omega⟩))
      b.Pix hL
    rw [hf] at hf2
    cases hf2
    obtain ⟨byte, hbyte, hbit⟩ := hg (Or.inr ⟨byte0, hb0, rfl⟩)
    rw [MVLSB_At_testBit { b with Pix := p' } b.Stride h hR rfl hF qx qy hin n hn byte hbyte, hbit,
      MVLSB_At_testBit b b.Stride h hR rfl hF qx qy hin n hn byte0 hb0]

/-- Byte written by `SetBit`: the bits below 8 other than bit `k` are kept. -/
theorem setbit_other (p k j : Nat) (cb : Bool) (hk : k < 8) (hj : j < 8) (hjk : j ≠ k) :
    (if cb then p ||| ((1 <<< k) % 2 ^ 8) else p &&& (0xff ^^^ ((1 <<< k) % 2 ^ 8))).testBit j
      = p.testBit j := by
  rw [byte_mask k hk]
  have hkj : ¬ k = j := fun h => hjk h.symm
  cases cb
  · simp only [Bool.false_eq_true, if_false, Nat.testBit_and, Nat.testBit_xor,
      Nat.testBit_two_pow]
    rw [show (0xff : Nat) = 2 ^ 8 - 1 by decide, Nat.testBit_two_pow_sub_one]
    simp [hj, hkj]
  · simp only [if_true, Nat.testBit_or, Nat.testBit_two_pow]
    simp [hkj]

/-- Shape of the bitmap `NewBitmap(w,h)` when `h` is a multiple of 8. -/
theorem NewBitmap_MVLSB (w h : Int) (hw : 0 ≤ w) (hh : 0 ≤ h) (hh8 : h % 8 = 0) (b0 : Bitmap)
    (hb0 : NewBitmap w h = some b0) :
    b0.Rect = ⟨⟨0, 0⟩, ⟨w, h⟩⟩ ∧ b0.Stride = w ∧ b0.Format = MVLSBFormat ∧
      (b0.Pix.length : Int) = w * (h / 8) ∧ ∀ n : Nat, n < b0.Pix.length → b0.Pix[n]? = some 0 := by
  rw [NewBitmap_eq w h hw hh] at hb0
  simp only [Option.some.injEq] at hb0
  subst hb0
  have hwh : 0 ≤ w * h := mul_nonneg hw hh
  have hq : 0 ≤ w * (h / 8) := mul_nonneg hw (by omega)
  have e : w * h = 8 * (w * (h / 8)) := by
    have := Int.ediv_add_emod h 8
    calc w * h = w * (8 * (h / 8) + h % 8) := by rw [this]
      _ = 8 * (w * (h / 8)) := by rw [hh8]; ring
  refine ⟨rfl, rfl, rfl, ?_, ?_⟩
  · simp only [List.length_replicate]
    rw [Int.toNat_of_nonneg (by omega)]
    omega
  · intro n hn
    simp only [List.length_replicate] at hn
    simp [List.getElem?_replicate, hn]

/-- Method `Set` on a vertically packed bitmap whose height is a multiple of 8: the pixel
addressed reads as `ToBit(c)` afterwards and every other in-bounds pixel as before. -/
theorem MVLSB_Set_At (b : Bitmap) (w h : Int) (hR : b.Rect = ⟨⟨0, 0⟩, ⟨w, h⟩⟩)
    (hS : b.Stride = w) (hF : b.Format = MVLSBFormat) (hh8 : h % 8 = 0)
    (hL : (b.Pix.length : Int) = w * (h / 8)) (x y : Int) (hin : (Point.mk x y).In b.Rect)
    (c : pixelcolor.Color) :
    ∃ p', b.Set x y c = some { b with Pix := p' } ∧ p'.length = b.Pix.length ∧
      ∀ qx qy, (Point.mk qx qy).In b.Rect →
        Bitmap.At { b with Pix := p' } qx qy =
          if qx = x ∧ qy = y then some (.bit (pixelcolor.ToBit c)) else b.At qx qy := by
  obtain ⟨cb, hcb⟩ : ∃ cb, cb = pixelcolor.ToBit c := ⟨_, rfl⟩
  subst hS
  have hin2 := hin
  simp only [hR, Point.In] at hin2
  obtain ⟨hx0, hx1, hy0, hy1⟩ := hin2
  obtain ⟨n, hn, hnlt, hk⟩ := MVLSB_addr b.Stride h x y hh8 hx0 hx1 hy0 hy1
  have hnL : n < b.Pix.length := by omega
  obtain ⟨byte, hbyte⟩ : ∃ byte, b.Pix[n]? = some byte :=
    ⟨b.Pix[n], List.getElem?_eq_getElem hnL⟩
  have hoff : b.PixOffset x y = ((n : Int), 1 <<< (y % 8).toNat) := by
    simp only [Bitmap.PixOffset, hF, if_true, hn]
  obtain ⟨q, hq⟩ : ∃ q, q = (if cb then byte ||| ((1 <<< (y % 8).toNat) % 2 ^ 8)
      else byte &&& (0xff ^^^ ((1 <<< (y % 8).toNat) % 2 ^ 8))) := ⟨_, rfl⟩
  have hset : b.Set x y c = some { b with Pix := b.Pix.set n q } := by
    have hSet : b.Set x y c = b.SetBit x y cb := by rw [hcb]; rfl
    rw [hSet, Bitmap_SetBit_eq, hoff]
    simp only
    rw [if_neg (by omega), index_natCast, hbyte, Option.some_bind, ← hq]
    simp only [setIndex]
    rw [if_pos ⟨by omega, by omega⟩]
    simp
  refine ⟨_, hset, List.length_set _ _ _, ?_⟩
  intro qx qy hinq
  have hinq2 := hinq
  simp only [hR, Point.In] at hinq2
  obtain ⟨hqx0, hqx1, hqy0, hqy1⟩ := hinq2
  obtain ⟨nq, hnq, hnqlt, hkq⟩ := MVLSB_addr b.Stride h qx qy hh8 hqx0 hqx1 hqy0 hqy1
  have hnqL : nq < b.Pix.length := by omega
  obtain ⟨byteq, hbyteq⟩ : ∃ byte, b.Pix[nq]? = some byte :=
    ⟨b.Pix[nq], List.getElem?_eq_getElem hnqL⟩
  rw [← hcb, MVLSB_At_testBit b b.Stride h hR rfl hF qx qy hinq nq hnq byteq hbyteq]
  by_cases hnn : n = nq
  · subst hnn
    rw [hbyteq] at hbyte
    cases hbyte
    rw [MVLSB_At_testBit { b with Pix := b.Pix.set n q } b.Stride h hR rfl hF qx qy hinq n hnq q
      (List.getElem?_set_self hnL)]
    by_cases hkk : (qy % 8).toNat = (y % 8).toNat
    · have hinj := MVLSB_addr_inj b.Stride x y qx qy hx0 hx1 hqx0 hqx1 (by omega) (by omega)
      rw [if_pos hinj, hkk, hq, setbit_test _ _ _ hk]
    · rw [if_neg (by rintro ⟨rfl, rfl⟩; exact hkk rfl), hq, setbit_other _ _ _ _ hk hkq hkk]
  · rw [MVLSB_At_testBit { b with Pix := b.Pix.set n q } b.Stride h hR rfl hF qx qy hinq nq hnq
      byteq (by simp only; rw [List.getElem?_set_ne hnn]; exact hbyteq)]
    rw [if_neg (by
      rintro ⟨rfl, rfl⟩
      exact hnn (by omega))]

/-- C24: on the bitmap `NewBitmap(w,h)` with `h` a multiple of 8 and `(x,y)` inside its
bounds, `Set(x,y,On)` completes, afterwards `At(x,y)` is On and `At` is Off for every other
in-bounds pixel. -/
theorem Bitmap_Set_On_single (w h : Int) (hh8 : h % 8 = 0) (x y : Int) :
    ∀ b0, NewBitmap w h = some b0 → (Point.mk x y).In b0.Rect →
      ∃ b', b0.Set x y (.bit pixelcolor.On) = some b' ∧
        b'.At x y = some (.bit pixelcolor.On) ∧
        ∀ x' y', (Point.mk x' y').In b0.Rect → (x' ≠ x ∨ y' ≠ y) →
          b'.At x' y' = some (.bit pixelcolor.Off) := by
  intro b0 hb0 hin
  have hrect : b0.Rect = ⟨⟨0, 0⟩, ⟨w, h⟩⟩ := by
    simp only [NewBitmap] at hb0
    cases hm : make (if w * h / 8 * 8 ≠ w * h then w * h / 8 + 1 else w * h / 8) with
    | none => rw [hm] at hb0; cases hb0
    | some p =>
      rw [hm] at hb0
      simp only [Option.map_some', Option.some.injEq] at hb0
      rw [← hb0]
  have hin2 := hin
  simp only [hrect, Point.In] at hin2
  obtain ⟨hx0, hx1, hy0, hy1⟩ := hin2
  obtain ⟨hR, hS, hF, hL, hzero⟩ := NewBitmap_MVLSB w h (by omega) (by omega) hh8 b0 hb0
  obtain ⟨p', hset, hlen, hat⟩ := MVLSB_Set_At b0 w h hR hS hF hh8 hL x y hin (.bit pixelcolor.On)
  have horig : ∀ qx qy, (Point.mk qx qy).In b0.Rect → b0.At qx qy = some (.bit pixelcolor.Off) := by
    intro qx qy hinq
    have hinq2 := hinq
    simp only [hrect, Point.In] at hinq2
    obtain ⟨hqx0, hqx1, hqy0, hqy1⟩ := hinq2
    obtain ⟨nq, hnq, hnqlt, hkq⟩ := MVLSB_addr w h qx qy hh8 hqx0 hqx1 hqy0 hqy1
    rw [MVLSB_At_testBit b0 w h hR hS hF qx qy hinq nq hnq 0 (hzero nq (by omega)),
      Nat.zero_testBit]
    rfl
  refine ⟨_, hset, ?_, ?_⟩
  · rw [hat x y hin, if_pos ⟨rfl, rfl⟩]
    rfl
  · intro x' y' hin' hne
    rw [hat x' y' hin', if_neg (by rintro ⟨rfl, rfl⟩; rcases hne with h | h <;> exact h rfl)]
    exact horig x' y' hin'

theorem Bitmap_Set_On_single_witness :
    ∃ b', (⟨⟨⟨0, 0⟩, ⟨8, 8⟩⟩, List.replicate 8 0, 8, MVLSBFormat⟩ : Bitmap).Set 0 0
          (.bit pixelcolor.On) = some b' ∧
      b'.At 0 0 = some (.bit pixelcolor.On) ∧ b'.At 0 1 = some (.bit pixelcolor.Off) ∧
      b'.At 7 7 = some (.bit pixelcolor.Off) :=
  (Bitmap_Set_On_single 8 8 (by decide) 0 0 ⟨⟨⟨0, 0⟩, ⟨8, 8⟩⟩, List.replicate 8 0, 8, MVLSBFormat⟩
    rfl (by decide)).imp
    fun _ hp => ⟨hp.1, hp.2.1, hp.2.2 0 1 (by decide) (by decide),
      hp.2.2 7 7 (by decide) (by decide)⟩

/-- C30: on a bitmap with the geometry of `NewBitmap(w,h)` (format MVLSB), `h` a multiple
of 8, whatever its bytes, and a rectangle `r` inside the bounds, `FillRectangle` completes,
keeps the length of `Pix`, and afterwards `At(x,y)` is `ToBit(c)` for every pixel of `r`
and as before for every other in-bounds pixel. -/
theorem FillRectangle_MVLSB (w h : Int) (hw : 0 ≤ w) (hh : 0 ≤ h) (hh8 : h % 8 = 0)
    (r : Rectangle) (hr : 0 ≤ r.Min.X ∧ 0 ≤ r.Min.Y ∧ r.Max.X ≤ w ∧ r.Max.Y ≤ h)
    (c : pixelcolor.Color) (pix : List Nat) :
    ∀ b0, NewBitmap w h = some b0 → pix.length = b0.Pix.length →
      ∃ p', FillRectangle (.bitmap { b0 with Pix := pix }) r c
          = some (.bitmap { b0 with Pix := p' }) ∧
        p'.length = pix.length ∧
        ∀ x y, (Point.mk x y).In b0.Rect →
          Bitmap.At { b0 with Pix := p' } x y =
            if (Point.mk x y).In r then some (.bit (pixelcolor.ToBit c))
            else Bitmap.At { b0 with Pix := pix } x y := by
  intro b0 hb0 hlen
  obtain ⟨hR, hS, hF, hL, -⟩ := NewBitmap_MVLSB w h hw hh hh8 b0 hb0
  obtain ⟨p', hf, hl, hg⟩ := MVLSB_fillRectangle_At { b0 with Pix := pix } w h hR hS hF hh8
    (by simp only; omega) r.Min.X r.Min.Y (r.Max.X - r.Min.X) (r.Max.Y - r.Min.Y)
    hr.1 (by omega) hr.2.1 (by omega) c
  refine ⟨p', hf, hl, ?_⟩
  intro x y hin
  rw [hg x y hin]
  refine if_congr ?_ rfl rfl
  simp only [Point.In]
  constructor <;> rintro ⟨h1, h2, h3, h4⟩ <;> exact ⟨h1, by omega, h3, by omega⟩

theorem FillRectangle_MVLSB_witness :
    ∃ p', FillRectangle (.bitmap ⟨⟨⟨0, 0⟩, ⟨8, 8⟩⟩, List.replicate 8 0xff, 8, MVLSBFormat⟩)
          ⟨⟨1, 1⟩, ⟨3, 3⟩⟩ (.bit pixelcolor.Off)
        = some (.bitmap ⟨⟨⟨0, 0⟩, ⟨8, 8⟩⟩, p', 8, MVLSBFormat⟩) ∧
      Bitmap.At ⟨⟨⟨0, 0⟩, ⟨8, 8⟩⟩, p', 8, MVLSBFormat⟩ 1 2 = some (.bit pixelcolor.Off) ∧
      Bitmap.At ⟨⟨⟨0, 0⟩, ⟨8, 8⟩⟩, p', 8, MVLSBFormat⟩ 1 3 = some (.bit pixelcolor.On) :=
  (FillRectangle_MVLSB 8 8 (by decide) (by decide) (by decide) ⟨⟨1, 1⟩, ⟨3, 3⟩⟩ (by decide)
    (.bit pixelcolor.Off) (List.replicate 8 0xff)
    ⟨⟨⟨0, 0⟩, ⟨8, 8⟩⟩, List.replicate 8 0, 8, MVLSBFormat⟩ rfl rfl).imp
    fun _ hp => ⟨hp.1, (hp.2.2 1 2 (by decide)).trans (if_pos (by decide)),
      (hp.2.2 1 3 (by decide)).trans (if_neg (by decide))⟩

/-! ## Rectangle clipping, memset, and the geometry of Line and Circle -/

/-- C31, evaluated at the failing input: `Rectangle` clips the rectangle to the buffer and
draws the outline of the clipped rectangle.  On the 4×4 buffer of `NewRGB565` the rectangle
(-2,-2)-(6,6) turns the in-bounds pixel (0,0) white although 0 is neither `r.Min` nor
`r.Max - 1` on either axis (pixel (1,1) stays black); on the 3×3 buffer of `NewRGB888` the
rectangle (1,1)-(9,9) changes pixel (2,2), which is not on its outline either. -/
theorem Rectangle_clipped_outline :
    (∃ b img, NewRGB565 4 4 = some b ∧
      Rectangle.draw (.rgb565 b) ⟨⟨-2, -2⟩, ⟨6, 6⟩⟩ (.gray16 0xffff) = some img ∧
      (Point.mk 0 0).In b.Rect ∧
      ¬ (0 = -2 ∨ 0 = 6 - 1) ∧
      b.At 0 0 = some (.rgb565 0) ∧ img.At 0 0 = some (.rgb565 0xffff) ∧
      img.At 1 1 = some (.rgb565 0)) ∧
    (∃ b img, NewRGB888 3 3 = some b ∧
      Rectangle.draw (.rgb888 b) ⟨⟨1, 1⟩, ⟨9, 9⟩⟩ (.gray16 0xffff) = some img ∧
      (Point.mk 2 2).In b.Rect ∧
      ¬ (2 = 1 ∨ 2 = 9 - 1) ∧
      b.At 2 2 = some (.rgb888 ⟨0, 0, 0⟩) ∧ img.At 2 2 = some (.rgb888 ⟨0xff, 0xff, 0xff⟩)) :=
  ⟨⟨_, _, rfl, rfl, by decide, by decide, rfl, rfl, rfl⟩,
    ⟨_, _, rfl, rfl, by decide, by decide, rfl, rfl⟩⟩

/-- C32: for every byte slice `b` and non-empty pattern `v`, `memsetSlice(b,v)` returns
with `b` of the same length and `b[j] = v[j mod len(v)]` for every `j < len(b)`, whatever the
two lengths are; and `memset(b,x)` returns with every byte of `b` equal to `x`. -/
theorem memsetSlice_pattern (b v : List Nat) (hv : v ≠ []) :
    (∃ b', memsetSlice b v = some b' ∧ b'.length = b.length ∧
      ∀ j, j < b.length → b'[j]? = v[j % v.length]?) ∧
    (∀ x, ∃ b', memset b x = some b' ∧ b'.length = b.length ∧
      ∀ j, j < b.length → b'[j]? = some x) :=
  ⟨memsetSlice_periodic b v hv, fun x => memset_const b x⟩

theorem memsetSlice_pattern_witness :
    ∃ b', memsetSlice [0, 0, 0, 0, 0] [1, 2, 3] = some b' ∧ b'.length = 5 ∧
      b'[3]? = some 1 ∧ b'[4]? = some 2 :=
  (memsetSlice_pattern [0, 0, 0, 0, 0] [1, 2, 3] (by decide)).1.imp
    fun _ hp => ⟨hp.1, hp.2.1, hp.2.2 3 (by decide), hp.2.2 4 (by decide)⟩

/-- Invariant of the loop of `Circle` for radius `r ≥ 0`: with `-r ≤ x1 ≤ 0`,
`0 ≤ y1 ≤ r` and `err = (x1+1)² + (y1+1)² - r²`, every iteration moves `x1` or `y1` up by
one, so `-x1 + (r - y1) + 1` iterations are enough, and every point passed to `Set`
is within `r` of the centre on both axes. -/
theorem circleLoop_bound (x y r : Int) :
    ∀ (fuel : Nat) (x1 y1 err : Int), -r ≤ x1 → x1 ≤ 0 → 0 ≤ y1 → y1 ≤ r →
      err = (x1 + 1) * (x1 + 1) + (y1 + 1) * (y1 + 1) - r * r →
      -x1 + (r - y1) < fuel →
      ∃ pts, circleLoop x y fuel x1 y1 err = some pts ∧
        ∀ q ∈ pts, abs (q.X - x) ≤ r ∧ abs (q.Y - y) ≤ r := by
  intro fuel
  induction fuel with
  | zero =>
    intro x1 y1 err h1 h2 h3 h4 _ hm
    simp only [Nat.cast_zero] at hm
    omega
  | succ fuel ih =>
    intro x1 y1 err h1 h2 h3 h4 herr hm
    have hpts : ∀ q ∈ ([⟨x - x1, y + y1⟩, ⟨x - y1, y - x1⟩, ⟨x + x1, y - y1⟩,
        ⟨x + y1, y + x1⟩] : List Point), abs (q.X - x) ≤ r ∧ abs (q.Y - y) ≤ r := by
      intro q hq
      simp only [List.mem_cons, List.mem_singleton, List.not_mem_nil, or_false] at hq
      rcases hq with rfl | rfl | rfl | rfl <;> simp only [abs] <;> constructor <;>
        split_ifs <;> omega
    have hy : err ≤ y1 → y1 < r := by
      intro hle
      by_contra hge
      have a1 : 0 ≤ (x1 + 1) * (x1 + 1) := mul_self_nonneg _
      have a2 : 0 ≤ (y1 - r) * (y1 + r) := mul_nonneg (by omega) (by omega)
      have e : err = (x1 + 1) * (x1 + 1) + (y1 - r) * (y1 + r) + 2 * y1 + 1 := by
        rw [herr]; ring
      omega
    by_cases hx : err > x1
    · by_cases hyy : err ≤ y1
      · have hy1 := hy hyy
        by_cases hstop : x1 + 1 ≥ 0
        · refine ⟨([⟨x - x1, y + y1⟩, ⟨x - y1, y - x1⟩, ⟨x + x1, y - y1⟩, ⟨x + y1, y + x1⟩] : List Point),
            ?_, hpts⟩
          simp only [circleLoop, hx, hyy, if_true, hstop]
        · obtain ⟨rest, hr, hrest⟩ := ih (x1 + 1) (y1 + 1)
            (err + ((x1 + 1) * 2 + 1) + ((y1 + 1) * 2 + 1))
            (by omega) (by omega) (by omega) (by omega) (by rw [herr]; ring)
            (by push_cast at hm; omega)
          refine ⟨([⟨x - x1, y + y1⟩, ⟨x - y1, y - x1⟩, ⟨x + x1, y - y1⟩, ⟨x + y1, y + x1⟩] : List Point) ++ rest,
            ?_, ?_⟩
          · simp only [circleLoop, hx, hyy, if_true, hstop, if_false, hr, Option.map_some']
          · intro q hq
            rcases List.mem_append.mp hq with h | h
            · exact hpts q h
            · exact hrest q h
      · by_cases hstop : x1 + 1 ≥ 0
        · refine ⟨([⟨x - x1, y + y1⟩, ⟨x - y1, y - x1⟩, ⟨x + x1, y - y1⟩, ⟨x + y1, y + x1⟩] : List Point),
            ?_, hpts⟩
          simp only [circleLoop, hx, hyy, if_true, if_false, hstop]
        · obtain ⟨rest, hr, hrest⟩ := ih (x1 + 1) y1 (err + ((x1 + 1) * 2 + 1))
            (by omega) (by omega) (by omega) (by omega) (by rw [herr]; ring)
            (by push_cast at hm; omega)
          refine ⟨([⟨x - x1, y + y1⟩, ⟨x - y1, y - x1⟩, ⟨x + x1, y - y1⟩, ⟨x + y1, y + x1⟩] : List Point) ++ rest,
            ?_, ?_⟩
          · simp only [circleLoop, hx, hyy, if_true, hstop, if_false, hr, Option.map_some']
          · intro q hq
            rcases List.mem_append.mp hq with h | h
            · exact hpts q h
            · exact hrest q h
    · have hyy : err ≤ y1 := by omega
      have hy1 := hy hyy
      by_cases hstop : x1 ≥ 0
      · refine ⟨([⟨x - x1, y + y1⟩, ⟨x - y1, y - x1⟩, ⟨x + x1, y - y1⟩, ⟨x + y1, y + x1⟩] : List Point),
          ?_, hpts⟩
        simp only [circleLoop, hx, hyy, if_true, if_false, hstop]
      · obtain ⟨rest, hr, hrest⟩ := ih x1 (y1 + 1) (err + ((y1 + 1) * 2 + 1))
          (by omega) (by omega) (by omega) (by omega) (by rw [herr]; ring)
          (by push_cast at hm; omega)
        refine ⟨([⟨x - x1, y + y1⟩, ⟨x - y1, y - x1⟩, ⟨x + x1, y - y1⟩, ⟨x + y1, y + x1⟩] : List Point) ++ rest,
          ?_, ?_⟩
        · simp only [circleLoop, hx, hyy, if_true, hstop, if_false, hr, Option.map_some']
        · intro q hq
          rcases List.mem_append.mp hq with h | h
          · exact hpts q h
          · exact hrest q h

/-- C37: for every centre `p` and radius `r ≥ 0`, the loop of `Circle` ends within
`2*r + 1` iterations (so `Circle` returns), and every point `(x,y)` it passes to `Set`
has `|x - p.X| ≤ r` and `|y - p.Y| ≤ r`. -/
theorem Circle_within_radius (p : Point) (r : Int) (hr : 0 ≤ r) (fuel : Nat)
    (hfuel : 2 * r + 1 ≤ fuel) :
    ∃ pts, circlePoints fuel p r = some pts ∧
      (∀ b c, Circle fuel b p r c = setAll b pts c) ∧
      ∀ q ∈ pts, abs (q.X - p.X) ≤ r ∧ abs (q.Y - p.Y) ≤ r := by
  obtain ⟨pts, hp, hb⟩ := circleLoop_bound p.X p.Y r fuel (-r) 0 (2 - 2 * r)
    (by omega) (by omega) (by omega) hr (by ring) (by omega)
  have hcp : circlePoints fuel p r = some pts := by
    simp only [circlePoints]
    rw [if_neg (by omega)]
    exact hp
  refine ⟨pts, hcp, ?_, hb⟩
  intro b c
  simp only [Circle, hcp, Option.some_bind]

theorem Circle_within_radius_witness :
    ∃ pts, circlePoints 5 ⟨0, 0⟩ 2 = some pts ∧
      ∀ q ∈ pts, abs (q.X - 0) ≤ 2 ∧ abs (q.Y - 0) ≤ 2 :=
  (Circle_within_radius ⟨0, 0⟩ 2 (by decide) 5 (by decide)).imp
    fun _ hp => ⟨hp.1, hp.2.2⟩

/-- The points of the first loop of `Line` in exact arithmetic, by index: after `i` steps
on the x axis the
loop is at `(x + sx*i, y + sy*k)` for a number `k ≥ 0` of y steps that keeps the doubled
error term `e - 2*i*dy + 2*dx*k` in `[0, 2*dx)`. -/
theorem lineLoopX_index (tx sx sy dx dy : Int) (hsx : sx = 1 ∨ sx = -1)
    (hdy : 0 ≤ dy) (hlt : dy < dx) :
    ∀ (n : Nat) (x y e : Int), tx = x + sx * n → 0 ≤ e → e < 2 * dx →
      ∃ pts, lineLoopXExact tx sx sy dx dy n x y e = some pts ∧ pts.length = n + 1 ∧
        ∀ i : Nat, i ≤ n → ∃ k : Int, 0 ≤ k ∧
          pts[i]? = some ⟨x + sx * i, y + sy * k⟩ ∧
          0 ≤ e - 2 * (i * dy) + 2 * (dx * k) ∧ e - 2 * (i * dy) + 2 * (dx * k) < 2 * dx := by
  intro n
  induction n with
  | zero =>
    intro x y e htx he0 he1
    have hx : x = tx := by rw [htx]; simp
    refine ⟨[⟨x, y⟩], by simp [lineLoopXExact, hx], rfl, ?_⟩
    intro i hi
    have hi0 : i = 0 := by omega
    subst hi0
    exact ⟨0, le_refl _, by simp, by simpa using he0, by simpa using he1⟩
  | succ n ih =>
    intro x y e htx he0 he1
    have hne : x ≠ tx := by
      rw [htx]
      rcases hsx with h | h <;> rw [h] <;> push_cast <;> omega
    have htx' : tx = (x + sx) + sx * n := by rw [htx]; push_cast; ring
    by_cases hneg : e - 2 * dy < 0
    · obtain ⟨rest, hp, hl, hidx⟩ :=
        ih (x + sx) (y + sy) (e - 2 * dy + 2 * dx) htx' (by omega) (by omega)
      refine ⟨(⟨x, y⟩ : Point) :: rest, ?_, by simp [hl], ?_⟩
      · simp only [lineLoopXExact, hne, if_false, hneg, if_true, hp, Option.map_some']
      · intro i hi
        cases i with
        | zero => exact ⟨0, le_refl _, by simp, by simpa using he0, by simpa using he1⟩
        | succ j =>
          obtain ⟨k, hk0, hq, hb0, hb1⟩ := hidx j (by omega)
          refine ⟨k + 1, by omega, ?_, ?_, ?_⟩
          · rw [List.getElem?_cons_succ, hq]
            simp only [Option.some.injEq, Point.mk.injEq]
            constructor
            · push_cast; ring
            · ring
          · have : e - 2 * (((j + 1 : Nat) : Int) * dy) + 2 * (dx * (k + 1))
                = e - 2 * dy + 2 * dx - 2 * (j * dy) + 2 * (dx * k) := by push_cast; ring
            rw [this]; exact hb0
          · have : e - 2 * (((j + 1 : Nat) : Int) * dy) + 2 * (dx * (k + 1))
                = e - 2 * dy + 2 * dx - 2 * (j * dy) + 2 * (dx * k) := by push_cast; ring
            rw [this]; exact hb1
    · obtain ⟨rest, hp, hl, hidx⟩ :=
        ih (x + sx) y (e - 2 * dy) htx' (by omega) (by omega)
      refine ⟨(⟨x, y⟩ : Point) :: rest, ?_, by simp [hl], ?_⟩
      · simp only [lineLoopXExact, hne, if_false, hneg, hp, Option.map_some']
      · intro i hi
        cases i with
        | zero => exact ⟨0, le_refl _, by simp, by simpa using he0, by simpa using he1⟩
        | succ j =>
          obtain ⟨k, hk0, hq, hb0, hb1⟩ := hidx j (by omega)
          refine ⟨k, hk0, ?_, ?_, ?_⟩
          · rw [List.getElem?_cons_succ, hq]
            simp only [Option.some.injEq, Point.mk.injEq, and_true]
            push_cast; ring
          · have : e - 2 * (((j + 1 : Nat) : Int) * dy) + 2 * (dx * k)
                = e - 2 * dy - 2 * (j * dy) + 2 * (dx * k) := by push_cast; ring
            rw [this]; exact hb0
          · have : e - 2 * (((j + 1 : Nat) : Int) * dy) + 2 * (dx * k)
                = e - 2 * dy - 2 * (j * dy) + 2 * (dx * k) := by push_cast; ring
            rw [this]; exact hb1

/-- The points of the second loop of `Line` in exact arithmetic, by index, with the axes
exchanged. -/
theorem lineLoopY_index (ty sx sy dx dy : Int) (hsy : sy = 1 ∨ sy = -1)
    (hdx : 0 ≤ dx) (hle : dx ≤ dy) :
    ∀ (n : Nat) (x y e : Int), ty = y + sy * n → 0 ≤ e → e < 2 * dy →
      ∃ pts, lineLoopYExact ty sx sy dx dy n x y e = some pts ∧ pts.length = n + 1 ∧
        ∀ i : Nat, i ≤ n → ∃ k : Int, 0 ≤ k ∧
          pts[i]? = some ⟨x + sx * k, y + sy * i⟩ ∧
          0 ≤ e - 2 * (i * dx) + 2 * (dy * k) ∧ e - 2 * (i * dx) + 2 * (dy * k) < 2 * dy := by
  intro n
  induction n with
  | zero =>
    intro x y e hty he0 he1
    have hy : y = ty := by rw [hty]; simp
    refine ⟨[⟨x, y⟩], by simp [lineLoopYExact, hy], rfl, ?_⟩
    intro i hi
    have hi0 : i = 0 := by omega
    subst hi0
    exact ⟨0, le_refl _, by simp, by simpa using he0, by simpa using he1⟩
  | succ n ih =>
    intro x y e hty he0 he1
    have hne : y ≠ ty := by
      rw [hty]
      rcases hsy with h | h <;> rw [h] <;> push_cast <;> omega
    have hty' : ty = (y + sy) + sy * n := by rw [hty]; push_cast; ring
    by_cases hneg : e - 2 * dx < 0
    · obtain ⟨rest, hp, hl, hidx⟩ :=
        ih (x + sx) (y + sy) (e - 2 * dx + 2 * dy) hty' (by omega) (by omega)
      refine ⟨(⟨x, y⟩ : Point) :: rest, ?_, by simp [hl], ?_⟩
      · simp only [lineLoopYExact, hne, if_false, hneg, if_true, hp, Option.map_some']
      · intro i hi
        cases i with
        | zero => exact ⟨0, le_refl _, by simp, by simpa using he0, by simpa using he1⟩
        | succ j =>
          obtain ⟨k, hk0, hq, hb0, hb1⟩ := hidx j (by omega)
          refine ⟨k + 1, by omega, ?_, ?_, ?_⟩
          · rw [List.getElem?_cons_succ, hq]
            simp only [Option.some.injEq, Point.mk.injEq]
            constructor
            · ring
            · push_cast; ring
          · have : e - 2 * (((j + 1 : Nat) : Int) * dx) + 2 * (dy * (k + 1))
                = e - 2 * dx + 2 * dy - 2 * (j * dx) + 2 * (dy * k) := by push_cast; ring
            rw [this]; exact hb0
          · have : e - 2 * (((j + 1 : Nat) : Int) * dx) + 2 * (dy * (k + 1))
                = e - 2 * dx + 2 * dy - 2 * (j * dx) + 2 * (dy * k) := by push_cast; ring
            rw [this]; exact hb1
    · obtain ⟨rest, hp, hl, hidx⟩ :=
        ih x (y + sy) (e - 2 * dx) hty' (by omega) (by omega)
      refine ⟨(⟨x, y⟩ : Point) :: rest, ?_, by simp [hl], ?_⟩
      · simp only [lineLoopYExact, hne, if_false, hneg, hp, Option.map_some']
      · intro i hi
        cases i with
        | zero => exact ⟨0, le_refl _, by simp, by simpa using he0, by simpa using he1⟩
        | succ j =>
          obtain ⟨k, hk0, hq, hb0, hb1⟩ := hidx j (by omega)
          refine ⟨k, hk0, ?_, ?_, ?_⟩
          · rw [List.getElem?_cons_succ, hq]
            simp only [Option.some.injEq, Point.mk.injEq, true_and]
            push_cast; ring
          · have : e - 2 * (((j + 1 : Nat) : Int) * dx) + 2 * (dy * k)
                = e - 2 * dx - 2 * (j * dx) + 2 * (dy * k) := by push_cast; ring
            rw [this]; exact hb0
          · have : e - 2 * (((j + 1 : Nat) : Int) * dx) + 2 * (dy * k)
                = e - 2 * dx - 2 * (j * dx) + 2 * (dy * k) := by push_cast; ring
            rw [this]; exact hb1

/-- The points of `linePointsExact`, by index: `max(dx,dy) + 1` points; point `i` is `i`
steps from `p0` on the major axis and `k ≥ 0` steps on the minor axis, where `k` keeps
the doubled error term in `[0, 2*dx)` (resp. `[0, 2*dy)`). -/
theorem linePoints_index (p0 p1 : Point) (dx dy sx sy : Int)
    (hdxe : dx = abs (p1.X - p0.X)) (hdye : dy = abs (p1.Y - p0.Y))
    (hsxe : sx = if p0.X ≤ p1.X then 1 else -1) (hsye : sy = if p0.Y ≤ p1.Y then 1 else -1) :
    ∃ pts, linePointsExact p0 p1 = some pts ∧ (pts.length : Int) = max dx dy + 1 ∧
      ∀ i : Nat, i < pts.length → ∃ k : Int, 0 ≤ k ∧
        if dx > dy then
          pts[i]? = some ⟨p0.X + sx * i, p0.Y + sy * k⟩ ∧
          0 ≤ dx - 2 * (i * dy) + 2 * (dx * k) ∧ dx - 2 * (i * dy) + 2 * (dx * k) < 2 * dx
        else
          pts[i]? = some ⟨p0.X + sx * k, p0.Y + sy * i⟩ ∧
          0 ≤ dy - 2 * (i * dx) + 2 * (dy * k) ∧
          (0 < dy → dy - 2 * (i * dx) + 2 * (dy * k) < 2 * dy) ∧ (dy = 0 → k = 0) := by
  obtain ⟨x0, y0⟩ := p0
  obtain ⟨x1, y1⟩ := p1
  obtain ⟨hdx0, hsdx⟩ := abs_sign x0 x1
  obtain ⟨hdy0, hsdy⟩ := abs_sign y0 y1
  simp only at hdxe hdye hsxe hsye
  rw [← hdxe] at hdx0 hsdx
  rw [← hdye] at hdy0 hsdy
  rw [← hsxe] at hsdx
  rw [← hsye] at hsdy
  have hsx : sx = 1 ∨ sx = -1 := by rw [hsxe]; split_ifs <;> simp
  have hsy : sy = 1 ∨ sy = -1 := by rw [hsye]; split_ifs <;> simp
  have hline : linePointsExact ⟨x0, y0⟩ ⟨x1, y1⟩ =
      if dx > dy then lineLoopXExact x1 sx sy dx dy dx.toNat x0 y0 dx
      else lineLoopYExact y1 sx sy dx dy dy.toNat x0 y0 dy := by
    simp only [linePointsExact, ← hdxe, ← hdye, ← hsxe, ← hsye]
  by_cases hmaj : dx > dy
  · have hn : ((dx.toNat : Nat) : Int) = dx := Int.toNat_of_nonneg hdx0
    obtain ⟨pts, hp, hl, hidx⟩ := lineLoopX_index x1 sx sy dx dy hsx hdy0 hmaj dx.toNat x0 y0 dx
      (by rw [hn]; omega) (by omega) (by omega)
    refine ⟨pts, by rw [hline, if_pos hmaj, hp], ?_, ?_⟩
    · rw [hl]; push_cast; rw [hn, max_eq_left (by omega)]
    · intro i hi
      obtain ⟨k, hk0, hq, hb0, hb1⟩ := hidx i (by omega)
      refine ⟨k, hk0, ?_⟩
      rw [if_pos hmaj]
      exact ⟨hq, hb0, hb1⟩
  · have hle : dx ≤ dy := by omega
    have hn : ((dy.toNat : Nat) : Int) = dy := Int.toNat_of_nonneg hdy0
    by_cases hzero : dy = 0
    · have hpts : linePointsExact ⟨x0, y0⟩ ⟨x1, y1⟩ = some [⟨x0, y0⟩] := by
        have hye : y1 = y0 := by rw [hzero] at hsdy; omega
        rw [hline, if_neg hmaj, hzero, hye]
        simp [lineLoopYExact]
      refine ⟨[⟨x0, y0⟩], hpts, ?_, ?_⟩
      · rw [max_eq_right hle, hzero]; simp
      · intro i hi
        have hi0 : i = 0 := by simpa using hi
        subst hi0
        refine ⟨0, le_refl _, ?_⟩
        rw [if_neg hmaj, hzero]
        simp
    · obtain ⟨pts, hp, hl, hidx⟩ := lineLoopY_index y1 sx sy dx dy hsy hdx0 hle dy.toNat x0 y0 dy
        (by rw [hn]; omega) (by omega) (by omega)
      refine ⟨pts, by rw [hline, if_neg hmaj, hp], ?_, ?_⟩
      · rw [hl]; push_cast; rw [hn, max_eq_right hle]
      · intro i hi
        obtain ⟨k, hk0, hq, hb0, hb1⟩ := hidx i (by omega)
        refine ⟨k, hk0, ?_⟩
        rw [if_neg hmaj]
        exact ⟨hq, hb0, fun _ => hb1, fun h => absurd h hzero⟩

/-- A doubled error term in `[0, 2*d)` keeps the point within half a step. -/
theorem half_bound (d a b : Int) (h0 : 0 ≤ d - 2 * a + 2 * b) (h1 : d - 2 * a + 2 * b < 2 * d) :
    2 * abs (b - a) ≤ d := by
  unfold abs
  split_ifs <;> omega

/-- C35, amended: for points `p0`, `p1` with coordinates of magnitude at most `2^51`,
every point `Line` passes to `Set` is within half a pixel of the ideal segment along the
minor axis.  With `dx = |p1.X-p0.X|` and `dy = |p1.Y-p0.Y|`, the `i`-th point is `i` steps
from `p0` on the major axis and some `k ≥ 0` steps on the minor axis, with
`2*|k*dx - i*dy| ≤ dx` when `dx > dy` and `2*|k*dy - i*dx| ≤ dy` otherwise. -/
theorem Line_half_pixel (p0 p1 : Point) (h0 : p0.small) (h1 : p1.small) :
    ∃ pts, linePoints p0 p1 = some pts ∧
      (∀ b c, Line b p0 p1 c = setAll b pts c) ∧
      ∀ i : Nat, i < pts.length → ∃ k : Int, 0 ≤ k ∧
        if abs (p1.X - p0.X) > abs (p1.Y - p0.Y) then
          pts[i]? = some ⟨p0.X + (if p0.X ≤ p1.X then 1 else -1) * i,
            p0.Y + (if p0.Y ≤ p1.Y then 1 else -1) * k⟩ ∧
          2 * abs (k * abs (p1.X - p0.X) - i * abs (p1.Y - p0.Y)) ≤ abs (p1.X - p0.X)
        else
          pts[i]? = some ⟨p0.X + (if p0.X ≤ p1.X then 1 else -1) * k,
            p0.Y + (if p0.Y ≤ p1.Y then 1 else -1) * i⟩ ∧
          2 * abs (k * abs (p1.Y - p0.Y) - i * abs (p1.X - p0.X)) ≤ abs (p1.Y - p0.Y) := by
  obtain ⟨pts, hp, -, hidx⟩ := linePoints_index p0 p1 _ _ _ _ rfl rfl rfl rfl
  replace hp : linePoints p0 p1 = some pts := (linePoints_eq_exact p0 p1 h0 h1).trans hp
  clear h0 h1
  refine ⟨pts, hp, fun b c => by simp only [Line, hp, Option.some_bind], ?_⟩
  intro i hi
  obtain ⟨k, hk0, hk⟩ := hidx i hi
  refine ⟨k, hk0, ?_⟩
  have hdx0 := (abs_sign p0.X p1.X).1
  have hdy0 := (abs_sign p0.Y p1.Y).1
  generalize abs (p1.X - p0.X) = dx at *
  generalize abs (p1.Y - p0.Y) = dy at *
  by_cases hmaj : dx > dy
  · rw [if_pos hmaj] at hk ⊢
    refine ⟨hk.1, ?_⟩
    rw [mul_comm k dx]
    exact half_bound dx (i * dy) (dx * k) hk.2.1 hk.2.2
  · rw [if_neg hmaj] at hk ⊢
    refine ⟨hk.1, ?_⟩
    rw [mul_comm k dy]
    by_cases hdy : 0 < dy
    · exact half_bound dy (i * dx) (dy * k) hk.2.1 (hk.2.2.1 hdy)
    · have hd0 : dy = 0 := by omega
      have hx0 : dx = 0 := by omega
      rw [hd0, hx0]
      simp [abs]

theorem Line_half_pixel_witness :
    ∃ pts, linePoints ⟨0, 0⟩ ⟨4, 2⟩ = some pts ∧
      ∃ k : Int, 0 ≤ k ∧ pts[1]? = some ⟨0 + 1 * ((1 : Nat) : Int), 0 + 1 * k⟩ ∧
        2 * abs (k * abs (4 - 0) - ((1 : Nat) : Int) * abs (2 - 0)) ≤ abs (4 - 0) :=
  (Line_half_pixel ⟨0, 0⟩ ⟨4, 2⟩ (by decide) (by decide)).imp
    fun pts hp => ⟨hp.1, (hp.2.2 1 (by
      have h := hp.1
      have e : linePoints ⟨0, 0⟩ ⟨4, 2⟩ = some [⟨0, 0⟩, ⟨1, 0⟩, ⟨2, 1⟩, ⟨3, 1⟩, ⟨4, 2⟩] := by
        decide
      rw [e] at h
      cases h
      decide)).imp fun _ hk => ⟨hk.1, hk.2⟩⟩

/-- C35, as stated, fails outside the exact range.  From (0,0) to (2^53+1, 2^53) the
conversion `float64(dx)` rounds and `y` advances with every `x`: the point set after
`2^53` steps on the major axis is (2^53, 2^53), `2^53` steps on the minor axis, where
`2*|k*dx - i*dy| = 2^54` exceeds `dx`.  From (-2^63, 0) to (0, 1) the difference on `x`
wraps and `Line` sets (-2^63, 0) and (-2^63, 1), one step along `y` and none along `x`,
although `x` is the major axis. -/
theorem Line_half_pixel_overflow :
    (∃ pts, linePoints ⟨0, 0⟩ ⟨2 ^ 53 + 1, 2 ^ 53⟩ = some pts ∧
      pts[2 ^ 53]? = some ⟨0 + 1 * 2 ^ 53, 0 + 1 * 2 ^ 53⟩ ∧
      abs (2 ^ 53 + 1 - 0) > abs (2 ^ 53 - 0) ∧
      ¬ 2 * abs (2 ^ 53 * abs (2 ^ 53 + 1 - 0) - 2 ^ 53 * abs (2 ^ 53 - 0))
        ≤ abs (2 ^ 53 + 1 - 0)) ∧
    linePoints ⟨-(2 ^ 63), 0⟩ ⟨0, 1⟩ = some [⟨-(2 ^ 63), 0⟩, ⟨-(2 ^ 63), 1⟩] ∧
    abs (0 - -(2 ^ 63)) > abs (1 - 0) := by
  refine ⟨?_, by decide, by decide⟩
  obtain ⟨pts, hp, -, hidx⟩ := linePoints_drift
  refine ⟨pts, hp, ?_, by decide, by decide⟩
  rw [hidx _ (by omega)]
  decide

theorem abs_sub_comm (a b : Int) : abs (a - b) = abs (b - a) := by
  unfold abs
  split_ifs <;> omega

/-- Minor-axis steps of a line and of the reversed line at the same major coordinate:
`k` steps forward after `i` major steps, `k'` steps backward after `d - i` major steps,
both with the doubled error term in `[0, 2*d)`.  The positions `k` and `m - k'` agree
unless the ideal line passes exactly half way between two pixels, where the backward
line is one step further. -/
theorem tie_lemma (d m i k k' : Int) (hd : 0 < d)
    (F0 : 0 ≤ d - 2 * (i * m) + 2 * (d * k)) (F1 : d - 2 * (i * m) + 2 * (d * k) < 2 * d)
    (B0 : 0 ≤ d - 2 * ((d - i) * m) + 2 * (d * k'))
    (B1 : d - 2 * ((d - i) * m) + 2 * (d * k') < 2 * d) :
    m - k' = k + if 0 < d ∧ (2 * d) ∣ (2 * i * m + d) then 1 else 0 := by
  have eB : d - 2 * ((d - i) * m) + 2 * (d * k') = d + 2 * (i * m) - 2 * (d * (m - k')) := by
    ring
  rw [eB] at B0 B1
  have hu : d * (m - k' - k) = d * (m - k') - d * k := by ring
  have hu0 : 0 ≤ m - k' - k := by
    by_contra hneg
    have : d * (m - k' - k) ≤ d * (-1) := mul_le_mul_of_nonneg_left (by omega) hd.le
    omega
  have hu1 : m - k' - k ≤ 1 := by
    by_contra hgt
    have : d * 2 ≤ d * (m - k' - k) := mul_le_mul_of_nonneg_left (by omega) hd.le
    omega
  by_cases htie : 0 < d ∧ (2 * d) ∣ (2 * i * m + d)
  · rw [if_pos htie]
    obtain ⟨-, t, ht⟩ := htie
    have e : 2 * i * m = 2 * (i * m) := by ring
    have e2 : 2 * d * t = 2 * (d * t) := by ring
    rw [e, e2] at ht
    by_contra hne
    have hK : m - k' = k := by omega
    rw [hK] at B1
    have h1 : d * k < d * t := by omega
    have h2 : d * (t - 1) < d * k := by
      have e3 : d * (t - 1) = d * t - d := by ring
      omega
    have h3 : k < t := lt_of_mul_lt_mul_left h1 hd.le
    have h4 : t - 1 < k := lt_of_mul_lt_mul_left h2 hd.le
    omega
  · rw [if_neg htie]
    by_contra hne
    have hK : m - k' = k + 1 := by omega
    apply htie
    refine ⟨hd, k + 1, ?_⟩
    rw [hK] at B0
    have e3 : d * (k + 1) = d * k + d := by ring
    have e : 2 * i * m = 2 * (i * m) := by ring
    have e2 : 2 * d * (k + 1) = 2 * (d * k) + 2 * d := by ring
    rw [e, e2]
    omega

/-- C36, as stated, fails: `Line` from (0,0) to (2,1) sets (0,0), (1,0), (2,1), while
`Line` from (2,1) to (0,0) sets (2,1), (1,1), (0,0); the pixel (1,0) is set by the first
and not by the second.  Where the difference of the coordinates overflows, the two calls
have no pixel in common: between (-2^63, 0) and (0, 0) each direction sets its own first
point alone. -/
theorem Line_reverse_differs :
    linePoints ⟨0, 0⟩ ⟨2, 1⟩ = some [⟨0, 0⟩, ⟨1, 0⟩, ⟨2, 1⟩] ∧
    linePoints ⟨2, 1⟩ ⟨0, 0⟩ = some [⟨2, 1⟩, ⟨1, 1⟩, ⟨0, 0⟩] ∧
    (⟨1, 0⟩ : Point) ∈ ([⟨0, 0⟩, ⟨1, 0⟩, ⟨2, 1⟩] : List Point) ∧
    (⟨1, 0⟩ : Point) ∉ ([⟨2, 1⟩, ⟨1, 1⟩, ⟨0, 0⟩] : List Point) ∧
    linePoints ⟨-(2 ^ 63), 0⟩ ⟨0, 0⟩ = some [⟨-(2 ^ 63), 0⟩] ∧
    linePoints ⟨0, 0⟩ ⟨-(2 ^ 63), 0⟩ = some [⟨0, 0⟩] := by
  refine ⟨by decide, by decide, by decide, by decide, by decide, by decide⟩

/-- C36, amended: for points `p0`, `p1` with coordinates of magnitude at most `2^51`,
`Line` from `p0` to `p1` and `Line` from `p1` to `p0` set the same number of points, and
the `i`-th point `q` of the first and the `i`-th point from the end `q'` of the second
have the same major-axis coordinate.  Their minor-axis coordinates are
equal too, except at a tie, where the ideal segment passes exactly half way between two
pixels (`2*d` divides `2*i*m + d`, with `d` the major and `m` the minor extent): there `q'`
is one pixel further toward `p1` than `q`. -/
theorem Line_reversed (p0 p1 : Point) (h0 : p0.small) (h1 : p1.small) :
    ∃ pts pts', linePoints p0 p1 = some pts ∧ linePoints p1 p0 = some pts' ∧
      (∀ b c, Line b p0 p1 c = setAll b pts c) ∧ (∀ b c, Line b p1 p0 c = setAll b pts' c) ∧
      pts'.length = pts.length ∧
      ∀ i : Nat, i < pts.length → ∃ q q', pts[i]? = some q ∧
        pts'[pts.length - 1 - i]? = some q' ∧
        if abs (p1.X - p0.X) > abs (p1.Y - p0.Y) then
          q'.X = q.X ∧ q'.Y = q.Y +
            (if 0 < abs (p1.X - p0.X) ∧
                (2 * abs (p1.X - p0.X)) ∣ (2 * i * abs (p1.Y - p0.Y) + abs (p1.X - p0.X))
              then (if p0.Y ≤ p1.Y then 1 else -1) else 0)
        else
          q'.Y = q.Y ∧ q'.X = q.X +
            (if 0 < abs (p1.Y - p0.Y) ∧
                (2 * abs (p1.Y - p0.Y)) ∣ (2 * i * abs (p1.X - p0.X) + abs (p1.Y - p0.Y))
              then (if p0.X ≤ p1.X then 1 else -1) else 0) := by
  obtain ⟨pts, hp, hl, hidx⟩ := linePoints_index p0 p1 _ _ _ _ rfl rfl rfl rfl
  obtain ⟨pts', hp', hl', hidx'⟩ := linePoints_index p1 p0 (abs (p1.X - p0.X))
    (abs (p1.Y - p0.Y)) _ _ (abs_sub_comm p1.X p0.X) (abs_sub_comm p1.Y p0.Y) rfl rfl
  have hlen : pts'.length = pts.length := by omega
  replace hp : linePoints p0 p1 = some pts := (linePoints_eq_exact p0 p1 h0 h1).trans hp
  replace hp' : linePoints p1 p0 = some pts' := (linePoints_eq_exact p1 p0 h1 h0).trans hp'
  clear h0 h1
  refine ⟨pts, pts', hp, hp', fun b c => by simp only [Line, hp, Option.some_bind],
    fun b c => by simp only [Line, hp', Option.some_bind], hlen, ?_⟩
  intro i hi
  obtain ⟨k, hk0, hk⟩ := hidx i hi
  obtain ⟨k', hk0', hk'⟩ := hidx' (pts.length - 1 - i) (by omega)
  obtain ⟨hdx0, hsdx⟩ := abs_sign p0.X p1.X
  obtain ⟨hdy0, hsdy⟩ := abs_sign p0.Y p1.Y
  obtain ⟨x0, y0⟩ := p0
  obtain ⟨x1, y1⟩ := p1
  simp only at hk hk' hsdx hsdy hdx0 hdy0 ⊢
  generalize abs (x1 - x0) = dx at *
  generalize abs (y1 - y0) = dy at *
  have hj : ((pts.length - 1 - i : Nat) : Int) = max dx dy - i := by omega
  rw [hj] at hk'
  by_cases hmaj : dx > dy
  · rw [if_pos hmaj] at hk hk'
    rw [max_eq_left (by omega)] at hk'
    obtain ⟨hq, F0, F1⟩ := hk
    obtain ⟨hq', B0, B1⟩ := hk'
    have htie := tie_lemma dx dy i k k' (by omega) F0 F1 B0 B1
    refine ⟨_, _, hq, hq', ?_⟩
    rw [if_pos hmaj]
    simp only
    by_cases hx : x0 ≤ x1 <;> by_cases hx' : x1 ≤ x0 <;> by_cases hy : y0 ≤ y1 <;>
      by_cases hy' : y1 ≤ y0 <;>
      simp only [hx, hx', hy, hy', if_true, if_false] at hsdx hsdy ⊢ <;>
      split_ifs at htie ⊢ <;> constructor <;> omega
  · rw [if_neg hmaj] at hk hk'
    rw [max_eq_right (by omega)] at hk'
    obtain ⟨hq, F0, F1, hz⟩ := hk
    obtain ⟨hq', B0, B1, hz'⟩ := hk'
    refine ⟨_, _, hq, hq', ?_⟩
    rw [if_neg hmaj]
    simp only
    by_cases hdy : 0 < dy
    · have htie := tie_lemma dy dx i k k' hdy F0 (F1 hdy) B0 (B1 hdy)
      by_cases hx : x0 ≤ x1 <;> by_cases hx' : x1 ≤ x0 <;> by_cases hy : y0 ≤ y1 <;>
        by_cases hy' : y1 ≤ y0 <;>
        simp only [hx, hx', hy, hy', if_true, if_false] at hsdx hsdy ⊢ <;>
        split_ifs at htie ⊢ <;> constructor <;> omega
    · have hd0 : dy = 0 := by omega
      have hi0 : (i : Int) = 0 := by
        rw [max_eq_right (by omega)] at hl
        omega
      have hkz := hz hd0
      have hkz' := hz' hd0
      subst hkz hkz'
      have hnt : ¬ (0 < dy ∧ (2 * dy) ∣ (2 * (i : Int) * dx + dy)) := fun h => hdy h.1
      rw [if_neg hnt]
      by_cases hx : x0 ≤ x1 <;> by_cases hx' : x1 ≤ x0 <;> by_cases hy : y0 ≤ y1 <;>
        by_cases hy' : y1 ≤ y0 <;>
        simp only [hx, hx', hy, hy', if_true, if_false] at hsdx hsdy ⊢ <;>
        constructor <;> omega

theorem Line_reversed_witness :
    ∃ pts pts', linePoints ⟨0, 0⟩ ⟨2, 1⟩ = some pts ∧ linePoints ⟨2, 1⟩ ⟨0, 0⟩ = some pts' ∧
      pts'.length = pts.length :=
  (Line_reversed ⟨0, 0⟩ ⟨2, 1⟩ (by decide) (by decide)).imp
    fun _ h => h.imp fun _ hp => ⟨hp.1, hp.2.1, hp.2.2.2.2.1⟩

end pixel

namespace pixeleffect

/-! ## pixel/pixeleffect/fade.go: the shift fade on RGB565 -/

set_option maxRecDepth 100000 in
theorem hi_fields : ∀ hi < 256,
    (hi &&& 0b11111000) >>> 4 = hi / 16 ∧ ((hi &&& 0b00000111) <<< 2) % 2 ^ 8 = hi % 8 * 4 := by
  decide

set_option maxRecDepth 100000 in
theorem lo_fields : ∀ lo < 256,
    (lo &&& 0b11100000) >>> 6 = lo / 64 ∧ (lo &&& 0b00011111) >>> 1 = lo % 32 / 2 := by
  decide

/-- The two bytes the loop body of `shiftRightRGB565` writes, in arithmetic form. -/
theorem shift565_bytes (hi lo : Nat) (hhi : hi < 256) (hlo : lo < 256) :
    ((((hi &&& 0b11111000) >>> 4) <<< 3) % 2 ^ 8) |||
        (((((hi &&& 0b00000111) <<< 2) % 2 ^ 8) ||| ((lo &&& 0b11100000) >>> 6)) >>> 3)
      = hi / 16 * 8 + hi % 8 / 2 ∧
    ((((((hi &&& 0b00000111) <<< 2) % 2 ^ 8) ||| ((lo &&& 0b11100000) >>> 6)) <<< 5) % 2 ^ 8) |||
        ((lo &&& 0b00011111) >>> 1)
      = (hi % 8 * 4 + lo / 64) % 8 * 32 + lo % 32 / 2 := by
  obtain ⟨h1, h2⟩ := hi_fields hi hhi
  obtain ⟨h3, h4⟩ := lo_fields lo hlo
  rw [h1, h2, h3, h4]
  have hg : hi % 8 * 4 ||| lo / 64 = hi % 8 * 4 + lo / 64 :=
    pixelcolor.or_eq_add _ _ 2 (by omega) (by omega)
  rw [hg]
  simp only [Nat.shiftLeft_eq, Nat.shiftRight_eq_div_pow]
  constructor
  · rw [pixelcolor.or_eq_add _ _ 3 (by omega) (by omega)]
    omega
  · rw [pixelcolor.or_eq_add _ _ 5 (by omega) (by omega)]
    omega

/-- The loop body of `shiftRightRGB565` on a pixel that exists and holds bytes. -/
theorem shiftRightRGB565Body_eq (pix : List Nat) (k : Nat) (hi lo : Nat)
    (hhi : pix[2 * k]? = some hi) (hlo : pix[2 * k + 1]? = some lo)
    (hb1 : hi < 256) (hb2 : lo < 256) :
    shiftRightRGB565Body pix (2 * (k : Int)) =
      some ((pix.set (2 * k) (hi / 16 * 8 + hi % 8 / 2)).set (2 * k + 1)
        ((hi % 8 * 4 + lo / 64) % 8 * 32 + lo % 32 / 2)) := by
  have hl : 2 * k + 1 < pix.length := by
    by_contra hge
    rw [List.getElem?_eq_none (by omega)] at hlo
    cases hlo
  obtain ⟨e1, e2⟩ := shift565_bytes hi lo hb1 hb2
  have i0 : (2 * (k : Int) + 0) = ((2 * k : Nat) : Int) := by push_cast; ring
  have i1 : (2 * (k : Int) + 1) = ((2 * k + 1 : Nat) : Int) := by push_cast; ring
  simp only [shiftRightRGB565Body, i0, i1, pixel.index_natCast, hhi, hlo, Option.bind_eq_bind,
    Option.some_bind, e1, e2, pixel.setIndex]
  rw [if_pos ⟨by omega, by omega⟩]
  simp only [Option.some_bind, List.length_set]
  rw [if_pos ⟨by omega, by omega⟩]
  have t0 : (2 * (k : Int)).toNat = 2 * k := by omega
  have t1 : (2 * (k : Int) + 1).toNat = 2 * k + 1 := by omega
  simp [t0, t1]

/-- The loop of `shiftRightRGB565` after `n` iterations: the first `n` pixels are
rewritten, the others are as before. -/
theorem shift565_fold (pix : List Nat) (hbytes : ∀ p ∈ pix, p < 256) :
    ∀ n : Nat, 2 * n ≤ pix.length →
      ∃ p', (List.range n).foldlM
          (fun pix (k : Nat) => shiftRightRGB565Body pix (2 * (k : Int))) pix = some p' ∧
        p'.length = pix.length ∧
        ∀ k : Nat, 2 * k + 1 < pix.length → ∃ hi lo, hi < 256 ∧ lo < 256 ∧
          pix[2 * k]? = some hi ∧ pix[2 * k + 1]? = some lo ∧
          p'[2 * k]? = some (if k < n then hi / 16 * 8 + hi % 8 / 2 else hi) ∧
          p'[2 * k + 1]? =
            some (if k < n then (hi % 8 * 4 + lo / 64) % 8 * 32 + lo % 32 / 2 else lo) := by
  intro n
  induction n with
  | zero =>
    intro _
    refine ⟨pix, rfl, rfl, ?_⟩
    intro k hk
    have h0 : 2 * k < pix.length := by omega
    refine ⟨pix[2 * k], pix[2 * k + 1], hbytes _ (List.getElem_mem _), hbytes _ (List.getElem_mem _),
      List.getElem?_eq_getElem h0, List.getElem?_eq_getElem hk, ?_, ?_⟩
    · simp [List.getElem?_eq_getElem h0]
    · simp [List.getElem?_eq_getElem hk]
  | succ n ih =>
    intro hn
    obtain ⟨p, hf, hl, hg⟩ := ih (by omega)
    obtain ⟨hi, lo, hb1, hb2, hhi, hlo, hphi, hplo⟩ := hg n (by omega)
    simp only [lt_irrefl, if_false] at hphi hplo
    have hstep := shiftRightRGB565Body_eq p n hi lo hphi hplo hb1 hb2
    refine ⟨(p.set (2 * n) (hi / 16 * 8 + hi % 8 / 2)).set (2 * n + 1)
      ((hi % 8 * 4 + lo / 64) % 8 * 32 + lo % 32 / 2), ?_, ?_, ?_⟩
    · rw [List.range_succ, List.foldlM_append, hf]
      simp only [Option.bind_eq_bind, Option.some_bind, List.foldlM_cons, List.foldlM_nil]
      rw [hstep]
      rfl
    · simp only [List.length_set]
      exact hl
    · intro k hk
      obtain ⟨hi', lo', hb1', hb2', hhi', hlo', hphi', hplo'⟩ := hg k hk
      refine ⟨hi', lo', hb1', hb2', hhi', hlo', ?_, ?_⟩
      · by_cases hkn : k = n
        · subst hkn
          rw [hhi] at hhi'
          cases hhi'
          rw [List.getElem?_set_ne (by omega), List.getElem?_set_self (by omega),
            if_pos (by omega)]
        · rw [List.getElem?_set_ne (by omega), List.getElem?_set_ne (by omega), hphi']
          by_cases hlt : k < n
          · rw [if_pos hlt, if_pos (by omega)]
          · rw [if_neg hlt, if_neg (by omega)]
      · by_cases hkn : k = n
        · subst hkn
          rw [hhi] at hhi'
          rw [hlo] at hlo'
          cases hhi'
          cases hlo'
          rw [List.getElem?_set_self (by simp only [List.length_set]; omega), if_pos (by omega)]
        · rw [List.getElem?_set_ne (by omega), List.getElem?_set_ne (by omega), hplo']
          by_cases hlt : k < n
          · rw [if_pos hlt, if_pos (by omega)]
          · rw [if_neg hlt, if_neg (by omega)]

/-- One call of `shiftRightRGB565` on a buffer of even length holding bytes, per pixel. -/
theorem shiftRightRGB565_spec (im : pixel.RGB565) (heven : im.Pix.length % 2 = 0)
    (hbytes : ∀ p ∈ im.Pix, p < 256) :
    ∃ p', shiftRightRGB565 im = some { im with Pix := p' } ∧ p'.length = im.Pix.length ∧
      ∀ k : Nat, 2 * k + 1 < im.Pix.length → ∃ hi lo, hi < 256 ∧ lo < 256 ∧
        im.Pix[2 * k]? = some hi ∧ im.Pix[2 * k + 1]? = some lo ∧
        p'[2 * k]? = some (hi / 16 * 8 + hi % 8 / 2) ∧
        p'[2 * k + 1]? = some ((hi % 8 * 4 + lo / 64) % 8 * 32 + lo % 32 / 2) := by
  obtain ⟨p', hf, hl, hg⟩ := shift565_fold im.Pix hbytes ((im.Pix.length + 1) / 2) (by omega)
  refine ⟨p', by simp only [shiftRightRGB565, hf, Option.map_some'], hl, ?_⟩
  intro k hk
  obtain ⟨hi, lo, hb1, hb2, hhi, hlo, hphi, hplo⟩ := hg k hk
  rw [if_pos (by omega)] at hphi hplo
  exact ⟨hi, lo, hb1, hb2, hhi, hlo, hphi, hplo⟩

/-- Big-endian 16-bit value of two bytes, and its three fields, in arithmetic form. -/
theorem uint16_fields (hi lo : Nat) (hlo : lo < 256) :
    lo ||| (hi <<< 8) = hi * 256 + lo ∧
    ∀ v : Nat, v >>> 11 = v / 2048 ∧ (v >>> 5) &&& 0x3f = v / 32 % 64 ∧ v &&& 0x1f = v % 32 := by
  constructor
  · rw [Nat.or_comm, Nat.shiftLeft_eq, pixelcolor.or_eq_add _ _ 8 (by omega) (by omega)]
  · intro v
    refine ⟨by rw [Nat.shiftRight_eq_div_pow], ?_, ?_⟩
    · rw [Nat.shiftRight_eq_div_pow, show (0x3f : Nat) = 2 ^ 6 - 1 from rfl,
        Nat.and_pow_two_sub_one_eq_mod]
    · rw [show (0x1f : Nat) = 2 ^ 5 - 1 from rfl, Nat.and_pow_two_sub_one_eq_mod]

/-- The three fields of a big-endian 16-bit pixel from its two bytes. -/
theorem fields_arith (hi lo : Nat) (hlo : lo < 256) :
    (hi * 256 + lo) / 2048 = hi / 8 ∧ (hi * 256 + lo) / 32 % 64 = hi % 8 * 8 + lo / 32 ∧
      (hi * 256 + lo) % 32 = lo % 32 := by
  refine ⟨by omega, by omega, by omega⟩

/-- The bytes written by the loop body of `shiftRightRGB565` hold the halved fields. -/
theorem halved_fields (hi lo : Nat) (hlo : lo < 256) :
    ((hi / 16 * 8 + hi % 8 / 2) * 256 + ((hi % 8 * 4 + lo / 64) % 8 * 32 + lo % 32 / 2)) / 2048
      = (hi * 256 + lo) / 2048 / 2 ∧
    ((hi / 16 * 8 + hi % 8 / 2) * 256 + ((hi % 8 * 4 + lo / 64) % 8 * 32 + lo % 32 / 2)) / 32 % 64
      = (hi * 256 + lo) / 32 % 64 / 2 ∧
    ((hi / 16 * 8 + hi % 8 / 2) * 256 + ((hi % 8 * 4 + lo / 64) % 8 * 32 + lo % 32 / 2)) % 32
      = (hi * 256 + lo) % 32 / 2 := by
  obtain ⟨d1, d2, d3⟩ := fields_arith hi lo hlo
  obtain ⟨d4, d5, d6⟩ := fields_arith (hi / 16 * 8 + hi % 8 / 2)
    ((hi % 8 * 4 + lo / 64) % 8 * 32 + lo % 32 / 2) (by omega)
  rw [d1, d2, d3, d4, d5, d6]
  clear d1 d2 d3 d4 d5 d6
  refine ⟨by omega, by omega, by omega⟩

theorem Uint16_pair (pix : List Nat) (k hi lo : Nat) (hhi : pix[2 * k]? = some hi)
    (hlo : pix[2 * k + 1]? = some lo) :
    pixel.Uint16 pix (2 * (k : Int)) = some (lo ||| (hi <<< 8)) := by
  have i0 : (2 * (k : Int)) = ((2 * k : Nat) : Int) := by push_cast; ring
  have i1 : (((2 * k : Nat) : Int) + 1) = ((2 * k + 1 : Nat) : Int) := by push_cast; ring
  simp only [pixel.Uint16, i0, i1, pixel.index_natCast, hhi, hlo, Option.bind_eq_bind,
    Option.some_bind]
  rfl

/-- One call of `shiftRightRGB565` halves upper bounds on the three fields of every pixel
and leaves bytes in `Pix`. -/
theorem shift565_bound (im : pixel.RGB565) (heven : im.Pix.length % 2 = 0)
    (hbytes : ∀ p ∈ im.Pix, p < 256) (r g b : Nat)
    (hf : ∀ k : Nat, 2 * k + 1 < im.Pix.length → ∃ hi lo,
      im.Pix[2 * k]? = some hi ∧ im.Pix[2 * k + 1]? = some lo ∧
      (hi * 256 + lo) / 2048 ≤ r ∧ (hi * 256 + lo) / 32 % 64 ≤ g ∧ (hi * 256 + lo) % 32 ≤ b) :
    ∃ p', shiftRightRGB565 im = some { im with Pix := p' } ∧ p'.length % 2 = 0 ∧
      p'.length = im.Pix.length ∧ (∀ p ∈ p', p < 256) ∧
      ∀ k : Nat, 2 * k + 1 < p'.length → ∃ hi lo,
        p'[2 * k]? = some hi ∧ p'[2 * k + 1]? = some lo ∧
        (hi * 256 + lo) / 2048 ≤ r / 2 ∧ (hi * 256 + lo) / 32 % 64 ≤ g / 2 ∧
        (hi * 256 + lo) % 32 ≤ b / 2 := by
  obtain ⟨p', hs, hl, hg⟩ := shiftRightRGB565_spec im heven hbytes
  refine ⟨p', hs, by omega, hl, ?_, ?_⟩
  · intro p hp
    obtain ⟨j, hj⟩ := List.getElem?_of_mem hp
    have hjl : j < p'.length := by
      by_contra hge
      rw [List.getElem?_eq_none (by omega)] at hj
      cases hj
    obtain ⟨hi, lo, hb1, hb2, -, -, hphi, hplo⟩ := hg (j / 2) (by omega)
    rcases Nat.mod_two_eq_zero_or_one j with h0 | h1
    · have e : 2 * (j / 2) = j := by omega
      rw [e, hj] at hphi
      simp only [Option.some.injEq] at hphi
      omega
    · have e : 2 * (j / 2) + 1 = j := by omega
      rw [e, hj] at hplo
      simp only [Option.some.injEq] at hplo
      omega
  · intro k hk
    obtain ⟨hi, lo, hb1, hb2, hhi, hlo, hphi, hplo⟩ := hg k (by omega)
    obtain ⟨hi0, lo0, hhi0, hlo0, h1, h2, h3⟩ := hf k (by omega)
    rw [hhi] at hhi0
    rw [hlo] at hlo0
    cases hhi0
    cases hlo0
    obtain ⟨d1, d2, d3⟩ := halved_fields hi lo hb2
    refine ⟨_, _, hphi, hplo, ?_, ?_, ?_⟩
    · rw [d1]; exact Nat.div_le_div_right h1
    · rw [d2]; exact Nat.div_le_div_right h2
    · rw [d3]; exact Nat.div_le_div_right h3

/-- C34: on an RGB565 buffer whose `Pix` has even length (and holds bytes), one
`ShiftRight` (`shiftRightRGB565`) returns a buffer of the same length in which every pixel
has each of its three fields halved: if the big-endian 16-bit value was `v` and is now `v'`,
then R5, G6 and B5 of `v'` are R5, G6 and B5 of `v` shifted right by one.  After
`shiftRightRGB565MaxSteps` = 6 applications, which is what `FadeOutShift` performs, every
byte of `Pix` is zero. -/
theorem shiftRightRGB565_halves (im : pixel.RGB565) (heven : im.Pix.length % 2 = 0)
    (hbytes : ∀ p ∈ im.Pix, p < 2 ^ 8) :
    (∃ p', shiftRightRGB565 im = some { im with Pix := p' } ∧
      ShiftRight (.rgb565 im) = some (.rgb565 { im with Pix := p' }) ∧
      p'.length = im.Pix.length ∧
      ∀ k : Nat, 2 * k + 1 < im.Pix.length →
        ∃ v v', pixel.Uint16 im.Pix (2 * (k : Int)) = some v ∧
          pixel.Uint16 p' (2 * (k : Int)) = some v' ∧
          v' >>> 11 = (v >>> 11) >>> 1 ∧
          (v' >>> 5) &&& 0x3f = ((v >>> 5) &&& 0x3f) >>> 1 ∧
          v' &&& 0x1f = (v &&& 0x1f) >>> 1) ∧
    (∃ p6, repeatWithin shiftRightRGB565MaxSteps (fun _ b => shiftRightRGB565 b) im
        = some { im with Pix := p6 } ∧
      FadeOutShift (.rgb565 im) = some (.rgb565 { im with Pix := p6 }) ∧
      p6.length = im.Pix.length ∧ ∀ j : Nat, j < im.Pix.length → p6[j]? = some 0) := by
  have hbytes' : ∀ p ∈ im.Pix, p < 256 := hbytes
  constructor
  · obtain ⟨p', hs, hl, hg⟩ := shiftRightRGB565_spec im heven hbytes'
    refine ⟨p', hs, by simp only [ShiftRight, hs, Option.map_some'], hl, ?_⟩
    intro k hk
    obtain ⟨hi, lo, hb1, hb2, hhi, hlo, hphi, hplo⟩ := hg k hk
    refine ⟨_, _, Uint16_pair _ k hi lo hhi hlo, Uint16_pair _ k _ _ hphi hplo, ?_⟩
    rw [(uint16_fields hi lo hb2).1, (uint16_fields _ _ (show
      (hi % 8 * 4 + lo / 64) % 8 * 32 + lo % 32 / 2 < 256 by omega)).1]
    obtain ⟨a1, a2, a3⟩ := (uint16_fields hi lo hb2).2 (hi * 256 + lo)
    obtain ⟨c1, c2, c3⟩ := (uint16_fields hi lo hb2).2
      ((hi / 16 * 8 + hi % 8 / 2) * 256 + ((hi % 8 * 4 + lo / 64) % 8 * 32 + lo % 32 / 2))
    rw [a1, a2, a3, c1, c2, c3]
    simp only [Nat.shiftRight_eq_div_pow, Nat.pow_one]
    exact halved_fields hi lo hb2
  · have h0 : ∀ k : Nat, 2 * k + 1 < im.Pix.length → ∃ hi lo,
        im.Pix[2 * k]? = some hi ∧ im.Pix[2 * k + 1]? = some lo ∧
        (hi * 256 + lo) / 2048 ≤ 31 ∧ (hi * 256 + lo) / 32 % 64 ≤ 63 ∧
        (hi * 256 + lo) % 32 ≤ 31 := by
      intro k hk
      have hk0 : 2 * k < im.Pix.length := by omega
      have b1 := hbytes' _ (List.getElem_mem hk0)
      have b2 := hbytes' _ (List.getElem_mem hk)
      exact ⟨im.Pix[2 * k], im.Pix[2 * k + 1], List.getElem?_eq_getElem hk0,
        List.getElem?_eq_getElem hk, by omega, by omega, by omega⟩
    obtain ⟨p1, s1, e1, l1, y1, f1⟩ := shift565_bound im heven hbytes' 31 63 31 h0
    obtain ⟨p2, s2, e2, l2, y2, f2⟩ := shift565_bound { im with Pix := p1 } e1 y1 _ _ _ f1
    obtain ⟨p3, s3, e3, l3, y3, f3⟩ := shift565_bound { im with Pix := p2 } e2 y2 _ _ _ f2
    obtain ⟨p4, s4, e4, l4, y4, f4⟩ := shift565_bound { im with Pix := p3 } e3 y3 _ _ _ f3
    obtain ⟨p5, s5, e5, l5, y5, f5⟩ := shift565_bound { im with Pix := p4 } e4 y4 _ _ _ f4
    obtain ⟨p6, s6, e6, l6, y6, f6⟩ := shift565_bound { im with Pix := p5 } e5 y5 _ _ _ f5
    have hrep : repeatWithin shiftRightRGB565MaxSteps (fun _ b => shiftRightRGB565 b) im
        = some { im with Pix := p6 } := by
      have hr : List.range shiftRightRGB565MaxSteps = [0, 1, 2, 3, 4, 5] := rfl
      simp only [repeatWithin, hr, List.foldlM_cons, List.foldlM_nil, Option.bind_eq_bind]
      rw [s1, Option.some_bind, s2, Option.some_bind, s3, Option.some_bind, s4,
        Option.some_bind, s5, Option.some_bind, s6, Option.some_bind]
      rfl
    have hlen : p6.length = im.Pix.length := by
      simp only at l1 l2 l3 l4 l5 l6
      omega
    refine ⟨p6, hrep, by simp only [FadeOutShift, hrep, Option.map_some'], hlen, ?_⟩
    intro j hj
    obtain ⟨hi, lo, hhi, hlo, g1, g2, g3⟩ := f6 (j / 2) (by omega)
    have hlo256 : lo < 256 := y6 lo (List.getElem?_mem hlo)
    have hz : hi = 0 ∧ lo = 0 := by
      obtain ⟨d1, d2, d3⟩ := fields_arith hi lo hlo256
      rw [d1] at g1
      rw [d2] at g2
      rw [d3] at g3
      simp only [Nat.reduceDiv] at g1 g2 g3
      omega
    rcases Nat.mod_two_eq_zero_or_one j with h0 | h1
    · have e : 2 * (j / 2) = j := by omega
      rw [e] at hhi
      rw [hhi, hz.1]
    · have e : 2 * (j / 2) + 1 = j := by omega
      rw [e] at hlo
      rw [hlo, hz.2]

theorem shiftRightRGB565_halves_witness :
    ∃ p', shiftRightRGB565 ⟨⟨⟨0, 0⟩, ⟨1, 1⟩⟩, [0xff, 0xff], 2⟩
        = some ⟨⟨⟨0, 0⟩, ⟨1, 1⟩⟩, p', 2⟩ ∧
      ∃ v v', pixel.Uint16 [0xff, 0xff] (2 * ((0 : Nat) : Int)) = some v ∧
        pixel.Uint16 p' (2 * ((0 : Nat) : Int)) = some v' ∧
        v' >>> 11 = (v >>> 11) >>> 1 :=
  (shiftRightRGB565_halves ⟨⟨⟨0, 0⟩, ⟨1, 1⟩⟩, [0xff, 0xff], 2⟩ (by decide) (by decide)).1.imp
    fun _ hp => ⟨hp.1, (hp.2.2.2 0 (by decide)).imp fun _ hv => hv.imp fun _ hw =>
      ⟨hw.1, hw.2.1, hw.2.2.1⟩⟩

end pixeleffect

namespace buffer

/-! ## buffer/buffer.go: integer kinds of WriteInterface -/

theorem toDigitsCore_ne_nil (b : Nat) :
    ∀ (fuel n : Nat) (ds : List Char), ds ≠ [] → Nat.toDigitsCore b fuel n ds ≠ [] := by
  intro fuel
  induction fuel with
  | zero => intro n ds h; simpa [Nat.toDigitsCore] using h
  | succ fuel ih =>
    intro n ds _
    simp only [Nat.toDigitsCore]
    split_ifs
    · simp
    · exact ih _ _ (by simp)

theorem toDigits_ne_nil (n : Nat) : Nat.toDigits 10 n ≠ [] := by
  simp only [Nat.toDigits, Nat.toDigitsCore]
  split_ifs
  · simp
  · exact toDigitsCore_ne_nil 10 _ _ _ (by simp)

/-- C40, evaluated at the failing input: the case `uint64` of `WriteInterface` appends the
decimal text of the value twice, so the result is never that of one `AppendUint`: on the
buffer `x`, writing `uint64(7)` gives `x77` where `AppendUint(7)` gives `x7`.  The other nine
integer kinds append once, as one `AppendInt` or `AppendUint`. -/
theorem WriteInterface_uint64_twice (b : Buffer) (v : Nat) :
    (b.WriteInterface (.uint64 v)).bs = (b.AppendUint v).bs ++ (Nat.toDigits 10 v).map Char.toNat ∧
    (b.WriteInterface (.uint64 v)) ≠ b.AppendUint v ∧
    (Buffer.mk [120]).WriteInterface (.uint64 7) = ⟨[120, 55, 55]⟩ ∧
    (Buffer.mk [120]).AppendUint 7 = ⟨[120, 55]⟩ ∧
    (∀ i : Int, b.WriteInterface (.int i) = b.AppendInt i ∧
      b.WriteInterface (.int8 i) = b.AppendInt i ∧ b.WriteInterface (.int16 i) = b.AppendInt i ∧
      b.WriteInterface (.int32 i) = b.AppendInt i ∧ b.WriteInterface (.int64 i) = b.AppendInt i) ∧
    (∀ u : Nat, b.WriteInterface (.uint u) = b.AppendUint u ∧
      b.WriteInterface (.uint8 u) = b.AppendUint u ∧
      b.WriteInterface (.uint16 u) = b.AppendUint u ∧
      b.WriteInterface (.uint32 u) = b.AppendUint u) := by
  refine ⟨rfl, ?_, by decide, by decide, fun _ => ⟨rfl, rfl, rfl, rfl, rfl⟩,
    fun _ => ⟨rfl, rfl, rfl, rfl⟩⟩
  intro h
  have h2 : (b.WriteInterface (.uint64 v)).bs = (b.AppendUint v).bs := by rw [h]
  have h3 : (b.WriteInterface (.uint64 v)).bs
      = (b.AppendUint v).bs ++ (Nat.toDigits 10 v).map Char.toNat := rfl
  rw [h3] at h2
  have h4 := congrArg List.length h2
  simp only [List.length_append, List.length_map] at h4
  have h5 : 0 < (Nat.toDigits 10 v).length := List.length_pos.mpr (toDigits_ne_nil v)
  omega

end buffer
